import Mathlib

/-!
TPC ExB distortion correction (`AliTPCExBExact`)

A shallow embedding of `TPC/AliTPCExBExact.cxx` / `.h`.

Modelling conventions
* `Double_t` / `Float_t` values are exact rationals (`ℚ`): rounding, overflow, NaN and
  infinities are not modelled.  Every statement below is a statement about the
  arithmetic the code writes down, evaluated exactly.  The one exception is the count
  of loop iterations, a discrete quantity that rounding can change: the definitions
  with a name ending in `D` repeat the loop with every result rounded to binary64.
* `Int_t` values are unbounded integers (`ℤ`); where the code computes the size of the
  table, the 32-bit wrap-around is explicit (`wrapInt`).
* `Double_t x[3]` arrays are `Vec3` records, component `i` being `Vec3.get i`.
* The heap array `fLook` is a memory `ℤ → ℚ` (flat index to value); the number of
  allocated cells is `tableSize`.  The allocation itself can fail: `newLook` takes the
  largest array the allocator grants as a parameter `heap`.
* `TMath::Sqrt` is a library function that is not part of the sources; it is a
  parameter `Sqrt : ℚ → ℚ` of `Correct`.
* The magnetic field backend (`AliMagF::Field` / `AliFieldMap::Field`) is a parameter
  `Field : Vec3 → Vec3` (position in cm to field in kGauss).  The class `AliFieldMap`
  is not part of the sources; its mesh accessors (`Xmin`, `Xmax`, `DelX`, ...) are the
  fields of the record `AliFieldMap`.
* The `while` loop of `CalculateDistortion` has no bound in the source; it is run with
  an explicit fuel and returns `none` when the fuel is exhausted before the loop
  condition fails.  The loop state carries a ghost counter of `DGLStep` calls.
* Division by zero is `0` in `ℚ` and `±inf`/`NaN` in the source; statements whose
  content depends on a quotient carry the hypotheses that keep its denominator away
  from zero (`driftVelocity > 0`, `fkN ≥ 1`, at least two nodes per axis, `fkZMax > 0`).
-/

/-- A `Double_t[3]` array. -/
structure Vec3 where
  x : ℚ
  y : ℚ
  z : ℚ
deriving DecidableEq

namespace Vec3

/-- Component `i` of the array (`v[i]`), for `i = 0, 1, 2`. -/
def get (v : Vec3) (i : ℕ) : ℚ :=
  match i with
  | 0 => v.x
  | 1 => v.y
  | _ => v.z

end Vec3

/-- The data members of the class `AliTPCExBExact` (`AliTPCExBExact.h`, lines 26-38);
`Field` stands for whichever of `fkMap` / `fkField` is non-null. -/
structure AliTPCExBExact where
  Field : Vec3 → Vec3
  fDriftVelocity : ℚ
  fkN : ℤ
  fkNX : ℤ
  fkNY : ℤ
  fkNZ : ℤ
  fkXMin : ℚ
  fkXMax : ℚ
  fkYMin : ℚ
  fkYMax : ℚ
  fkZMin : ℚ
  fkZMax : ℚ
  fLook : ℤ → ℚ

namespace AliTPCExBExact

/-- Elementary charge over electron mass (`.cxx` line 7). -/
def fgkEM : ℚ := 1.602176487e-19 / 9.10938215e-31

/-- The drift field modulus in V/m (`.cxx` line 8). -/
def fgkDriftField : ℚ := 40.e3

/-- The conversion `static_cast<Int_t>(double)`: truncation toward zero. -/
def toInt (x : ℚ) : ℤ := if 0 ≤ x then ⌊x⌋ else ⌈x⌉

/-- Method `GetE` (`.cxx` lines 186-193). -/
def GetE (x : Vec3) : Vec3 :=
  ⟨0, 0, (if x.z < 0 then -1 else 1) * fgkDriftField⟩

/-- Method `GetB` (`.cxx` lines 195-209): metres to centimetres on the way in, kGauss to Tesla
on the way out. -/
def GetB (o : AliTPCExBExact) (x : Vec3) : Vec3 :=
  let xm : Vec3 := ⟨x.x * 100, x.y * 100, x.z * 100⟩
  let Bf := o.Field xm
  ⟨Bf.x / 10, Bf.y / 10, Bf.z / 10⟩

/-- Method `Motion` (`.cxx` lines 211-236); the time argument is unused, as in the source. -/
def Motion (o : AliTPCExBExact) (x : Vec3) (_t : ℚ) : Vec3 :=
  let tau := o.fDriftVelocity / fgkDriftField / fgkEM
  let tau2 := tau * tau
  let E := GetE x
  let B := o.GetB x
  let wx := fgkEM * B.x
  let wy := fgkEM * B.y
  let wz := fgkEM * B.z
  let ex := fgkEM * E.x
  let ey := fgkEM * E.y
  let ez := fgkEM * E.z
  let w2 := wx * wx + wy * wy + wz * wz
  let d0 := (1 + wx * wx * tau2) * ex + (wz * tau + wx * wy * tau2) * ey
              + (-wy * tau + wx * wz * tau2) * ez
  let d1 := (-wz * tau + wx * wy * tau2) * ex + (1 + wy * wy * tau2) * ey
              + (wx * tau + wy * wz * tau2) * ez
  let d2 := (wy * tau + wx * wz * tau2) * ex + (-wx * tau + wy * wz * tau2) * ey
              + (1 + wz * wz * tau2) * ez
  let fac := tau / (1 + w2 * tau2)
  ⟨d0 * fac, d1 * fac, d2 * fac⟩

/-- Method `DGLStep` (`.cxx` lines 274-283): one explicit Euler step. -/
def DGLStep (o : AliTPCExBExact) (x : Vec3) (t h : ℚ) : Vec3 :=
  let dxdt := o.Motion x t
  ⟨x.x + h * dxdt.x, x.y + h * dxdt.y, x.z + h * dxdt.z⟩

/-- The local variables of `CalculateDistortion` that the `while` loop mutates, plus a
ghost counter `steps` of the `DGLStep` calls made so far. -/
structure LoopState where
  xo : Vec3
  xt : Vec3
  t : ℚ
  steps : ℕ

/-- The step size `h` of `CalculateDistortion` (`.cxx` line 244). -/
def stepSize (o : AliTPCExBExact) : ℚ := 0.01 * 250 / o.fDriftVelocity / o.fkN

/-- The body of the `while` loop (`.cxx` lines 251-254). -/
def loopBody (o : AliTPCExBExact) (h : ℚ) (s : LoopState) : LoopState :=
  ⟨s.xt, o.DGLStep s.xt s.t h, s.t + h, s.steps + 1⟩

/-- The loop `while (TMath::Abs(xt[2])<250.*0.01) { ... }` (`.cxx` lines 250-255), with
fuel: `none` when the condition still holds after `fuel` iterations. -/
def whileLoop (o : AliTPCExBExact) (h : ℚ) : ℕ → LoopState → Option LoopState
  | 0, s => if |s.xt.z| < 250 * 0.01 then none else some s
  | fuel + 1, s =>
    if |s.xt.z| < 250 * 0.01 then whileLoop o h fuel (o.loopBody h s) else some s

/-- The value of `dist` before the reversal at lines 270-271 (`.cxx` lines 256-268):
the end-plane crossing when a step was taken, the start point otherwise. -/
def crossing (o : AliTPCExBExact) (x0 : Vec3) (s : LoopState) : Vec3 :=
  let h := o.stepSize
  if s.t ≠ 0 then
    let p := ((if s.xt.z < 0 then -1 else 1) * 250 * 0.01 - s.xo.z) / (s.xt.z - s.xo.z)
    ⟨(s.xo.x + p * (s.xt.x - s.xo.x)) * 100,
     (s.xo.y + p * (s.xt.y - s.xo.y)) * 100,
     (if x0.z > 0 then -1 else 1) * (s.t - h + p * h) * o.fDriftVelocity * 100
       + (if x0.z < 0 then -1 else 1) * 250⟩
  else
    ⟨x0.x, x0.y, x0.z⟩

/-- The reversal of the distortion (`.cxx` lines 269-271): only `dist[0]` and `dist[1]`
are assigned. -/
def reverse (x0 dist : Vec3) : Vec3 :=
  ⟨x0.x - (dist.x - x0.x), x0.y - (dist.y - x0.y), dist.z⟩

/-- The initial loop state (`.cxx` lines 245-249). -/
def initState (x0 : Vec3) : LoopState :=
  let x0m : Vec3 := ⟨x0.x * 0.01, x0.y * 0.01, x0.z * 0.01⟩
  ⟨x0m, x0m, 0, 0⟩

/-- Method `CalculateDistortion` (`.cxx` lines 238-272). -/
def CalculateDistortion (o : AliTPCExBExact) (fuel : ℕ) (x0 : Vec3) : Option Vec3 :=
  (whileLoop o o.stepSize fuel (initState x0)).map fun s => reverse x0 (o.crossing x0 s)

/-- The loop `for (int i = i0; i < i0 + n; ++i) body`, threading a state through a body
that may fail. -/
def forLoop {σ : Type} (body : ℤ → σ → Option σ) : ℕ → ℤ → σ → Option σ
  | 0, _, s => some s
  | n + 1, i, s => (body i s).bind (forLoop body n (i + 1))

/-- Number of cells of `fLook` allocated by `CreateLookupTable` (`.cxx` line 169). -/
def tableSize (o : AliTPCExBExact) : ℤ := o.fkNX * o.fkNY * o.fkNZ * 2 * 3

/-- The flat index `(((i*fkNY+j)*fkNZ+k)*2+side)*3+c`. -/
def flat (o : AliTPCExBExact) (i j k side c : ℤ) : ℤ :=
  (((i * o.fkNY + j) * o.fkNZ + k) * 2 + side) * 3 + c

/-- Writing the three results of `CalculateDistortion(x, &fLook[base])`. -/
def store3 (look : ℤ → ℚ) (base : ℤ) (d : Vec3) : ℤ → ℚ :=
  fun idx =>
    if idx = base + 2 then d.z
    else if idx = base + 1 then d.y
    else if idx = base then d.x
    else look idx

/-- The start point of node `(i,j,k)` on the positive side (`.cxx` lines 172-177). -/
def nodePos (o : AliTPCExBExact) (i j k : ℤ) : Vec3 :=
  ⟨o.fkXMin + (o.fkXMax - o.fkXMin) / ((o.fkNX - 1 : ℤ) : ℚ) * i,
   o.fkYMin + (o.fkYMax - o.fkYMin) / ((o.fkNY - 1 : ℤ) : ℚ) * j,
   max 0.0001 (1 * o.fkZMax / ((o.fkNZ - 1 : ℤ) : ℚ) * k)⟩

/-- The start point on the negative side (`x[2]=-x[2]`, `.cxx` line 179). -/
def negZ (x : Vec3) : Vec3 := ⟨x.x, x.y, -x.z⟩

/-- The body of the innermost loop of `CreateLookupTable` (`.cxx` lines 176-180). -/
def fillNode (o : AliTPCExBExact) (fuel : ℕ) (i j k : ℤ) (look : ℤ → ℚ) :
    Option (ℤ → ℚ) :=
  (o.CalculateDistortion fuel (o.nodePos i j k)).bind fun d1 =>
    let look1 := store3 look ((((i * o.fkNY + j) * o.fkNZ + k) * 2 + 1) * 3) d1
    (o.CalculateDistortion fuel (negZ (o.nodePos i j k))).bind fun d0 =>
      some (store3 look1 ((((i * o.fkNY + j) * o.fkNZ + k) * 2 + 0) * 3) d0)

/-- The three nested loops of `CreateLookupTable` (`.cxx` lines 171-183), returning the
filled memory. -/
def fillTable (o : AliTPCExBExact) (fuel : ℕ) : Option (ℤ → ℚ) :=
  forLoop (fun i look =>
    forLoop (fun j look =>
      forLoop (fun k look => o.fillNode fuel i j k look) o.fkNZ.toNat 0 look)
      o.fkNY.toNat 0 look)
    o.fkNX.toNat 0 o.fLook

/-- Method `CreateLookupTable` (`.cxx` lines 165-184) from line 170 on: the object with
`fLook` filled, once the allocation of line 169 has succeeded.  The allocation itself
is `newLook`, and `CreateLookupTableOn` puts the two together. -/
def CreateLookupTable (o : AliTPCExBExact) (fuel : ℕ) : Option AliTPCExBExact :=
  (o.fillTable fuel).map fun look => { o with fLook := look }

/-- The member initialisers and the assignment of `fDriftVelocity` of the analytic-field
constructor as DEFINED in `.cxx` lines 10-24, whose parameter list is
`(bField, driftVelocity, nx, ny, nz, n)`.  `zmin` and `look` are the indeterminate
initial contents of `fkZMin` and of the memory behind `fLook`. -/
def init (bField : Vec3 → Vec3) (driftVelocity : ℚ) (nx ny nz n : ℤ)
    (zmin : ℚ) (look : ℤ → ℚ) : AliTPCExBExact :=
  { Field := bField, fDriftVelocity := driftVelocity, fkN := n,
    fkNX := nx, fkNY := ny, fkNZ := nz,
    fkXMin := -250, fkXMax := 250, fkYMin := -250, fkYMax := 250,
    fkZMin := zmin, fkZMax := 250, fLook := look }

/-- The analytic-field constructor (`.cxx` lines 10-26): initialisation followed by
`CreateLookupTable`. -/
def construct (bField : Vec3 → Vec3) (driftVelocity : ℚ) (nx ny nz n : ℤ)
    (zmin : ℚ) (look : ℤ → ℚ) (fuel : ℕ) : Option AliTPCExBExact :=
  (init bField driftVelocity nx ny nz n zmin look).CreateLookupTable fuel

/-- The value an `Int_t` holds after an arithmetic result `x`: two's-complement
wrap-around to 32 bits.  Wrapping after every multiplication gives the same value as
wrapping the exact product once. -/
def wrapInt (x : ℤ) : ℤ := (x + 2147483648) % 4294967296 - 2147483648

/-- The two ways in which line 169 keeps `CreateLookupTable` from filling a table:
`new[]` throws, or the array it returns is not the table the loops address. -/
inductive Fault where
  | badAlloc
  | overrun
deriving DecidableEq

/-- Line 169, `fLook=new Double_t[fkNX*fkNY*fkNZ*2*3]`.  The cell count is an `Int_t`
product.  `new[]` throws when the count is negative or exceeds `heap`, the largest
number of cells the allocator grants.  When the product has wrapped around to a
non-negative count, the array is not the table of `fkNX*fkNY*fkNZ*2*3` cells that the
loops address. -/
def newLook (heap : ℤ) (o : AliTPCExBExact) : Except Fault Unit :=
  if wrapInt o.tableSize < 0 ∨ heap < wrapInt o.tableSize then Except.error Fault.badAlloc
  else if wrapInt o.tableSize ≠ o.tableSize then Except.error Fault.overrun
  else Except.ok ()

/-- Method `CreateLookupTable` (`.cxx` lines 165-184) with its allocation: a fault of
line 169, or the outcome of the loops. -/
def CreateLookupTableOn (o : AliTPCExBExact) (heap : ℤ) (fuel : ℕ) :
    Except Fault (Option AliTPCExBExact) :=
  match newLook heap o with
  | Except.error e => Except.error e
  | Except.ok _ => Except.ok (o.CreateLookupTable fuel)

/-- The analytic-field constructor (`.cxx` lines 10-26) with the allocation of line 169:
initialisation followed by `CreateLookupTable`. -/
def constructOn (heap : ℤ) (bField : Vec3 → Vec3) (driftVelocity : ℚ) (nx ny nz n : ℤ)
    (zmin : ℚ) (look : ℤ → ℚ) (fuel : ℕ) : Except Fault (Option AliTPCExBExact) :=
  (init bField driftVelocity nx ny nz n zmin look).CreateLookupTableOn heap fuel

/-- The part of the class `AliFieldMap` that `AliTPCExBExact` uses: the field lookup
and the mesh accessors read by the field-map constructor.  The class itself is not
part of the sources; its accessors are parameters. -/
structure AliFieldMap where
  Field : Vec3 → Vec3
  Xmin : ℚ
  Xmax : ℚ
  DelX : ℚ
  Ymin : ℚ
  Ymax : ℚ
  DelY : ℚ
  Zmax : ℚ
  DelZ : ℚ

/-- The value assigned to `fkZMax` at `.cxx` lines 51-53, before the clamp of line 54. -/
def rawZMax (bFieldMap : AliFieldMap) : ℚ :=
  bFieldMap.Zmax - ((⌊(bFieldMap.Zmax - 250.0) / bFieldMap.DelZ⌋ : ℤ) : ℚ) * bFieldMap.DelZ

/-- The member initialisers and the body of the field-map constructor up to the call of
`CreateLookupTable` (`.cxx` lines 28-58).  `zmin` and `look` are the indeterminate
initial contents of `fkZMin`, which the constructor reads at line 58 without having
assigned it, and of the memory behind `fLook`. -/
def initMap (bFieldMap : AliFieldMap) (driftVelocity : ℚ) (n : ℤ)
    (zmin : ℚ) (look : ℤ → ℚ) : AliTPCExBExact :=
  let xMin := bFieldMap.Xmin
    - ((⌈(bFieldMap.Xmin + 250.0) / bFieldMap.DelX⌉ : ℤ) : ℚ) * bFieldMap.DelX
  let xMax := bFieldMap.Xmax
    - ((⌊(bFieldMap.Xmax - 250.0) / bFieldMap.DelX⌋ : ℤ) : ℚ) * bFieldMap.DelX
  let yMin := bFieldMap.Ymin
    - ((⌈(bFieldMap.Ymin + 250.0) / bFieldMap.DelY⌉ : ℤ) : ℚ) * bFieldMap.DelY
  let yMax := bFieldMap.Ymax
    - ((⌊(bFieldMap.Ymax - 250.0) / bFieldMap.DelY⌋ : ℤ) : ℚ) * bFieldMap.DelY
  let zMax := max 0 (rawZMax bFieldMap)
  { Field := bFieldMap.Field, fDriftVelocity := driftVelocity, fkN := n,
    fkNX := toInt ((xMax - xMin) / bFieldMap.DelX + 1.1),
    fkNY := toInt ((yMax - yMin) / bFieldMap.DelY + 1.1),
    fkNZ := toInt ((zMax - zmin) / bFieldMap.DelZ + 1.1),
    fkXMin := xMin, fkXMax := xMax, fkYMin := yMin, fkYMax := yMax,
    fkZMin := zmin, fkZMax := zMax, fLook := look }

/-- The field-map constructor (`.cxx` lines 28-61): initialisation followed by
`CreateLookupTable`. -/
def constructMap (bFieldMap : AliFieldMap) (driftVelocity : ℚ) (n : ℤ)
    (zmin : ℚ) (look : ℤ → ℚ) (fuel : ℕ) : Option AliTPCExBExact :=
  (initMap bFieldMap driftVelocity n zmin look).CreateLookupTable fuel

/-- The fractional grid coordinate `x` of `Correct` (`.cxx` line 76). -/
def gx (o : AliTPCExBExact) (position : Vec3) : ℚ :=
  (position.x - o.fkXMin) / (o.fkXMax - o.fkXMin) * ((o.fkNX - 1 : ℤ) : ℚ)

/-- The clamped lower index `xi1` (`.cxx` lines 77-78). -/
def xi1 (o : AliTPCExBExact) (position : Vec3) : ℤ :=
  max (min (toInt (o.gx position)) (o.fkNX - 2)) 0

/-- The fractional grid coordinate `y` of `Correct` (`.cxx` line 83). -/
def gy (o : AliTPCExBExact) (position : Vec3) : ℚ :=
  (position.y - o.fkYMin) / (o.fkYMax - o.fkYMin) * ((o.fkNY - 1 : ℤ) : ℚ)

/-- The clamped lower index `yi1` (`.cxx` lines 84-85). -/
def yi1 (o : AliTPCExBExact) (position : Vec3) : ℤ :=
  max (min (toInt (o.gy position)) (o.fkNY - 2)) 0

/-- The signed grid coordinate `z` before the side split (`.cxx` line 90). -/
def gz0 (o : AliTPCExBExact) (position : Vec3) : ℚ :=
  position.z / o.fkZMax * ((o.fkNZ - 1 : ℤ) : ℚ)

/-- The variable `side` (`.cxx` lines 91-98). -/
def side (o : AliTPCExBExact) (position : Vec3) : ℤ :=
  if o.gz0 position > 0 then 1 else 0

/-- The grid coordinate `z` after the side split (`.cxx` lines 92-98). -/
def gz (o : AliTPCExBExact) (position : Vec3) : ℚ :=
  if o.gz0 position > 0 then o.gz0 position else -o.gz0 position

/-- The clamped lower index `zi1` (`.cxx` lines 99-100). -/
def zi1 (o : AliTPCExBExact) (position : Vec3) : ℤ :=
  max (min (toInt (o.gz position)) (o.fkNZ - 2)) 0

/-- The eight (flat index, weight) pairs summed for component `i` of `corrected`, in
the order of `.cxx` lines 107-114. -/
def terms (o : AliTPCExBExact) (position : Vec3) (i : ℤ) : List (ℤ × ℚ) :=
  let xi1 := o.xi1 position
  let xi2 := xi1 + 1
  let dx := o.gx position - xi1
  let dx1 := xi2 - o.gx position
  let yi1 := o.yi1 position
  let yi2 := yi1 + 1
  let dy := o.gy position - yi1
  let dy1 := yi2 - o.gy position
  let side := o.side position
  let zi1 := o.zi1 position
  let zi2 := zi1 + 1
  let dz := o.gz position - zi1
  let dz1 := zi2 - o.gz position
  [ ((((xi1 * o.fkNY + yi1) * o.fkNZ + zi1) * 2 + side) * 3 + i, dx1 * dy1 * dz1),
    ((((xi1 * o.fkNY + yi1) * o.fkNZ + zi2) * 2 + side) * 3 + i, dx1 * dy1 * dz),
    ((((xi1 * o.fkNY + yi2) * o.fkNZ + zi1) * 2 + side) * 3 + i, dx1 * dy * dz1),
    ((((xi1 * o.fkNY + yi2) * o.fkNZ + zi2) * 2 + side) * 3 + i, dx1 * dy * dz),
    ((((xi2 * o.fkNY + yi2) * o.fkNZ + zi1) * 2 + side) * 3 + i, dx * dy * dz1),
    ((((xi2 * o.fkNY + yi2) * o.fkNZ + zi2) * 2 + side) * 3 + i, dx * dy * dz),
    ((((xi2 * o.fkNY + yi1) * o.fkNZ + zi1) * 2 + side) * 3 + i, dx * dy1 * dz1),
    ((((xi2 * o.fkNY + yi1) * o.fkNZ + zi2) * 2 + side) * 3 + i, dx * dy1 * dz) ]

/-- The interpolated value assigned to `corrected[i]` (`.cxx` lines 105-114). -/
def interp (o : AliTPCExBExact) (position : Vec3) (i : ℤ) : ℚ :=
  ((o.terms position i).map fun p => o.fLook p.1 * p.2).sum

/-- The validity test of `Correct` (`.cxx` lines 71-72): true when the position is
copied unchanged. -/
def outside (Sqrt : ℚ → ℚ) (position : Vec3) : Prop :=
  |position.z| > 250 ∨ Sqrt (position.x * position.x + position.y * position.y) < 90
    ∨ 250 < Sqrt (position.x * position.x + position.y * position.y)

instance (Sqrt : ℚ → ℚ) (position : Vec3) : Decidable (outside Sqrt position) := by
  unfold outside; infer_instance

/-- Method `Correct` (`.cxx` lines 70-117). -/
def Correct (o : AliTPCExBExact) (Sqrt : ℚ → ℚ) (position : Vec3) : Vec3 :=
  if outside Sqrt position then
    ⟨position.x, position.y, position.z⟩
  else
    ⟨o.interp position 0, o.interp position 1, o.interp position 2⟩

/-! ### Reference definitions, written from the specification's wording -/

/-- Per-axis interpolation weight of the specification: `w_0 = 1 - d`, `w_1 = d`. -/
def axisWeight (d : ℚ) (a : ℕ) : ℚ := if a = 0 then 1 - d else d

/-- The specification's lower index of a fractional coordinate `f` on an axis with `N`
nodes: the index `⌊f⌋` of the cell that holds `f`, clamped to `[0, N-2]`.  It is written
with the mathematical floor, not with the conversion `toInt` the code uses. -/
def lowerIndex (f : ℚ) (N : ℤ) : ℤ := max 0 (min ⌊f⌋ (N - 2))

/-- Trilinear reference of the specification (section 4.5): fractional coordinates
`fx`, `fy`, `fz = |z|/ZMax*(Nz-1)`, clamped lower indices, `d = f - lo`,
`side = 1` if `z > 0` else `0`, and the weighted sum over the eight corners
`(a,b,c)` of the cell. -/
def trilinearSpec (o : AliTPCExBExact) (position : Vec3) (i : ℕ) : ℚ :=
  let fx := (position.x - o.fkXMin) / (o.fkXMax - o.fkXMin) * ((o.fkNX : ℚ) - 1)
  let fy := (position.y - o.fkYMin) / (o.fkYMax - o.fkYMin) * ((o.fkNY : ℚ) - 1)
  let fz := |position.z| / o.fkZMax * ((o.fkNZ : ℚ) - 1)
  let lx := lowerIndex fx o.fkNX
  let ly := lowerIndex fy o.fkNY
  let lz := lowerIndex fz o.fkNZ
  let sd : ℤ := if position.z > 0 then 1 else 0
  Finset.sum (Finset.range 2) fun a =>
    Finset.sum (Finset.range 2) fun b =>
      Finset.sum (Finset.range 2) fun c =>
        axisWeight (fx - lx) a * axisWeight (fy - ly) b * axisWeight (fz - lz) c
          * o.fLook (o.flat (lx + a) (ly + b) (lz + c) sd i)

/-- Cross product of two 3-vectors. -/
def cross (a b : Vec3) : Vec3 :=
  ⟨a.y * b.z - a.z * b.y, a.z * b.x - a.x * b.z, a.x * b.y - a.y * b.x⟩

/-- The vector `(I + tau² w⊗w)·e`. -/
def tensorApply (tau : ℚ) (w e : Vec3) : Vec3 :=
  let d := w.x * e.x + w.y * e.y + w.z * e.z
  ⟨e.x + tau * tau * w.x * d, e.y + tau * tau * w.y * d, e.z + tau * tau * w.z * d⟩

/-- The cyclotron vector `w = fgkEM * B` at `x`. -/
def omega (o : AliTPCExBExact) (x : Vec3) : Vec3 :=
  ⟨fgkEM * (o.GetB x).x, fgkEM * (o.GetB x).y, fgkEM * (o.GetB x).z⟩

/-- The scaled field `Es = fgkEM * E` at `x`. -/
def scaledE (x : Vec3) : Vec3 :=
  ⟨fgkEM * (GetE x).x, fgkEM * (GetE x).y, fgkEM * (GetE x).z⟩

/-- The time constant `tau = driftVelocity / fgkDriftField / fgkEM`. -/
def tauOf (o : AliTPCExBExact) : ℚ := o.fDriftVelocity / fgkDriftField / fgkEM

/-- The closed form with a given orientation `c` of the cross-product term:
`tau/(1+|w|² tau²) * [ (I + tau² w⊗w)·Es + tau·c ]`. -/
def langevin (o : AliTPCExBExact) (x c : Vec3) : Vec3 :=
  let tau := o.tauOf
  let w := o.omega x
  let f := tau / (1 + (w.x * w.x + w.y * w.y + w.z * w.z) * (tau * tau))
  let m := tensorApply tau w (scaledE x)
  ⟨f * (m.x + tau * c.x), f * (m.y + tau * c.y), f * (m.z + tau * c.z)⟩

/-- The Langevin closed form as the specification writes it (section 4.2), with the
term `tau·(w × Es)`. -/
def langevinSpec (o : AliTPCExBExact) (x : Vec3) : Vec3 :=
  o.langevin x (cross (o.omega x) (scaledE x))

/-- The same closed form with the cross product taken as `Es × w`. -/
def langevinExB (o : AliTPCExBExact) (x : Vec3) : Vec3 :=
  o.langevin x (cross (scaledE x) (o.omega x))

/-! ### Predicates on the lookup table -/

/-- Node `(i,j,k)` lies on the grid. -/
def InRange (o : AliTPCExBExact) (i j k : ℤ) : Prop :=
  (0 ≤ i ∧ i < o.fkNX) ∧ (0 ≤ j ∧ j < o.fkNY) ∧ (0 ≤ k ∧ k < o.fkNZ)

/-- The six cells of node `(i,j,k)` of the memory `look` hold the vectors `D i j k 1`
(positive side) and `D i j k 0` (negative side). -/
def NodeOK (o : AliTPCExBExact) (D : ℤ → ℤ → ℤ → ℤ → Vec3) (look : ℤ → ℚ)
    (i j k : ℤ) : Prop :=
  ∀ sd : ℤ, sd = 0 ∨ sd = 1 →
    look (o.flat i j k sd 0) = (D i j k sd).x
      ∧ look (o.flat i j k sd 1) = (D i j k sd).y
      ∧ look (o.flat i j k sd 2) = (D i j k sd).z

/-- Node `(i',j',k')` is visited before node `(i,j,k)` by the loops of
`CreateLookupTable`. -/
def Before (i j k i' j' k' : ℤ) : Prop :=
  i' < i ∨ (i' = i ∧ (j' < j ∨ (j' = j ∧ k' < k)))

/-- All grid nodes visited before `(i,j,k)` are filled with `D`. -/
def FilledBefore (o : AliTPCExBExact) (D : ℤ → ℤ → ℤ → ℤ → Vec3) (i j k : ℤ)
    (look : ℤ → ℚ) : Prop :=
  ∀ i' j' k', o.InRange i' j' k' → Before i j k i' j' k' → o.NodeOK D look i' j' k'

/-- The vectors that `CreateLookupTable` stores with a given fuel: side `1` is the
result at the node, any other side the result at its mirror image (the zero vector
stands in where the integration does not end within the fuel). -/
def nodeDist (o : AliTPCExBExact) (fuel : ℕ) (i j k sd : ℤ) : Vec3 :=
  if sd = 1 then (o.CalculateDistortion fuel (o.nodePos i j k)).getD ⟨0, 0, 0⟩
  else (o.CalculateDistortion fuel (negZ (o.nodePos i j k))).getD ⟨0, 0, 0⟩

/-- The eight-corner weighted sum of `Correct` for corner values `f`, lower corner
`(a,b,c)` and grid coordinates `(X,Y,Z)`. -/
def tri (f : ℤ → ℤ → ℤ → ℚ) (a b c : ℤ) (X Y Z : ℚ) : ℚ :=
  f a b c * (((a + 1 : ℤ) : ℚ) - X) * (((b + 1 : ℤ) : ℚ) - Y) * (((c + 1 : ℤ) : ℚ) - Z)
    + f a b (c + 1) * (((a + 1 : ℤ) : ℚ) - X) * (((b + 1 : ℤ) : ℚ) - Y) * (Z - c)
    + f a (b + 1) c * (((a + 1 : ℤ) : ℚ) - X) * (Y - b) * (((c + 1 : ℤ) : ℚ) - Z)
    + f a (b + 1) (c + 1) * (((a + 1 : ℤ) : ℚ) - X) * (Y - b) * (Z - c)
    + f (a + 1) (b + 1) c * (X - a) * (Y - b) * (((c + 1 : ℤ) : ℚ) - Z)
    + f (a + 1) (b + 1) (c + 1) * (X - a) * (Y - b) * (Z - c)
    + f (a + 1) b c * (X - a) * (((b + 1 : ℤ) : ℚ) - Y) * (((c + 1 : ℤ) : ℚ) - Z)
    + f (a + 1) b (c + 1) * (X - a) * (((b + 1 : ℤ) : ℚ) - Y) * (Z - c)

/-! ### Mirror images across the cathode and the drift vector of a uniform field -/

/-- The image of `r` under the reflection that fixes the `x` and `y` of `c` and flips
`z`: the `x` and `y` offsets from `c` are negated and `z` is negated. -/
def mirrorAbout (c r : Vec3) : Vec3 := ⟨2 * c.x - r.x, 2 * c.y - r.y, -r.z⟩

/-- The mirror image of a loop state. -/
def mirState (c : Vec3) (s : LoopState) : LoopState :=
  ⟨mirrorAbout c s.xo, mirrorAbout c s.xt, s.t, s.steps⟩

/-- The value of `Motion` at the origin, i.e. on the side `z ≥ 0`. -/
def driftVec (o : AliTPCExBExact) : Vec3 := o.Motion ⟨0, 0, 0⟩ 0

/-- Squared Euclidean distance of two points. -/
def distSq (a b : Vec3) : ℚ := (a.x - b.x) ^ 2 + (a.y - b.y) ^ 2 + (a.z - b.z) ^ 2

/-- Both integrations of every grid node visited before `(i,j,k)` end within the
fuel. -/
def EndBefore (o : AliTPCExBExact) (fuel : ℕ) (i j k : ℤ) : Prop :=
  ∀ i' j' k', o.InRange i' j' k' → Before i j k i' j' k' →
    (o.CalculateDistortion fuel (o.nodePos i' j' k')).isSome
      ∧ (o.CalculateDistortion fuel (negZ (o.nodePos i' j' k'))).isSome

/-- The straight line of direction `driftVec` from `x0` on the side `z > 0`, followed
to the end plane and reversed in `x` and `y`; the `z` is rebuilt from the drift time. -/
def straight (o : AliTPCExBExact) (x0 : Vec3) : Vec3 :=
  ⟨x0.x - (250 - x0.z) * o.driftVec.x / o.driftVec.z,
   x0.y - (250 - x0.z) * o.driftVec.y / o.driftVec.z,
   250 - (250 - x0.z) * o.fDriftVelocity / o.driftVec.z⟩

/-- The end-plane crossing of the straight line of direction `driftVec` from `x0` on the
side `z > 0`: the forward-distorted position in a uniform field. -/
def forward (o : AliTPCExBExact) (x0 : Vec3) : Vec3 :=
  ⟨x0.x + (250 - x0.z) * o.driftVec.x / o.driftVec.z,
   x0.y + (250 - x0.z) * o.driftVec.y / o.driftVec.z,
   250 - (250 - x0.z) * o.fDriftVelocity / o.driftVec.z⟩

/-- The straight-line end point written in the words of the specification: with `s` the
sign of `z0` and `m` the `Motion` vector at the start point, `x0 - (mx/mz)(s·250 - z0)` in
`x`, the analogue in `y`, and `s·250 - s·driftVelocity·|s·250 - z0|/|mz|` in `z`. It does
not mention the step count `fkN`. -/
def straightLineSpec (o : AliTPCExBExact) (x0 : Vec3) : Vec3 :=
  let s : ℚ := if x0.z < 0 then -1 else 1
  let m := o.Motion (initState x0).xt 0
  ⟨x0.x - m.x / m.z * (s * 250 - x0.z),
   x0.y - m.y / m.z * (s * 250 - x0.z),
   s * 250 - s * o.fDriftVelocity * |s * 250 - x0.z| / |m.z|⟩

/-- The corrector state `o` with its step count replaced by `n`. -/
def withSteps (o : AliTPCExBExact) (n : ℤ) : AliTPCExBExact := { o with fkN := n }

/-- The corrector state `o` with the magnetic field switched off. -/
def fieldOff (o : AliTPCExBExact) : AliTPCExBExact := { o with Field := fun _ => ⟨0, 0, 0⟩ }

/-! ### The assignments to the lookup table -/

/-- The empty memory. -/
def zeroLook : ℤ → ℚ := fun _ => 0

/-- A corrector state with a uniform transverse field of 10 kGauss (1 T) along `x`,
drift velocity `40000` and a single nominal integration step, on a `2×2×2` grid. -/
def transverseX : AliTPCExBExact :=
  init (fun _ => ⟨10, 0, 0⟩) 40000 2 2 2 1 0 zeroLook

/-- A corrector state with a uniform transverse field of 10 kGauss (1 T) along `y`. -/
def transverseY : AliTPCExBExact :=
  init (fun _ => ⟨0, 10, 0⟩) 40000 2 2 2 1 0 zeroLook

/-- A table holding the flat index itself in every cell. -/
def indexLook : ℤ → ℚ := fun idx => idx

/-- A `3×4×5` grid on the nominal bounds with the identity table. -/
def sampleGrid : AliTPCExBExact :=
  init (fun _ => ⟨0, 0, 5⟩) 28300 3 4 5 100 0 indexLook

/-- A field map on the mesh `[-300, 300]³` with spacing 20 and no field. -/
def sampleMap : AliFieldMap :=
  { Field := fun _ => ⟨0, 0, 0⟩, Xmin := -300, Xmax := 300, DelX := 20,
    Ymin := -300, Ymax := 300, DelY := 20, Zmax := 300, DelZ := 20 }

/-- The state in which the loop ends when started at `(100, 0, 100)` in the field of
`transverseX`: two steps of `(0, 1.25, 1.25)` metres. -/
def transverseXEnd : LoopState := ⟨⟨1, 5 / 4, 9 / 4⟩, ⟨1, 5 / 2, 7 / 2⟩, 1 / 8000, 2⟩

/-- A corrector state without magnetic field: drift velocity `28300`, `100` steps and
a `3×4×5` grid, before its table is filled. -/
def fieldFree : AliTPCExBExact :=
  init (fun _ => ⟨0, 0, 0⟩) 28300 3 4 5 100 0 zeroLook

/-- A square-root stand-in used to evaluate `Correct` on concrete inputs: the integer
square root of the floor. -/
def sqrtFloor (q : ℚ) : ℚ := (Nat.sqrt ⌊q⌋.toNat : ℚ)

end AliTPCExBExact

namespace AliTPCExBExact

/-- C1. Boundary no-op: whatever the lookup table and the grid, a position with
`|z| > 250`, `r < 90` or `r > 250` is returned unchanged in all three components. -/
theorem Correct_outside (o : AliTPCExBExact) (Sqrt : ℚ → ℚ) (position : Vec3)
    (h : |position.z| > 250
      ∨ Sqrt (position.x * position.x + position.y * position.y) < 90
      ∨ Sqrt (position.x * position.x + position.y * position.y) > 250) :
    o.Correct Sqrt position = position := by
  have h' : outside Sqrt position := h
  simp [Correct, h']

/-- Witness for `Correct_outside`: the position `(100, 0, 300)` lies beyond the end
plate. -/
theorem Correct_outside_witness :
    sampleGrid.Correct sqrtFloor ⟨100, 0, 300⟩ = ⟨100, 0, 300⟩ :=
  Correct_outside sampleGrid sqrtFloor ⟨100, 0, 300⟩ (Or.inl (by norm_num [abs_of_pos]))

end AliTPCExBExact

namespace AliTPCExBExact

/-! ### Index arithmetic -/

theorem clamp_range (t N : ℤ) (hN : 2 ≤ N) :
    0 ≤ max (min t (N - 2)) 0 ∧ max (min t (N - 2)) 0 ≤ N - 2 := by
  constructor
  · exact le_max_right _ _
  · exact max_le (min_le_right _ _) (by omega)

theorem side_cases (o : AliTPCExBExact) (position : Vec3) :
    o.side position = 0 ∨ o.side position = 1 := by
  unfold side
  split_ifs
  · exact Or.inr rfl
  · exact Or.inl rfl

theorem flat_bounds (o : AliTPCExBExact) (i j k s c : ℤ)
    (hi0 : 0 ≤ i) (hi : i < o.fkNX) (hj0 : 0 ≤ j) (hj : j < o.fkNY)
    (hk0 : 0 ≤ k) (hk : k < o.fkNZ) (hs0 : 0 ≤ s) (hs : s < 2)
    (hc0 : 0 ≤ c) (hc : c < 3) :
    0 ≤ o.flat i j k s c ∧ o.flat i j k s c < o.tableSize := by
  unfold flat tableSize
  have hY : 0 ≤ o.fkNY := by omega
  have hZ : 0 ≤ o.fkNZ := by omega
  have h1 : 0 ≤ i * o.fkNY + j := add_nonneg (mul_nonneg hi0 hY) hj0
  have h2 : i * o.fkNY + j + 1 ≤ o.fkNX * o.fkNY := by nlinarith
  have h3 : 0 ≤ (i * o.fkNY + j) * o.fkNZ + k := add_nonneg (mul_nonneg h1 hZ) hk0
  have h4 : (i * o.fkNY + j) * o.fkNZ + k + 1 ≤ o.fkNX * o.fkNY * o.fkNZ := by
    nlinarith
  constructor <;> omega

end AliTPCExBExact

namespace AliTPCExBExact

/-- C3. Grid clamp: on a grid with at least two nodes per axis the lower indices
`xi1`, `yi1`, `zi1` computed by `Correct` lie in `[0, N-2]`, `side` is `0` or `1`, and
each of the 24 flat indices read (8 terms for each of the 3 components) lies in
`[0, fkNX*fkNY*fkNZ*2*3)`.  This holds for every position, in particular for those
that pass the validity check. -/
theorem Correct_reads_in_bounds (o : AliTPCExBExact) (position : Vec3)
    (hx : 2 ≤ o.fkNX) (hy : 2 ≤ o.fkNY) (hz : 2 ≤ o.fkNZ) :
    (0 ≤ o.xi1 position ∧ o.xi1 position ≤ o.fkNX - 2)
    ∧ (0 ≤ o.yi1 position ∧ o.yi1 position ≤ o.fkNY - 2)
    ∧ (0 ≤ o.zi1 position ∧ o.zi1 position ≤ o.fkNZ - 2)
    ∧ (o.side position = 0 ∨ o.side position = 1)
    ∧ ∀ i : ℤ, 0 ≤ i → i < 3 → ∀ p ∈ o.terms position i,
        0 ≤ p.1 ∧ p.1 < o.tableSize := by
  have bx := clamp_range (toInt (o.gx position)) o.fkNX hx
  have bY := clamp_range (toInt (o.gy position)) o.fkNY hy
  have bz := clamp_range (toInt (o.gz position)) o.fkNZ hz
  have bs := o.side_cases position
  refine ⟨bx, bY, bz, bs, ?_⟩
  intro i hi0 hi3 p hp
  have hx1 : 0 ≤ o.xi1 position ∧ o.xi1 position ≤ o.fkNX - 2 := bx
  have hy1 : 0 ≤ o.yi1 position ∧ o.yi1 position ≤ o.fkNY - 2 := bY
  have hz1 : 0 ≤ o.zi1 position ∧ o.zi1 position ≤ o.fkNZ - 2 := bz
  have hs0 : 0 ≤ o.side position := by rcases bs with h | h <;> omega
  have hs1 : o.side position < 2 := by rcases bs with h | h <;> omega
  simp only [terms, List.mem_cons, List.mem_singleton, List.not_mem_nil, or_false] at hp
  rcases hp with rfl | rfl | rfl | rfl | rfl | rfl | rfl | rfl
  all_goals
    first
      | exact flat_bounds o _ _ _ _ _ (by omega) (by omega) (by omega) (by omega)
          (by omega) (by omega) hs0 hs1 hi0 hi3

/-- Witness for `Correct_reads_in_bounds`: the `3×4×5` sample grid at the in-volume
position `(100, 50, -30)`. -/
theorem Correct_reads_in_bounds_witness :
    (0 ≤ sampleGrid.xi1 ⟨100, 50, -30⟩ ∧ sampleGrid.xi1 ⟨100, 50, -30⟩ ≤ sampleGrid.fkNX - 2)
    ∧ (0 ≤ sampleGrid.yi1 ⟨100, 50, -30⟩ ∧ sampleGrid.yi1 ⟨100, 50, -30⟩ ≤ sampleGrid.fkNY - 2)
    ∧ (0 ≤ sampleGrid.zi1 ⟨100, 50, -30⟩ ∧ sampleGrid.zi1 ⟨100, 50, -30⟩ ≤ sampleGrid.fkNZ - 2)
    ∧ (sampleGrid.side ⟨100, 50, -30⟩ = 0 ∨ sampleGrid.side ⟨100, 50, -30⟩ = 1)
    ∧ ∀ i : ℤ, 0 ≤ i → i < 3 → ∀ p ∈ sampleGrid.terms ⟨100, 50, -30⟩ i,
        0 ≤ p.1 ∧ p.1 < sampleGrid.tableSize :=
  Correct_reads_in_bounds sampleGrid ⟨100, 50, -30⟩
    (by simp [sampleGrid, init]) (by simp [sampleGrid, init]) (by simp [sampleGrid, init])

end AliTPCExBExact

namespace AliTPCExBExact

/-! ### Trilinear interpolation -/

theorem gz_eq_abs (o : AliTPCExBExact) (position : Vec3)
    (hZ : 0 < o.fkZMax) (hNZ : 2 ≤ o.fkNZ) :
    o.gz position = |position.z| / o.fkZMax * ((o.fkNZ : ℚ) - 1) := by
  have hN : (0 : ℚ) < (o.fkNZ : ℚ) - 1 := by
    have : (2 : ℚ) ≤ (o.fkNZ : ℚ) := by exact_mod_cast hNZ
    linarith
  have hc : ((o.fkNZ - 1 : ℤ) : ℚ) = (o.fkNZ : ℚ) - 1 := by push_cast; ring
  unfold gz gz0
  rw [hc]
  by_cases hz : 0 < position.z
  · have : 0 < position.z / o.fkZMax * ((o.fkNZ : ℚ) - 1) :=
      mul_pos (div_pos hz hZ) hN
    rw [if_pos this, abs_of_pos hz]
  · have hz' : position.z ≤ 0 := not_lt.mp hz
    have : ¬ 0 < position.z / o.fkZMax * ((o.fkNZ : ℚ) - 1) := by
      apply not_lt.mpr
      exact mul_nonpos_of_nonpos_of_nonneg
        (div_nonpos_of_nonpos_of_nonneg hz' hZ.le) hN.le
    rw [if_neg this, abs_of_nonpos hz']
    ring

theorem side_eq_sign (o : AliTPCExBExact) (position : Vec3)
    (hZ : 0 < o.fkZMax) (hNZ : 2 ≤ o.fkNZ) :
    o.side position = if position.z > 0 then 1 else 0 := by
  have hN : (0 : ℚ) < (o.fkNZ : ℚ) - 1 := by
    have : (2 : ℚ) ≤ (o.fkNZ : ℚ) := by exact_mod_cast hNZ
    linarith
  have hc : ((o.fkNZ - 1 : ℤ) : ℚ) = (o.fkNZ : ℚ) - 1 := by push_cast; ring
  unfold side gz0
  rw [hc]
  by_cases hz : 0 < position.z
  · have : 0 < position.z / o.fkZMax * ((o.fkNZ : ℚ) - 1) :=
      mul_pos (div_pos hz hZ) hN
    simp [this, hz]
  · have hz' : position.z ≤ 0 := not_lt.mp hz
    have : ¬ 0 < position.z / o.fkZMax * ((o.fkNZ : ℚ) - 1) := by
      apply not_lt.mpr
      exact mul_nonpos_of_nonpos_of_nonneg
        (div_nonpos_of_nonpos_of_nonneg hz' hZ.le) hN.le
    simp [this, hz]

theorem sum_range_two (f : ℕ → ℚ) : Finset.sum (Finset.range 2) f = f 0 + f 1 := by
  simp [Finset.sum_range_succ]

theorem axisWeight_zero (d : ℚ) : axisWeight d 0 = 1 - d := by simp [axisWeight]

theorem axisWeight_one (d : ℚ) : axisWeight d 1 = d := by simp [axisWeight]

/-- The code's truncation toward zero followed by its clamp `Max(Min(·, N-2), 0)` picks
the specification's lower index: the two conversions differ only on negative
coordinates, which the clamp sends to `0` either way. -/
theorem lowerIndex_eq_clamp (f : ℚ) (N : ℤ) :
    lowerIndex f N = max (min (toInt f) (N - 2)) 0 := by
  unfold lowerIndex toInt
  by_cases h : 0 ≤ f
  · rw [if_pos h, max_comm]
  · rw [if_neg h]
    have h1 : ⌊f⌋ < 0 := Int.floor_lt.mpr (by exact_mod_cast not_le.mp h)
    have h2 : ⌈f⌉ ≤ 0 := Int.ceil_le.mpr (by exact_mod_cast (not_le.mp h).le)
    omega

theorem interp_eq_trilinearSpec (o : AliTPCExBExact) (position : Vec3)
    (hZ : 0 < o.fkZMax) (hNZ : 2 ≤ o.fkNZ) (i : ℕ) :
    o.interp position (i : ℤ) = o.trilinearSpec position i := by
  have hgz := o.gz_eq_abs position hZ hNZ
  have hsd := o.side_eq_sign position hZ hNZ
  have hcx : ((o.fkNX - 1 : ℤ) : ℚ) = (o.fkNX : ℚ) - 1 := by push_cast; ring
  have hcy : ((o.fkNY - 1 : ℤ) : ℚ) = (o.fkNY : ℚ) - 1 := by push_cast; ring
  have hx1 : lowerIndex (o.gx position) o.fkNX = o.xi1 position :=
    lowerIndex_eq_clamp _ _
  have hy1 : lowerIndex (o.gy position) o.fkNY = o.yi1 position :=
    lowerIndex_eq_clamp _ _
  have hz1 : lowerIndex (o.gz position) o.fkNZ = o.zi1 position :=
    lowerIndex_eq_clamp _ _
  have hgx : (position.x - o.fkXMin) / (o.fkXMax - o.fkXMin) * ((o.fkNX : ℚ) - 1)
      = o.gx position := by unfold gx; rw [hcx]
  have hgy : (position.y - o.fkYMin) / (o.fkYMax - o.fkYMin) * ((o.fkNY : ℚ) - 1)
      = o.gy position := by unfold gy; rw [hcy]
  unfold trilinearSpec
  simp only [hgx, hgy, ← hgz, ← hsd]
  simp only [hx1, hy1, hz1]
  simp only [interp, terms, flat]
  generalize o.gx position = X
  generalize o.gy position = Y
  generalize o.gz position = Z
  generalize o.xi1 position = a
  generalize o.yi1 position = b
  generalize o.zi1 position = c
  generalize o.side position = s
  generalize o.fLook = L
  simp only [sum_range_two, axisWeight_zero, axisWeight_one, List.map_cons, List.map_nil,
    List.sum_cons, List.sum_nil, Nat.cast_zero, Nat.cast_one, add_zero, Int.cast_add,
    Int.cast_one]
  ring

/-- C4. Trilinear reference: for a position that passes the validity check, on a grid
with `fkZMax > 0` and at least two nodes in `z`, each component of the output of
`Correct` equals the specification's weighted sum over the eight corners of the cell
whose lower index on each axis is the floor of the fractional coordinate clamped to
`[0, N-2]`, with weights `1 - d` for the low node and `d` for the high node. -/
theorem Correct_eq_trilinearSpec (o : AliTPCExBExact) (Sqrt : ℚ → ℚ) (position : Vec3)
    (hZ : 0 < o.fkZMax) (hNZ : 2 ≤ o.fkNZ) (hin : ¬ outside Sqrt position)
    (i : ℕ) (hi : i < 3) :
    (o.Correct Sqrt position).get i = o.trilinearSpec position i := by
  rw [← o.interp_eq_trilinearSpec position hZ hNZ i]
  unfold Correct
  rw [if_neg hin]
  interval_cases i <;> simp [Vec3.get]

end AliTPCExBExact

namespace AliTPCExBExact

theorem sqrtFloor_sq (k : ℕ) : sqrtFloor ((k : ℚ) * k) = k := by
  unfold sqrtFloor
  have h : ⌊(k : ℚ) * k⌋ = ((k * k : ℕ) : ℤ) := by
    have : (k : ℚ) * k = (((k * k : ℕ) : ℤ) : ℚ) := by push_cast; ring
    rw [this, Int.floor_intCast]
  rw [h, Int.toNat_natCast, Nat.sqrt_eq]

theorem sample_inside (z : ℚ) (hz : |z| ≤ 250) : ¬ outside sqrtFloor ⟨100, 0, z⟩ := by
  have h := sqrtFloor_sq 100
  have e : (100 : ℚ) * 100 + 0 * 0 = ((100 : ℕ) : ℚ) * ((100 : ℕ) : ℚ) := by norm_num
  unfold outside
  simp only [e, h]
  norm_num
  exact hz

/-- Witness for `Correct_eq_trilinearSpec`: component `1` at the in-volume position
`(100, 0, -30)` of the `3×4×5` sample grid. -/
theorem Correct_eq_trilinearSpec_witness :
    (sampleGrid.Correct sqrtFloor ⟨100, 0, -30⟩).get 1
      = sampleGrid.trilinearSpec ⟨100, 0, -30⟩ 1 :=
  Correct_eq_trilinearSpec sampleGrid sqrtFloor ⟨100, 0, -30⟩
    (by norm_num [sampleGrid, init]) (by simp [sampleGrid, init])
    (sample_inside (-30) (by norm_num [abs_le])) 1 (by decide)

/-! ### The equation of motion -/

/-- C5 (as amended). `Motion` is the closed form
`tau/(1+|w|² tau²) * [ (I + tau² w⊗w)·Es + tau·(Es × w) ]`: diagonal coefficients
`1 + w_i² tau²`, off-diagonal coefficients `w_i w_j tau²` plus the signed `w_k tau`
term of the cross product `Es × w`. -/
theorem Motion_eq_langevinExB (o : AliTPCExBExact) (x : Vec3) (t : ℚ) :
    o.Motion x t = o.langevinExB x := by
  simp only [Motion, langevinExB, langevin, tensorApply, cross, omega, scaledE, tauOf]
  congr 1 <;> ring

/-- C5, counterexample to the orientation `w × Es`: in a field of 1 T along `y` with
drift velocity `40000`, `Motion` at the origin has `x` component `-20000` while the
formula with `w × Es` gives `+20000`. -/
theorem Motion_ne_langevinSpec :
    (transverseY.Motion ⟨0, 0, 0⟩ 0).x = -20000
      ∧ (transverseY.langevinSpec ⟨0, 0, 0⟩).x = 20000
      ∧ transverseY.Motion ⟨0, 0, 0⟩ 0 ≠ transverseY.langevinSpec ⟨0, 0, 0⟩ := by
  have h1 : (transverseY.Motion ⟨0, 0, 0⟩ 0).x = -20000 := by
    norm_num [Motion, GetE, GetB, transverseY, init, fgkEM, fgkDriftField]
  have h2 : (transverseY.langevinSpec ⟨0, 0, 0⟩).x = 20000 := by
    norm_num [langevinSpec, langevin, tensorApply, cross, omega, scaledE, tauOf, GetE, GetB,
      transverseY, init, fgkEM, fgkDriftField]
  refine ⟨h1, h2, ?_⟩
  intro h
  rw [h, h2] at h1
  norm_num at h1

/-! ### Constructor arguments -/

/-- C6. The analytic-field constructor binds its four positional `Int_t` arguments
`(a, b, c, d)` to `fkNX`, `fkNY`, `fkNZ` and `fkN` in this order (the parameter list of
the definition is `nx, ny, nz, n`), not to `fkN, fkNX, fkNY, fkNZ` as the declaration
in the header (`n, nx, ny, nz`) announces: called with `(200, 10, 20, 30)` the object
has 30 integration steps and a `200×10×20` grid. -/
theorem init_positional_arguments (bField : Vec3 → Vec3) (driftVelocity : ℚ)
    (zmin : ℚ) (look : ℤ → ℚ) :
    (init bField driftVelocity 200 10 20 30 zmin look).fkN = 30
      ∧ (init bField driftVelocity 200 10 20 30 zmin look).fkNX = 200
      ∧ (init bField driftVelocity 200 10 20 30 zmin look).fkNY = 10
      ∧ (init bField driftVelocity 200 10 20 30 zmin look).fkNZ = 20 :=
  ⟨rfl, rfl, rfl, rfl⟩

end AliTPCExBExact

namespace AliTPCExBExact

/-! ### The integration loop -/

theorem whileLoop_exit (o : AliTPCExBExact) (h : ℚ) (fuel : ℕ) (s : LoopState)
    (hs : ¬ |s.xt.z| < 250 * 0.01) : whileLoop o h fuel s = some s := by
  cases fuel <;> simp [whileLoop, hs]

theorem whileLoop_step (o : AliTPCExBExact) (h : ℚ) (fuel : ℕ) (s : LoopState)
    (hs : |s.xt.z| < 250 * 0.01) :
    whileLoop o h (fuel + 1) s = whileLoop o h fuel (o.loopBody h s) := by
  simp [whileLoop, hs]

theorem whileLoop_zero_of_running (o : AliTPCExBExact) (h : ℚ) (s : LoopState)
    (hs : |s.xt.z| < 250 * 0.01) : whileLoop o h 0 s = none := by
  simp [whileLoop, hs]

/-- The elapsed time is the number of steps times the step size. -/
theorem whileLoop_time (o : AliTPCExBExact) (h : ℚ) (fuel : ℕ) :
    ∀ s s', whileLoop o h fuel s = some s' →
      s.steps ≤ s'.steps ∧ s'.t = s.t + ((s'.steps - s.steps : ℕ) : ℚ) * h := by
  induction fuel with
  | zero =>
    intro s s' hs
    by_cases hc : |s.xt.z| < 250 * 0.01
    · rw [whileLoop_zero_of_running o h s hc] at hs
      cases hs
    · rw [whileLoop_exit o h 0 s hc] at hs
      cases hs
      simp
  | succ n ih =>
    intro s s' hs
    by_cases hc : |s.xt.z| < 250 * 0.01
    · rw [whileLoop_step o h n s hc] at hs
      obtain ⟨h1, h2⟩ := ih _ _ hs
      have e1 : (o.loopBody h s).steps = s.steps + 1 := rfl
      have e2 : (o.loopBody h s).t = s.t + h := rfl
      rw [e1] at h1
      rw [e1, e2] at h2
      refine ⟨by omega, ?_⟩
      rw [h2]
      have e3 : s'.steps - s.steps = (s'.steps - (s.steps + 1)) + 1 := by omega
      rw [e3]
      push_cast
      ring
    · rw [whileLoop_exit o h (n + 1) s hc] at hs
      cases hs
      simp

/-- With a zero step size the loop never leaves a state in which its condition holds. -/
theorem whileLoop_stuck (o : AliTPCExBExact) (fuel : ℕ) :
    ∀ s, |s.xt.z| < 250 * 0.01 → whileLoop o 0 fuel s = none := by
  induction fuel with
  | zero => intro s hs; exact whileLoop_zero_of_running o 0 s hs
  | succ n ih =>
    intro s hs
    rw [whileLoop_step o 0 n s hs]
    apply ih
    simpa [loopBody, DGLStep] using hs

/-- When the loop ends after at least one step, the elapsed time is not zero. -/
theorem whileLoop_time_ne_zero (o : AliTPCExBExact) (fuel : ℕ) (x0 : Vec3) (s : LoopState)
    (hs : whileLoop o o.stepSize fuel (initState x0) = some s) (hsteps : 1 ≤ s.steps) :
    s.t ≠ 0 := by
  have hrun : |(initState x0).xt.z| < 250 * 0.01 := by
    by_contra hc
    rw [whileLoop_exit o _ fuel _ hc] at hs
    cases hs
    simp [initState] at hsteps
  have hh : o.stepSize ≠ 0 := by
    intro h0
    rw [h0, whileLoop_stuck o fuel _ hrun] at hs
    cases hs
  obtain ⟨-, ht⟩ := whileLoop_time o _ fuel _ _ hs
  rw [ht]
  have e : (initState x0).t = 0 := rfl
  have e' : (initState x0).steps = 0 := rfl
  rw [e, e', zero_add]
  apply mul_ne_zero _ hh
  have : (0 : ℚ) < ((s.steps - 0 : ℕ) : ℚ) := by
    rw [Nat.sub_zero]
    exact_mod_cast hsteps
  exact this.ne'

/-- A start point at or beyond the end plane: zero steps, result equal to the start. -/
theorem CalculateDistortion_far (o : AliTPCExBExact) (fuel : ℕ) (x0 : Vec3)
    (hz : 250 ≤ |x0.z|) :
    whileLoop o o.stepSize fuel (initState x0) = some (initState x0)
      ∧ o.crossing x0 (initState x0) = x0
      ∧ o.CalculateDistortion fuel x0 = some x0 := by
  have hc : ¬ |(initState x0).xt.z| < 250 * 0.01 := by
    have e : (initState x0).xt.z = x0.z * 0.01 := rfl
    rw [e, abs_mul, not_lt]
    have : |(0.01 : ℚ)| = 0.01 := abs_of_pos (by norm_num)
    rw [this]
    exact mul_le_mul_of_nonneg_right hz (by norm_num)
  have hl := whileLoop_exit o o.stepSize fuel _ hc
  have hcr : o.crossing x0 (initState x0) = x0 := by
    simp [crossing, initState]
  refine ⟨hl, hcr, ?_⟩
  unfold CalculateDistortion
  rw [hl, Option.map_some', hcr]
  simp [reverse]

/-- C7. Degenerate start: when `|z0| ≥ 250` the loop takes zero steps (the state is
the initial one, with `t = 0` and no `DGLStep` call), `dist` is the start point (the
branch with the interpolation quotient is not taken) and `CalculateDistortion` returns
`x0` in all three components, for every field, drift velocity and fuel. -/
theorem CalculateDistortion_degenerate (o : AliTPCExBExact) (fuel : ℕ) (x0 : Vec3)
    (hz : 250 ≤ |x0.z|) :
    whileLoop o o.stepSize fuel (initState x0) = some (initState x0)
      ∧ (initState x0).t = 0 ∧ (initState x0).steps = 0
      ∧ o.crossing x0 (initState x0) = x0
      ∧ o.CalculateDistortion fuel x0 = some x0 :=
  ⟨(CalculateDistortion_far o fuel x0 hz).1, rfl, rfl,
    (CalculateDistortion_far o fuel x0 hz).2.1, (CalculateDistortion_far o fuel x0 hz).2.2⟩

/-- Witness for `CalculateDistortion_degenerate`: the start point `(100, 0, -250)` on
the end plate, in a transverse field. -/
theorem CalculateDistortion_degenerate_witness :
    whileLoop transverseX transverseX.stepSize 5 (initState ⟨100, 0, -250⟩)
        = some (initState ⟨100, 0, -250⟩)
      ∧ (initState ⟨100, 0, -250⟩).t = 0 ∧ (initState ⟨100, 0, -250⟩).steps = 0
      ∧ transverseX.crossing ⟨100, 0, -250⟩ (initState ⟨100, 0, -250⟩) = ⟨100, 0, -250⟩
      ∧ transverseX.CalculateDistortion 5 ⟨100, 0, -250⟩ = some ⟨100, 0, -250⟩ :=
  CalculateDistortion_degenerate transverseX 5 ⟨100, 0, -250⟩ (by norm_num [abs_of_neg])

end AliTPCExBExact

namespace AliTPCExBExact

/-! ### A transverse field of 1 T: concrete evaluation -/

theorem transverseX_Motion (x : Vec3) (t : ℚ) (hz : ¬ x.z < 0) :
    transverseX.Motion x t = ⟨0, 20000, 20000⟩ := by
  simp only [Motion, GetE, GetB, transverseX, init, fgkEM, fgkDriftField, if_neg hz]
  norm_num

theorem transverseX_stepSize : transverseX.stepSize = 1 / 16000 := by
  norm_num [stepSize, transverseX, init]

theorem transverseX_loopBody (s : LoopState) (hz : ¬ s.xt.z < 0) :
    transverseX.loopBody (1 / 16000) s
      = ⟨s.xt, ⟨s.xt.x, s.xt.y + 5 / 4, s.xt.z + 5 / 4⟩, s.t + 1 / 16000, s.steps + 1⟩ := by
  simp only [loopBody, DGLStep, transverseX_Motion s.xt s.t hz]
  norm_num

theorem transverseX_loop :
    whileLoop transverseX transverseX.stepSize 2 (initState ⟨100, 0, 100⟩)
      = some ⟨⟨1, 5 / 4, 9 / 4⟩, ⟨1, 5 / 2, 7 / 2⟩, 1 / 8000, 2⟩ := by
  rw [transverseX_stepSize]
  have e0 : initState ⟨100, 0, 100⟩ = ⟨⟨1, 0, 1⟩, ⟨1, 0, 1⟩, 0, 0⟩ := by
    norm_num [initState]
  rw [e0, whileLoop_step _ _ 1 _ (by norm_num [abs_of_pos]),
    transverseX_loopBody _ (by norm_num),
    whileLoop_step _ _ 0 _ (by norm_num [abs_of_pos]),
    transverseX_loopBody _ (by norm_num),
    whileLoop_exit _ _ 0 _ (by norm_num [abs_of_pos])]
  norm_num

theorem transverseX_crossing :
    transverseX.crossing ⟨100, 0, 100⟩ ⟨⟨1, 5 / 4, 9 / 4⟩, ⟨1, 5 / 2, 7 / 2⟩, 1 / 8000, 2⟩
      = ⟨100, 150, -50⟩ := by
  simp only [crossing, transverseX_stepSize]
  norm_num [transverseX, init]

end AliTPCExBExact

namespace AliTPCExBExact

/-! ### The result of `CalculateDistortion` -/

/-- What lines 256-271 compute when the loop ends after at least one step: the `x` and
`y` components of the result are `x0_c - (distorted_c - x0_c)`, where `distorted` is the
end-plane crossing (`x` and `y` from the linear interpolation of the last step, `z`
rebuilt from the elapsed drift time times the drift velocity); the `z` component of
the result is `distorted_z` itself. -/
theorem CalculateDistortion_reverses_xy (o : AliTPCExBExact) (fuel : ℕ) (x0 : Vec3)
    (s : LoopState) (hs : whileLoop o o.stepSize fuel (initState x0) = some s)
    (hsteps : 1 ≤ s.steps) :
    o.crossing x0 s
        = ⟨(s.xo.x + ((if s.xt.z < 0 then -1 else 1) * 250 * 0.01 - s.xo.z)
              / (s.xt.z - s.xo.z) * (s.xt.x - s.xo.x)) * 100,
           (s.xo.y + ((if s.xt.z < 0 then -1 else 1) * 250 * 0.01 - s.xo.z)
              / (s.xt.z - s.xo.z) * (s.xt.y - s.xo.y)) * 100,
           (if x0.z > 0 then -1 else 1)
              * (s.t - o.stepSize + ((if s.xt.z < 0 then -1 else 1) * 250 * 0.01 - s.xo.z)
                  / (s.xt.z - s.xo.z) * o.stepSize) * o.fDriftVelocity * 100
              + (if x0.z < 0 then -1 else 1) * 250⟩
      ∧ o.CalculateDistortion fuel x0
        = some ⟨x0.x - ((o.crossing x0 s).x - x0.x), x0.y - ((o.crossing x0 s).y - x0.y),
                (o.crossing x0 s).z⟩ := by
  have ht := whileLoop_time_ne_zero o fuel x0 s hs hsteps
  constructor
  · unfold crossing
    rw [if_pos ht]
  · unfold CalculateDistortion
    rw [hs, Option.map_some']
    rfl

/-- Witness for `CalculateDistortion_reverses_xy`: two Euler steps from `(100, 0, 100)`
in a transverse field of 1 T with one nominal step. -/
theorem CalculateDistortion_reverses_xy_witness :
    transverseX.crossing ⟨100, 0, 100⟩
        ⟨⟨1, 5 / 4, 9 / 4⟩, ⟨1, 5 / 2, 7 / 2⟩, 1 / 8000, 2⟩
        = ⟨((1 : ℚ) + ((if (7 / 2 : ℚ) < 0 then -1 else 1) * 250 * 0.01 - 9 / 4)
              / (7 / 2 - 9 / 4) * (1 - 1)) * 100,
           ((5 / 4 : ℚ) + ((if (7 / 2 : ℚ) < 0 then -1 else 1) * 250 * 0.01 - 9 / 4)
              / (7 / 2 - 9 / 4) * (5 / 2 - 5 / 4)) * 100,
           (if (100 : ℚ) > 0 then -1 else 1)
              * (1 / 8000 - transverseX.stepSize
                  + ((if (7 / 2 : ℚ) < 0 then -1 else 1) * 250 * 0.01 - 9 / 4)
                  / (7 / 2 - 9 / 4) * transverseX.stepSize) * transverseX.fDriftVelocity * 100
              + (if (100 : ℚ) < 0 then -1 else 1) * 250⟩
      ∧ transverseX.CalculateDistortion 2 ⟨100, 0, 100⟩
        = some ⟨100 - ((transverseX.crossing ⟨100, 0, 100⟩
                    ⟨⟨1, 5 / 4, 9 / 4⟩, ⟨1, 5 / 2, 7 / 2⟩, 1 / 8000, 2⟩).x - 100),
                0 - ((transverseX.crossing ⟨100, 0, 100⟩
                    ⟨⟨1, 5 / 4, 9 / 4⟩, ⟨1, 5 / 2, 7 / 2⟩, 1 / 8000, 2⟩).y - 0),
                (transverseX.crossing ⟨100, 0, 100⟩
                    ⟨⟨1, 5 / 4, 9 / 4⟩, ⟨1, 5 / 2, 7 / 2⟩, 1 / 8000, 2⟩).z⟩ :=
  CalculateDistortion_reverses_xy transverseX 2 ⟨100, 0, 100⟩
    ⟨⟨1, 5 / 4, 9 / 4⟩, ⟨1, 5 / 2, 7 / 2⟩, 1 / 8000, 2⟩ transverseX_loop (by decide)

/-- C8. The reversal announced at line 269 ("reverse the distortion, i.e. get the
correction") is applied to `dist[0]` and `dist[1]` only: from `(100, 0, 100)` in a
transverse field of 1 T two steps are taken, the crossing is `(100, 150, -50)` and the
result is `(100, -150, -50)`.  Its `x` and `y` are reversed about the start point, its
`z` is the crossing's `-50`, whereas `x0_z - (distorted_z - x0_z) = 250`. -/
theorem CalculateDistortion_z_not_reversed :
    ∃ s r, whileLoop transverseX transverseX.stepSize 2 (initState ⟨100, 0, 100⟩) = some s
      ∧ 1 ≤ s.steps
      ∧ transverseX.crossing ⟨100, 0, 100⟩ s = ⟨100, 150, -50⟩
      ∧ transverseX.CalculateDistortion 2 ⟨100, 0, 100⟩ = some r
      ∧ r = ⟨100, -150, -50⟩
      ∧ r.z ≠ 100 - ((transverseX.crossing ⟨100, 0, 100⟩ s).z - 100) := by
  refine ⟨⟨⟨1, 5 / 4, 9 / 4⟩, ⟨1, 5 / 2, 7 / 2⟩, 1 / 8000, 2⟩, ⟨100, -150, -50⟩,
    transverseX_loop, by decide, transverseX_crossing, ?_, rfl, ?_⟩
  · unfold CalculateDistortion
    rw [transverseX_loop, Option.map_some', transverseX_crossing]
    norm_num [reverse]
  · rw [transverseX_crossing]
    norm_num

/-- C9. The loop is not bounded by `fkN`: with `fkN = 1`, drift velocity `40000 > 0`
and the start point `(100, 0, 100)` (`|z0| < 250`) in a transverse field of 1 T, one
`DGLStep` call does not end the loop (fuel 1 is exhausted) and the loop ends after two
calls. -/
theorem whileLoop_exceeds_fkN :
    transverseX.fkN = 1 ∧ 0 < transverseX.fDriftVelocity ∧ |(100 : ℚ)| < 250
      ∧ whileLoop transverseX transverseX.stepSize 1 (initState ⟨100, 0, 100⟩) = none
      ∧ (whileLoop transverseX transverseX.stepSize 2 (initState ⟨100, 0, 100⟩)).map
          LoopState.steps = some 2 := by
  refine ⟨rfl, by norm_num [transverseX, init], by norm_num [abs_of_pos], ?_, ?_⟩
  · rw [transverseX_stepSize]
    have e0 : initState ⟨100, 0, 100⟩ = ⟨⟨1, 0, 1⟩, ⟨1, 0, 1⟩, 0, 0⟩ := by
      norm_num [initState]
    rw [e0, whileLoop_step _ _ 0 _ (by norm_num [abs_of_pos]),
      transverseX_loopBody _ (by norm_num)]
    exact whileLoop_zero_of_running _ _ _ (by norm_num [abs_of_pos])
  · rw [transverseX_loop]
    rfl

end AliTPCExBExact

namespace AliTPCExBExact

/-! ### Filling the lookup table -/

theorem forLoop_inv {σ : Type} (body : ℤ → σ → Option σ) (Inv : ℤ → σ → Prop) (n : ℕ) :
    ∀ (i0 : ℤ) (s0 : σ), Inv i0 s0 →
      (∀ m : ℕ, m < n → ∀ s, Inv (i0 + m) s →
        ∃ s', body (i0 + m) s = some s' ∧ Inv (i0 + m + 1) s') →
      ∃ s', forLoop body n i0 s0 = some s' ∧ Inv (i0 + n) s' := by
  induction n with
  | zero =>
    intro i0 s0 h0 _
    exact ⟨s0, rfl, by simpa using h0⟩
  | succ n ih =>
    intro i0 s0 h0 hstep
    obtain ⟨s1, hb, h1⟩ := hstep 0 (Nat.succ_pos n) s0 (by simpa using h0)
    simp only [Nat.cast_zero, add_zero] at hb h1
    obtain ⟨s', hs', hI⟩ := ih (i0 + 1) s1 h1 (by
      intro m hm s hs
      have e : i0 + 1 + (m : ℤ) = i0 + ((m + 1 : ℕ) : ℤ) := by push_cast; ring
      rw [e] at hs ⊢
      exact hstep (m + 1) (Nat.succ_lt_succ hm) s hs)
    refine ⟨s', ?_, ?_⟩
    · simp only [forLoop, hb, Option.some_bind]
      exact hs'
    · have e : i0 + ((n + 1 : ℕ) : ℤ) = i0 + 1 + (n : ℤ) := by push_cast; ring
      rw [e]
      exact hI

theorem mul_add_inj (n a b a' b' : ℤ) (hb : 0 ≤ b) (hbn : b < n) (hb' : 0 ≤ b')
    (hbn' : b' < n) (h : a * n + b = a' * n + b') : a = a' ∧ b = b' := by
  have hn : 0 < n := by omega
  have ha : a = a' := by
    rcases lt_trichotomy a a' with hlt | heq | hgt
    · exfalso
      have : (a + 1) * n ≤ a' * n := mul_le_mul_of_nonneg_right (by omega) hn.le
      nlinarith
    · exact heq
    · exfalso
      have : (a' + 1) * n ≤ a * n := mul_le_mul_of_nonneg_right (by omega) hn.le
      nlinarith
  subst ha
  exact ⟨rfl, by omega⟩

theorem flat_inj (o : AliTPCExBExact) (i j k sd c i' j' k' sd' c' : ℤ)
    (hj : 0 ≤ j ∧ j < o.fkNY) (hk : 0 ≤ k ∧ k < o.fkNZ) (hs : 0 ≤ sd ∧ sd < 2)
    (hc : 0 ≤ c ∧ c < 3)
    (hj' : 0 ≤ j' ∧ j' < o.fkNY) (hk' : 0 ≤ k' ∧ k' < o.fkNZ) (hs' : 0 ≤ sd' ∧ sd' < 2)
    (hc' : 0 ≤ c' ∧ c' < 3)
    (h : o.flat i j k sd c = o.flat i' j' k' sd' c') :
    i = i' ∧ j = j' ∧ k = k' ∧ sd = sd' ∧ c = c' := by
  unfold flat at h
  obtain ⟨h1, e5⟩ := mul_add_inj 3 _ c _ c' hc.1 hc.2 hc'.1 hc'.2 h
  obtain ⟨h2, e4⟩ := mul_add_inj 2 _ sd _ sd' hs.1 hs.2 hs'.1 hs'.2 h1
  obtain ⟨h3, e3⟩ := mul_add_inj o.fkNZ _ k _ k' hk.1 hk.2 hk'.1 hk'.2 h2
  obtain ⟨e1, e2⟩ := mul_add_inj o.fkNY _ j _ j' hj.1 hj.2 hj'.1 hj'.2 h3
  exact ⟨e1, e2, e3, e4, e5⟩

end AliTPCExBExact

namespace AliTPCExBExact

theorem store3_other (look : ℤ → ℚ) (base : ℤ) (d : Vec3) (idx : ℤ)
    (h0 : idx ≠ base) (h1 : idx ≠ base + 1) (h2 : idx ≠ base + 2) :
    store3 look base d idx = look idx := by
  simp [store3, h0, h1, h2]

theorem fillNode_eq (o : AliTPCExBExact) (fuel : ℕ) (i j k : ℤ) (look : ℤ → ℚ)
    (d1 d0 : Vec3) (h1 : o.CalculateDistortion fuel (o.nodePos i j k) = some d1)
    (h0 : o.CalculateDistortion fuel (negZ (o.nodePos i j k)) = some d0) :
    o.fillNode fuel i j k look
      = some (store3 (store3 look (o.flat i j k 1 0) d1) (o.flat i j k 0 0) d0) := by
  simp [fillNode, h1, h0, flat]

theorem nodeDist_pos (o : AliTPCExBExact) (fuel : ℕ) (i j k : ℤ) (d : Vec3)
    (h : o.CalculateDistortion fuel (o.nodePos i j k) = some d) :
    o.nodeDist fuel i j k 1 = d := by
  simp [nodeDist, h]

theorem nodeDist_neg (o : AliTPCExBExact) (fuel : ℕ) (i j k : ℤ) (d : Vec3)
    (h : o.CalculateDistortion fuel (negZ (o.nodePos i j k)) = some d) :
    o.nodeDist fuel i j k 0 = d := by
  simp [nodeDist, h]

/-- The two stores of one node fill that node. -/
theorem store_node_ok (o : AliTPCExBExact) (D : ℤ → ℤ → ℤ → ℤ → Vec3) (look : ℤ → ℚ)
    (i j k : ℤ) :
    o.NodeOK D (store3 (store3 look (o.flat i j k 1 0) (D i j k 1)) (o.flat i j k 0 0)
      (D i j k 0)) i j k := by
  intro sd hsd
  rcases hsd with rfl | rfl
  · refine ⟨?_, ?_, ?_⟩ <;> simp [store3, flat]
  · refine ⟨?_, ?_, ?_⟩
    all_goals
      unfold store3 flat
      split_ifs <;> first | rfl | omega

/-- The two stores of one node leave every other grid node untouched. -/
theorem store_node_other (o : AliTPCExBExact) (D : ℤ → ℤ → ℤ → ℤ → Vec3) (look : ℤ → ℚ)
    (d1 d0 : Vec3) (i j k i' j' k' : ℤ) (hR : o.InRange i j k) (hR' : o.InRange i' j' k')
    (hne : ¬ (i' = i ∧ j' = j ∧ k' = k)) (hok : o.NodeOK D look i' j' k') :
    o.NodeOK D (store3 (store3 look (o.flat i j k 1 0) d1) (o.flat i j k 0 0) d0)
      i' j' k' := by
  have key : ∀ sd' c' : ℤ, (0 ≤ sd' ∧ sd' < 2) → (0 ≤ c' ∧ c' < 3) →
      store3 (store3 look (o.flat i j k 1 0) d1) (o.flat i j k 0 0) d0
        (o.flat i' j' k' sd' c') = look (o.flat i' j' k' sd' c') := by
    intro sd' c' hs' hc'
    have ne : ∀ sd c : ℤ, (0 ≤ sd ∧ sd < 2) → (0 ≤ c ∧ c < 3) →
        o.flat i' j' k' sd' c' ≠ o.flat i j k sd c := by
      intro sd c hs hc h
      obtain ⟨e1, e2, e3, -, -⟩ :=
        flat_inj o i' j' k' sd' c' i j k sd c hR'.2.1 hR'.2.2 hs' hc' hR.2.1 hR.2.2 hs hc h
      exact hne ⟨e1, e2, e3⟩
    have a0 := ne 0 0 (by omega) (by omega)
    have a1 := ne 0 1 (by omega) (by omega)
    have a2 := ne 0 2 (by omega) (by omega)
    have b0 := ne 1 0 (by omega) (by omega)
    have b1 := ne 1 1 (by omega) (by omega)
    have b2 := ne 1 2 (by omega) (by omega)
    have f1 : ∀ sd : ℤ, o.flat i j k sd 1 = o.flat i j k sd 0 + 1 := by
      intro sd; unfold flat; ring
    have f2 : ∀ sd : ℤ, o.flat i j k sd 2 = o.flat i j k sd 0 + 2 := by
      intro sd; unfold flat; ring
    rw [f1] at a1 b1
    rw [f2] at a2 b2
    rw [store3_other _ _ _ _ a0 a1 a2, store3_other _ _ _ _ b0 b1 b2]
  intro sd hsd
  have hs : 0 ≤ sd ∧ sd < 2 := by rcases hsd with rfl | rfl <;> omega
  obtain ⟨h0, h1, h2⟩ := hok sd hsd
  refine ⟨?_, ?_, ?_⟩
  · rw [key sd 0 hs (by omega)]; exact h0
  · rw [key sd 1 hs (by omega)]; exact h1
  · rw [key sd 2 hs (by omega)]; exact h2

/-- One pass through the body of the innermost loop fills one more node. -/
theorem fillNode_inv (o : AliTPCExBExact) (fuel : ℕ) (i j k : ℤ) (look : ℤ → ℚ)
    (hR : o.InRange i j k)
    (h1 : (o.CalculateDistortion fuel (o.nodePos i j k)).isSome)
    (h0 : (o.CalculateDistortion fuel (negZ (o.nodePos i j k))).isSome)
    (hF : o.FilledBefore (o.nodeDist fuel) i j k look) :
    ∃ look', o.fillNode fuel i j k look = some look'
      ∧ o.FilledBefore (o.nodeDist fuel) i j (k + 1) look' := by
  obtain ⟨d1, hd1⟩ := Option.isSome_iff_exists.mp h1
  obtain ⟨d0, hd0⟩ := Option.isSome_iff_exists.mp h0
  refine ⟨_, fillNode_eq o fuel i j k look d1 d0 hd1 hd0, ?_⟩
  intro i' j' k' hR' hB
  by_cases heq : i' = i ∧ j' = j ∧ k' = k
  · obtain ⟨rfl, rfl, rfl⟩ := heq
    have := store_node_ok o (o.nodeDist fuel) look i' j' k'
    rw [nodeDist_pos o fuel i' j' k' d1 hd1, nodeDist_neg o fuel i' j' k' d0 hd0] at this
    exact this
  · apply store_node_other o _ look d1 d0 i j k i' j' k' hR hR' heq
    apply hF i' j' k' hR'
    unfold Before at hB ⊢
    rcases hB with h | ⟨h, h' | ⟨h', h''⟩⟩
    · exact Or.inl h
    · exact Or.inr ⟨h, Or.inl h'⟩
    · refine Or.inr ⟨h, Or.inr ⟨h', ?_⟩⟩
      have : k' ≠ k := fun e => heq ⟨h, h', e⟩
      omega

end AliTPCExBExact

namespace AliTPCExBExact

/-- The three nested loops fill every grid node, provided each of the `2·Nx·Ny·Nz`
integrations ends within the fuel. -/
theorem fillTable_spec (o : AliTPCExBExact) (fuel : ℕ)
    (hterm : ∀ i j k, o.InRange i j k →
      (o.CalculateDistortion fuel (o.nodePos i j k)).isSome
        ∧ (o.CalculateDistortion fuel (negZ (o.nodePos i j k))).isSome) :
    ∃ look, o.fillTable fuel = some look
      ∧ ∀ i j k, o.InRange i j k → o.NodeOK (o.nodeDist fuel) look i j k := by
  have hcast : ∀ (N : ℤ) (m : ℕ), m < N.toNat → (0 : ℤ) ≤ 0 + (m : ℤ) ∧ 0 + (m : ℤ) < N := by
    intro N m hm
    omega
  have hend : ∀ N : ℤ, (0 : ℤ) + (N.toNat : ℤ) = max N 0 := by
    intro N
    omega
  -- innermost loop
  have inner : ∀ i j look, (0 ≤ i ∧ i < o.fkNX) → (0 ≤ j ∧ j < o.fkNY) →
      o.FilledBefore (o.nodeDist fuel) i j 0 look →
      ∃ look', forLoop (fun k look => o.fillNode fuel i j k look) o.fkNZ.toNat 0 look
          = some look' ∧ o.FilledBefore (o.nodeDist fuel) i (j + 1) 0 look' := by
    intro i j look hi hj hF
    obtain ⟨look', hl, hI⟩ := forLoop_inv (fun k look => o.fillNode fuel i j k look)
      (fun k look => o.FilledBefore (o.nodeDist fuel) i j k look) o.fkNZ.toNat 0 look hF
      (by
        intro m hm lk hlk
        have hk := hcast o.fkNZ m hm
        have hR : o.InRange i j (0 + (m : ℤ)) := ⟨hi, hj, hk⟩
        exact fillNode_inv o fuel i j _ lk hR (hterm _ _ _ hR).1 (hterm _ _ _ hR).2 hlk)
    refine ⟨look', hl, ?_⟩
    intro i' j' k' hR' hB
    apply hI i' j' k' hR'
    rw [hend]
    unfold Before at hB ⊢
    have hk' := hR'.2.2
    rcases hB with h | ⟨h, h' | ⟨h', h''⟩⟩
    · exact Or.inl h
    · by_cases e : j' = j
      · exact Or.inr ⟨h, Or.inr ⟨e, lt_of_lt_of_le hk'.2 (le_max_left _ _)⟩⟩
      · exact Or.inr ⟨h, Or.inl (by omega)⟩
    · omega
  -- middle loop
  have middle : ∀ i look, (0 ≤ i ∧ i < o.fkNX) →
      o.FilledBefore (o.nodeDist fuel) i 0 0 look →
      ∃ look', forLoop (fun j look =>
          forLoop (fun k look => o.fillNode fuel i j k look) o.fkNZ.toNat 0 look)
          o.fkNY.toNat 0 look = some look'
        ∧ o.FilledBefore (o.nodeDist fuel) (i + 1) 0 0 look' := by
    intro i look hi hF
    obtain ⟨look', hl, hI⟩ := forLoop_inv (fun j look =>
        forLoop (fun k look => o.fillNode fuel i j k look) o.fkNZ.toNat 0 look)
      (fun j look => o.FilledBefore (o.nodeDist fuel) i j 0 look) o.fkNY.toNat 0 look hF
      (by
        intro m hm lk hlk
        exact inner i _ lk hi (hcast o.fkNY m hm) hlk)
    refine ⟨look', hl, ?_⟩
    intro i' j' k' hR' hB
    apply hI i' j' k' hR'
    rw [hend]
    unfold Before at hB ⊢
    have hj' := hR'.2.1
    have hk' := hR'.2.2
    rcases hB with h | ⟨h, h' | ⟨h', h''⟩⟩
    · by_cases e : i' = i
      · exact Or.inr ⟨e, Or.inl (lt_of_lt_of_le hj'.2 (le_max_left _ _))⟩
      · exact Or.inl (by omega)
    · omega
    · omega
  -- outer loop
  have h0 : o.FilledBefore (o.nodeDist fuel) 0 0 0 o.fLook := by
    intro i' j' k' hR' hB
    unfold Before at hB
    have hi' := hR'.1
    have hj' := hR'.2.1
    have hk' := hR'.2.2
    omega
  obtain ⟨look', hl, hI⟩ := forLoop_inv (fun i look =>
      forLoop (fun j look =>
        forLoop (fun k look => o.fillNode fuel i j k look) o.fkNZ.toNat 0 look)
        o.fkNY.toNat 0 look)
    (fun i look => o.FilledBefore (o.nodeDist fuel) i 0 0 look) o.fkNX.toNat 0 o.fLook h0
    (by
      intro m hm lk hlk
      exact middle _ lk (hcast o.fkNX m hm) hlk)
  refine ⟨look', hl, ?_⟩
  intro i j k hR
  apply hI i j k hR
  rw [hend]
  exact Or.inl (lt_of_lt_of_le hR.1.2 (le_max_left _ _))

end AliTPCExBExact

namespace AliTPCExBExact

/-! ### Uniform fields -/

theorem fgkEM_pos : 0 < fgkEM := by norm_num [fgkEM]

theorem fgkDriftField_pos : 0 < fgkDriftField := by norm_num [fgkDriftField]

/-- In a uniform field `Motion` is `±driftVec`, the sign being that of the side. -/
theorem Motion_uniform (o : AliTPCExBExact) (b : Vec3) (hb : ∀ x, o.Field x = b)
    (x : Vec3) (t : ℚ) :
    o.Motion x t = if x.z < 0 then ⟨-o.driftVec.x, -o.driftVec.y, -o.driftVec.z⟩
      else o.driftVec := by
  by_cases hz : x.z < 0
  · rw [if_pos hz]
    simp only [driftVec, Motion, GetE, GetB, hb, if_pos hz]
    norm_num
  · rw [if_neg hz]
    simp only [driftVec, Motion, GetE, GetB, hb, if_neg hz]
    norm_num

theorem driftVec_z_pos (o : AliTPCExBExact) (hv : 0 < o.fDriftVelocity) :
    0 < o.driftVec.z := by
  have hE := fgkEM_pos
  have hD := fgkDriftField_pos
  have htau : 0 < o.fDriftVelocity / fgkDriftField / fgkEM := by positivity
  simp only [driftVec, Motion, GetE]
  norm_num
  have h1 := mul_nonneg (mul_self_nonneg (fgkEM * (o.GetB ⟨0, 0, 0⟩).z))
    (mul_self_nonneg (o.fDriftVelocity / fgkDriftField / fgkEM))
  have h2 := mul_nonneg (add_nonneg (add_nonneg
    (mul_self_nonneg (fgkEM * (o.GetB ⟨0, 0, 0⟩).x))
    (mul_self_nonneg (fgkEM * (o.GetB ⟨0, 0, 0⟩).y)))
    (mul_self_nonneg (fgkEM * (o.GetB ⟨0, 0, 0⟩).z)))
    (mul_self_nonneg (o.fDriftVelocity / fgkDriftField / fgkEM))
  exact mul_pos (mul_pos (by linarith) (mul_pos hE hD)) (div_pos htau (by linarith))

theorem stepSize_pos (o : AliTPCExBExact) (hv : 0 < o.fDriftVelocity) (hn : 1 ≤ o.fkN) :
    0 < o.stepSize := by
  have : (0 : ℚ) < (o.fkN : ℚ) := by exact_mod_cast (by omega : 0 < o.fkN)
  unfold stepSize
  positivity

/-- Without a magnetic field the drift vector is `(0, 0, driftVelocity)`. -/
theorem driftVec_zero_field (o : AliTPCExBExact) (hb : ∀ x, o.Field x = ⟨0, 0, 0⟩) :
    o.driftVec = ⟨0, 0, o.fDriftVelocity⟩ := by
  have hE := fgkEM_pos.ne'
  have hD := fgkDriftField_pos.ne'
  simp only [driftVec, Motion, GetE, GetB, hb]
  norm_num
  field_simp
  ring

end AliTPCExBExact

namespace AliTPCExBExact

/-- When the loop ends, its condition is false. -/
theorem whileLoop_exit_cond (o : AliTPCExBExact) (h : ℚ) (fuel : ℕ) :
    ∀ s s', whileLoop o h fuel s = some s' → ¬ |s'.xt.z| < 250 * 0.01 := by
  induction fuel with
  | zero =>
    intro s s' hs
    by_cases hc : |s.xt.z| < 250 * 0.01
    · rw [whileLoop_zero_of_running o h s hc] at hs
      cases hs
    · rw [whileLoop_exit o h 0 s hc] at hs
      cases hs
      exact hc
  | succ n ih =>
    intro s s' hs
    by_cases hc : |s.xt.z| < 250 * 0.01
    · rw [whileLoop_step o h n s hc] at hs
      exact ih _ _ hs
    · rw [whileLoop_exit o h (n + 1) s hc] at hs
      cases hs
      exact hc

/-- The Euler step in a uniform field, by side. -/
theorem loopBody_uniform (o : AliTPCExBExact) (b : Vec3) (hb : ∀ x, o.Field x = b)
    (h : ℚ) (s : LoopState) :
    o.loopBody h s = ⟨s.xt,
      if s.xt.z < 0 then
        ⟨s.xt.x + h * -o.driftVec.x, s.xt.y + h * -o.driftVec.y, s.xt.z + h * -o.driftVec.z⟩
      else
        ⟨s.xt.x + h * o.driftVec.x, s.xt.y + h * o.driftVec.y, s.xt.z + h * o.driftVec.z⟩,
      s.t + h, s.steps + 1⟩ := by
  unfold loopBody DGLStep
  rw [Motion_uniform o b hb]
  split_ifs <;> rfl

/-- In a uniform field the loop commutes with the reflection across the cathode, as
long as the trajectory does not start on the cathode. -/
theorem whileLoop_mirror (o : AliTPCExBExact) (b : Vec3) (hb : ∀ x, o.Field x = b)
    (h : ℚ) (hd : 0 ≤ h * o.driftVec.z) (c : Vec3) (fuel : ℕ) :
    ∀ s, s.xt.z ≠ 0 →
      whileLoop o h fuel (mirState c s) = (whileLoop o h fuel s).map (mirState c) := by
  induction fuel with
  | zero =>
    intro s _
    have e : (mirState c s).xt.z = -s.xt.z := rfl
    by_cases hc : |s.xt.z| < 250 * 0.01
    · rw [whileLoop_zero_of_running o h s hc,
        whileLoop_zero_of_running o h _ (by rw [e, abs_neg]; exact hc)]
      rfl
    · rw [whileLoop_exit o h 0 s hc,
        whileLoop_exit o h 0 _ (by rw [e, abs_neg]; exact hc)]
      rfl
  | succ n ih =>
    intro s hz
    have e : (mirState c s).xt.z = -s.xt.z := rfl
    by_cases hc : |s.xt.z| < 250 * 0.01
    · rw [whileLoop_step o h n s hc,
        whileLoop_step o h n _ (by rw [e, abs_neg]; exact hc)]
      have hstep : o.loopBody h (mirState c s) = mirState c (o.loopBody h s) := by
        rw [loopBody_uniform o b hb, loopBody_uniform o b hb]
        rcases lt_or_gt_of_ne hz with hneg | hpos
        · have h1 : ¬ (mirState c s).xt.z < 0 := by rw [e]; linarith
          rw [if_neg h1, if_pos hneg]
          simp only [mirState, mirrorAbout, LoopState.mk.injEq, Vec3.mk.injEq, true_and,
            and_true]
          refine ⟨?_, ?_, ?_⟩ <;> ring
        · have h1 : (mirState c s).xt.z < 0 := by rw [e]; linarith
          have h2 : ¬ s.xt.z < 0 := by linarith
          rw [if_pos h1, if_neg h2]
          simp only [mirState, mirrorAbout, LoopState.mk.injEq, Vec3.mk.injEq, true_and,
            and_true]
          refine ⟨?_, ?_, ?_⟩ <;> ring
      rw [hstep]
      apply ih
      rw [loopBody_uniform o b hb]
      rcases lt_or_gt_of_ne hz with hneg | hpos
      · rw [if_pos hneg]
        show s.xt.z + h * -o.driftVec.z ≠ 0
        have : s.xt.z + h * -o.driftVec.z < 0 := by nlinarith
        exact this.ne
      · have h2 : ¬ s.xt.z < 0 := by linarith
        rw [if_neg h2]
        show s.xt.z + h * o.driftVec.z ≠ 0
        have : 0 < s.xt.z + h * o.driftVec.z := by nlinarith
        exact this.ne'
    · rw [whileLoop_exit o h (n + 1) s hc,
        whileLoop_exit o h (n + 1) _ (by rw [e, abs_neg]; exact hc)]
      rfl

end AliTPCExBExact

namespace AliTPCExBExact

/-- The crossing and its reversal commute with the reflection across the cathode. -/
theorem reverse_crossing_mirror (o : AliTPCExBExact) (x0 : Vec3) (hz : x0.z ≠ 0)
    (s : LoopState) (hs : ¬ |s.xt.z| < 250 * 0.01) :
    reverse (negZ x0) (o.crossing (negZ x0)
        (mirState ⟨x0.x * 0.01, x0.y * 0.01, x0.z * 0.01⟩ s))
      = mirrorAbout x0 (reverse x0 (o.crossing x0 s)) := by
  have hxt : s.xt.z ≠ 0 := by
    intro h0
    apply hs
    rw [h0, abs_zero]
    norm_num
  have hp : ((if -s.xt.z < 0 then -1 else 1) * 250 * 0.01 - -s.xo.z) / (-s.xt.z - -s.xo.z)
      = ((if s.xt.z < 0 then -1 else 1) * 250 * 0.01 - s.xo.z) / (s.xt.z - s.xo.z) := by
    rw [← neg_div_neg_eq]
    rcases lt_or_gt_of_ne hxt with hneg | hpos
    · have h1 : ¬ -s.xt.z < 0 := by linarith
      rw [if_neg h1, if_pos hneg]
      congr 1 <;> ring
    · have h1 : -s.xt.z < 0 := by linarith
      have h2 : ¬ s.xt.z < 0 := by linarith
      rw [if_pos h1, if_neg h2]
      congr 1 <;> ring
  unfold crossing
  simp only [mirState, mirrorAbout, negZ]
  by_cases ht : s.t ≠ 0
  · rw [if_pos ht, if_pos ht, hp]
    generalize ((if s.xt.z < 0 then -1 else 1) * 250 * 0.01 - s.xo.z) / (s.xt.z - s.xo.z) = p
    rcases lt_or_gt_of_ne hz with hneg | hpos
    · have h1 : ¬ x0.z > 0 := by simp only [gt_iff_lt]; linarith
      have h2 : -x0.z > 0 := by simp only [gt_iff_lt]; linarith
      have h3 : ¬ -x0.z < 0 := by linarith
      simp only [if_neg h1, if_pos h2, if_pos hneg, if_neg h3, reverse, Vec3.mk.injEq]
      refine ⟨?_, ?_, ?_⟩ <;> ring
    · have h1 : ¬ -x0.z > 0 := by simp only [gt_iff_lt]; linarith
      have h2 : ¬ x0.z < 0 := by linarith
      have h3 : -x0.z < 0 := by linarith
      simp only [if_neg h1, if_pos hpos, if_neg h2, if_pos h3, reverse, Vec3.mk.injEq]
      refine ⟨?_, ?_, ?_⟩ <;> ring
  · rw [if_neg ht, if_neg ht]
    simp only [reverse, Vec3.mk.injEq]
    refine ⟨?_, ?_, trivial⟩ <;> ring

/-- In a uniform field, the result at the mirror image of a start point off the
cathode is the mirror image of the result: the `x` and `y` corrections are negated and
the `z` value is negated. -/
theorem CalculateDistortion_mirror (o : AliTPCExBExact) (b : Vec3)
    (hb : ∀ x, o.Field x = b) (hv : 0 < o.fDriftVelocity) (hn : 1 ≤ o.fkN)
    (fuel : ℕ) (x0 : Vec3) (hz : x0.z ≠ 0) :
    o.CalculateDistortion fuel (negZ x0)
      = (o.CalculateDistortion fuel x0).map (mirrorAbout x0) := by
  have hd : 0 ≤ o.stepSize * o.driftVec.z :=
    (mul_pos (o.stepSize_pos hv hn) (o.driftVec_z_pos hv)).le
  have hinit : initState (negZ x0)
      = mirState ⟨x0.x * 0.01, x0.y * 0.01, x0.z * 0.01⟩ (initState x0) := by
    simp only [initState, mirState, mirrorAbout, negZ, LoopState.mk.injEq, Vec3.mk.injEq,
      and_true, and_self]
    refine ⟨?_, ?_, ?_⟩ <;> ring
  have hz' : (initState x0).xt.z ≠ 0 := by
    show x0.z * 0.01 ≠ 0
    exact mul_ne_zero hz (by norm_num)
  unfold CalculateDistortion
  rw [hinit, whileLoop_mirror o b hb _ hd _ fuel _ hz']
  cases hl : whileLoop o o.stepSize fuel (initState x0) with
  | none => rfl
  | some s =>
    have hc := whileLoop_exit_cond o _ fuel _ _ hl
    simp only [Option.map_some', Option.some.injEq]
    exact reverse_crossing_mirror o x0 hz s hc

end AliTPCExBExact

namespace AliTPCExBExact

/-- The loop on the positive side of a uniform field: with enough fuel it ends, either
at once or after `m + 1` steps along the straight line of direction `driftVec`. -/
theorem whileLoop_uniform_pos (o : AliTPCExBExact) (b : Vec3) (hb : ∀ x, o.Field x = b)
    (h : ℚ) (hd : 0 < h * o.driftVec.z) (fuel : ℕ) :
    ∀ s, 0 < s.xt.z → 250 * 0.01 - s.xt.z ≤ fuel * (h * o.driftVec.z) →
      ∃ s', whileLoop o h fuel s = some s' ∧
        (s' = s ∨ ∃ m : ℕ, s'.steps = s.steps + m + 1 ∧ s'.t = s.t + (m + 1) * h
          ∧ s'.xo.x = s.xt.x + m * (h * o.driftVec.x)
          ∧ s'.xo.y = s.xt.y + m * (h * o.driftVec.y)
          ∧ s'.xo.z = s.xt.z + m * (h * o.driftVec.z)
          ∧ s'.xt.x = s.xt.x + (m + 1) * (h * o.driftVec.x)
          ∧ s'.xt.y = s.xt.y + (m + 1) * (h * o.driftVec.y)
          ∧ s'.xt.z = s.xt.z + (m + 1) * (h * o.driftVec.z)
          ∧ s'.xo.z < 250 * 0.01) := by
  induction fuel with
  | zero =>
    intro s hz hf
    have hc : ¬ |s.xt.z| < 250 * 0.01 := by
      rw [abs_of_pos hz]
      simp only [Nat.cast_zero, zero_mul] at hf
      linarith
    exact ⟨s, whileLoop_exit o h 0 s hc, Or.inl rfl⟩
  | succ n ih =>
    intro s hz hf
    by_cases hc : |s.xt.z| < 250 * 0.01
    · have hnz : ¬ s.xt.z < 0 := by linarith
      have hbody : o.loopBody h s = ⟨s.xt,
          ⟨s.xt.x + h * o.driftVec.x, s.xt.y + h * o.driftVec.y,
            s.xt.z + h * o.driftVec.z⟩, s.t + h, s.steps + 1⟩ := by
        rw [loopBody_uniform o b hb, if_neg hnz]
      have hz1 : 0 < (o.loopBody h s).xt.z := by
        rw [hbody]
        show 0 < s.xt.z + h * o.driftVec.z
        linarith
      have hf1 : 250 * 0.01 - (o.loopBody h s).xt.z ≤ n * (h * o.driftVec.z) := by
        rw [hbody]
        show 250 * 0.01 - (s.xt.z + h * o.driftVec.z) ≤ n * (h * o.driftVec.z)
        push_cast at hf
        linarith
      obtain ⟨s', hl, hres⟩ := ih _ hz1 hf1
      refine ⟨s', by rw [whileLoop_step o h n s hc]; exact hl, Or.inr ?_⟩
      rw [abs_of_pos hz] at hc
      rcases hres with rfl | ⟨m, h1, h2, h3, h4, h5, h6, h7, h8, h9⟩
      · refine ⟨0, ?_, ?_, ?_, ?_, ?_, ?_, ?_, ?_, ?_⟩ <;> rw [hbody] <;>
          simp only [Nat.cast_zero, zero_mul, add_zero, zero_add, one_mul]
        exact hc
      · rw [hbody] at h1 h2 h3 h4 h5 h6 h7 h8
        simp only at h1 h2 h3 h4 h5 h6 h7 h8
        refine ⟨m + 1, ?_, ?_, ?_, ?_, ?_, ?_, ?_, ?_, h9⟩
        · omega
        · rw [h2]; push_cast; ring
        · rw [h3]; push_cast; ring
        · rw [h4]; push_cast; ring
        · rw [h5]; push_cast; ring
        · rw [h6]; push_cast; ring
        · rw [h7]; push_cast; ring
        · rw [h8]; push_cast; ring
    · exact ⟨s, whileLoop_exit o h (n + 1) s hc, Or.inl rfl⟩

end AliTPCExBExact

namespace AliTPCExBExact

/-- Closed form of `CalculateDistortion` on the positive side of a uniform field: the
straight line of direction `driftVec` from the start point to the end plane. -/
theorem CalculateDistortion_uniform_pos (o : AliTPCExBExact) (b : Vec3)
    (hb : ∀ x, o.Field x = b) (hv : 0 < o.fDriftVelocity) (hn : 1 ≤ o.fkN)
    (fuel : ℕ) (x0 : Vec3) (hz0 : 0 < x0.z) (hz1 : x0.z < 250)
    (hf : 250 * 0.01 ≤ fuel * (o.stepSize * o.driftVec.z)) :
    o.CalculateDistortion fuel x0
      = some ⟨x0.x - (250 - x0.z) * o.driftVec.x / o.driftVec.z,
              x0.y - (250 - x0.z) * o.driftVec.y / o.driftVec.z,
              250 - (250 - x0.z) * o.fDriftVelocity / o.driftVec.z⟩ := by
  have hh := o.stepSize_pos hv hn
  have hV := o.driftVec_z_pos hv
  have hd : 0 < o.stepSize * o.driftVec.z := mul_pos hh hV
  have hz : 0 < (initState x0).xt.z := by
    show 0 < x0.z * 0.01
    positivity
  have hfuel : 250 * 0.01 - (initState x0).xt.z ≤ fuel * (o.stepSize * o.driftVec.z) := by
    linarith
  obtain ⟨s, hl, hres⟩ := whileLoop_uniform_pos o b hb o.stepSize hd fuel _ hz hfuel
  have hc := whileLoop_exit_cond o _ fuel _ _ hl
  rcases hres with rfl | ⟨m, -, h2, h3, h4, h5, h6, h7, h8, -⟩
  · exfalso
    apply hc
    show |x0.z * 0.01| < 250 * 0.01
    rw [abs_of_pos (by positivity)]
    linarith
  · have e0 : (initState x0).t = 0 := rfl
    have ex : (initState x0).xt.x = x0.x * 0.01 := rfl
    have ey : (initState x0).xt.y = x0.y * 0.01 := rfl
    have ez : (initState x0).xt.z = x0.z * 0.01 := rfl
    rw [e0, zero_add] at h2
    rw [ex] at h3 h6
    rw [ey] at h4 h7
    rw [ez] at h5 h8
    have hm : (0 : ℚ) ≤ (m : ℚ) := Nat.cast_nonneg m
    have ht : s.t ≠ 0 := by
      rw [h2]
      have : 0 < ((m : ℚ) + 1) * o.stepSize := by positivity
      exact this.ne'
    have hxt : ¬ s.xt.z < 0 := by
      rw [h8]
      have : 0 < ((m : ℚ) + 1) * (o.stepSize * o.driftVec.z) := by positivity
      have : 0 < x0.z * 0.01 := by positivity
      linarith
    have h1 : ¬ x0.z < 0 := by linarith
    unfold CalculateDistortion
    rw [hl, Option.map_some']
    simp only [crossing, if_pos ht, if_neg hxt, if_pos (show x0.z > 0 from hz0), if_neg h1,
      reverse, Option.some.injEq, Vec3.mk.injEq]
    simp only [h2, h3, h4, h5, h6, h7, h8]
    have hh' := hh.ne'
    have hV' := hV.ne'
    have hden : x0.z * 0.01 + ((m : ℚ) + 1) * (o.stepSize * o.driftVec.z)
        - (x0.z * 0.01 + (m : ℚ) * (o.stepSize * o.driftVec.z))
        = o.stepSize * o.driftVec.z := by ring
    rw [hden]
    refine ⟨?_, ?_, ?_⟩
    · field_simp
      ring
    · field_simp
      ring
    · field_simp
      ring

end AliTPCExBExact

namespace AliTPCExBExact

/-- In a uniform field every integration from a start point off the cathode ends
within the fuel, once the fuel covers the half drift length at the `z` speed. -/
theorem CalculateDistortion_uniform_isSome (o : AliTPCExBExact) (b : Vec3)
    (hb : ∀ x, o.Field x = b) (hv : 0 < o.fDriftVelocity) (hn : 1 ≤ o.fkN)
    (fuel : ℕ) (hf : 250 * 0.01 ≤ fuel * (o.stepSize * o.driftVec.z))
    (x0 : Vec3) (hz : x0.z ≠ 0) : (o.CalculateDistortion fuel x0).isSome := by
  have pos : ∀ y : Vec3, 0 < y.z → (o.CalculateDistortion fuel y).isSome := by
    intro y hy
    by_cases h250 : y.z < 250
    · rw [CalculateDistortion_uniform_pos o b hb hv hn fuel y hy h250 hf]
      rfl
    · have : 250 ≤ |y.z| := by rw [abs_of_pos hy]; linarith
      rw [(CalculateDistortion_far o fuel y this).2.2]
      rfl
  rcases lt_or_gt_of_ne hz with hneg | hpos
  · have e : x0 = negZ (negZ x0) := by simp [negZ]
    have hz' : (negZ x0).z ≠ 0 := by
      show -x0.z ≠ 0
      exact neg_ne_zero.mpr hz
    rw [e, CalculateDistortion_mirror o b hb hv hn fuel (negZ x0) hz', Option.isSome_map']
    apply pos
    show 0 < -x0.z
    linarith
  · exact pos x0 hpos

/-! ### Interpolating mirrored and affine tables -/

theorem interp_eq_tri (o : AliTPCExBExact) (p : Vec3) (i : ℤ) :
    o.interp p i = tri (fun a b c => o.fLook (o.flat a b c (o.side p) i))
      (o.xi1 p) (o.yi1 p) (o.zi1 p) (o.gx p) (o.gy p) (o.gz p) := by
  simp only [interp, terms, tri, flat, List.map_cons, List.map_nil, List.sum_cons,
    List.sum_nil]
  ring

theorem tri_congr (f g : ℤ → ℤ → ℤ → ℚ) (a b c : ℤ) (X Y Z : ℚ)
    (h : ∀ i j k, (i = a ∨ i = a + 1) → (j = b ∨ j = b + 1) → (k = c ∨ k = c + 1) →
      f i j k = g i j k) :
    tri f a b c X Y Z = tri g a b c X Y Z := by
  unfold tri
  rw [h a b c (Or.inl rfl) (Or.inl rfl) (Or.inl rfl),
    h a b (c + 1) (Or.inl rfl) (Or.inl rfl) (Or.inr rfl),
    h a (b + 1) c (Or.inl rfl) (Or.inr rfl) (Or.inl rfl),
    h a (b + 1) (c + 1) (Or.inl rfl) (Or.inr rfl) (Or.inr rfl),
    h (a + 1) (b + 1) c (Or.inr rfl) (Or.inr rfl) (Or.inl rfl),
    h (a + 1) (b + 1) (c + 1) (Or.inr rfl) (Or.inr rfl) (Or.inr rfl),
    h (a + 1) b c (Or.inr rfl) (Or.inl rfl) (Or.inl rfl),
    h (a + 1) b (c + 1) (Or.inr rfl) (Or.inl rfl) (Or.inr rfl)]

theorem tri_affine_x (A B : ℚ) (a b c : ℤ) (X Y Z : ℚ) :
    tri (fun i _ _ => A + B * (i : ℚ)) a b c X Y Z = A + B * X := by
  unfold tri
  push_cast
  ring

theorem tri_affine_y (A B : ℚ) (a b c : ℤ) (X Y Z : ℚ) :
    tri (fun _ j _ => A + B * (j : ℚ)) a b c X Y Z = A + B * Y := by
  unfold tri
  push_cast
  ring

theorem tri_affine_z (A B : ℚ) (a b c : ℤ) (X Y Z : ℚ) :
    tri (fun _ _ k => A + B * (k : ℚ)) a b c X Y Z = A + B * Z := by
  unfold tri
  push_cast
  ring

theorem tri_mirror_x (f : ℤ → ℤ → ℤ → ℚ) (A B : ℚ) (a b c : ℤ) (X Y Z : ℚ) :
    tri (fun i j k => 2 * (A + B * (i : ℚ)) - f i j k) a b c X Y Z
      = 2 * (A + B * X) - tri f a b c X Y Z := by
  unfold tri
  push_cast
  ring

theorem tri_mirror_y (f : ℤ → ℤ → ℤ → ℚ) (A B : ℚ) (a b c : ℤ) (X Y Z : ℚ) :
    tri (fun i j k => 2 * (A + B * (j : ℚ)) - f i j k) a b c X Y Z
      = 2 * (A + B * Y) - tri f a b c X Y Z := by
  unfold tri
  push_cast
  ring

theorem tri_neg (f : ℤ → ℤ → ℤ → ℚ) (a b c : ℤ) (X Y Z : ℚ) :
    tri (fun i j k => - f i j k) a b c X Y Z = - tri f a b c X Y Z := by
  unfold tri
  ring

/-- The node abscissa at the fractional coordinate `gx` is the position's `x`. -/
theorem nodeX_gx (o : AliTPCExBExact) (p : Vec3) (hX : o.fkXMin ≠ o.fkXMax)
    (hN : 2 ≤ o.fkNX) :
    o.fkXMin + (o.fkXMax - o.fkXMin) / ((o.fkNX - 1 : ℤ) : ℚ) * o.gx p = p.x := by
  have h1 : o.fkXMax - o.fkXMin ≠ 0 := sub_ne_zero.mpr (Ne.symm hX)
  have h2 : (o.fkNX : ℚ) - 1 ≠ 0 := by
    have : (o.fkNX - 1 : ℤ) ≠ 0 := by omega
    exact_mod_cast this
  unfold gx
  push_cast
  field_simp
  ring

theorem nodeY_gy (o : AliTPCExBExact) (p : Vec3) (hY : o.fkYMin ≠ o.fkYMax)
    (hN : 2 ≤ o.fkNY) :
    o.fkYMin + (o.fkYMax - o.fkYMin) / ((o.fkNY - 1 : ℤ) : ℚ) * o.gy p = p.y := by
  have h1 : o.fkYMax - o.fkYMin ≠ 0 := sub_ne_zero.mpr (Ne.symm hY)
  have h2 : (o.fkNY : ℚ) - 1 ≠ 0 := by
    have : (o.fkNY - 1 : ℤ) ≠ 0 := by omega
    exact_mod_cast this
  unfold gy
  push_cast
  field_simp
  ring

end AliTPCExBExact

namespace AliTPCExBExact

theorem gz_eq_abs_gz0 (o : AliTPCExBExact) (p : Vec3) : o.gz p = |o.gz0 p| := by
  unfold gz
  split_ifs with h
  · exact (abs_of_pos h).symm
  · exact (abs_of_nonpos (not_lt.mp h)).symm

theorem gz0_negZ (o : AliTPCExBExact) (p : Vec3) : o.gz0 (negZ p) = - o.gz0 p := by
  unfold gz0 negZ
  ring

theorem gz_negZ (o : AliTPCExBExact) (p : Vec3) : o.gz (negZ p) = o.gz p := by
  rw [gz_eq_abs_gz0, gz_eq_abs_gz0, gz0_negZ, abs_neg]

theorem zi1_negZ (o : AliTPCExBExact) (p : Vec3) : o.zi1 (negZ p) = o.zi1 p := by
  unfold zi1
  rw [gz_negZ]

theorem outside_negZ (Sqrt : ℚ → ℚ) (p : Vec3) : outside Sqrt (negZ p) ↔ outside Sqrt p := by
  unfold outside negZ
  simp only [abs_neg]

/-- The eight corners of the cell of `p` lie on the grid. -/
theorem corners_inRange (o : AliTPCExBExact) (p : Vec3)
    (hx : 2 ≤ o.fkNX) (hy : 2 ≤ o.fkNY) (hz : 2 ≤ o.fkNZ) (i j k : ℤ)
    (hi : i = o.xi1 p ∨ i = o.xi1 p + 1) (hj : j = o.yi1 p ∨ j = o.yi1 p + 1)
    (hk : k = o.zi1 p ∨ k = o.zi1 p + 1) : o.InRange i j k := by
  have bx : 0 ≤ o.xi1 p ∧ o.xi1 p ≤ o.fkNX - 2 := clamp_range _ _ hx
  have bY : 0 ≤ o.yi1 p ∧ o.yi1 p ≤ o.fkNY - 2 := clamp_range _ _ hy
  have bz : 0 ≤ o.zi1 p ∧ o.zi1 p ≤ o.fkNZ - 2 := clamp_range _ _ hz
  refine ⟨?_, ?_, ?_⟩
  · rcases hi with rfl | rfl <;> omega
  · rcases hj with rfl | rfl <;> omega
  · rcases hk with rfl | rfl <;> omega

/-- Interpolation in a table whose negative side mirrors its positive side, at a
position on the positive side. -/
theorem interp_mirror_pos (o : AliTPCExBExact)
    (hx : 2 ≤ o.fkNX) (hy : 2 ≤ o.fkNY) (hz : 2 ≤ o.fkNZ)
    (hX : o.fkXMin ≠ o.fkXMax) (hY : o.fkYMin ≠ o.fkYMax) (hZ : 0 < o.fkZMax)
    (hT : ∀ i j k, o.InRange i j k →
      o.fLook (o.flat i j k 0 0) = 2 * (o.nodePos i j k).x - o.fLook (o.flat i j k 1 0)
        ∧ o.fLook (o.flat i j k 0 1)
            = 2 * (o.nodePos i j k).y - o.fLook (o.flat i j k 1 1)
        ∧ o.fLook (o.flat i j k 0 2) = - o.fLook (o.flat i j k 1 2))
    (p : Vec3) (hp : 0 < p.z) :
    o.interp (negZ p) 0 = 2 * p.x - o.interp p 0
      ∧ o.interp (negZ p) 1 = 2 * p.y - o.interp p 1
      ∧ o.interp (negZ p) 2 = - o.interp p 2 := by
  have hs1 : o.side p = 1 := by
    rw [o.side_eq_sign p hZ hz, if_pos hp]
  have hs0 : o.side (negZ p) = 0 := by
    rw [o.side_eq_sign (negZ p) hZ hz]
    have : ¬ (negZ p).z > 0 := by
      show ¬ -p.z > 0
      simp only [gt_iff_lt, not_lt]
      linarith
    rw [if_neg this]
  have ex : o.xi1 (negZ p) = o.xi1 p := rfl
  have ey : o.yi1 (negZ p) = o.yi1 p := rfl
  have egx : o.gx (negZ p) = o.gx p := rfl
  have egy : o.gy (negZ p) = o.gy p := rfl
  have hc := corners_inRange o p hx hy hz
  simp only [interp_eq_tri, hs1, hs0, ex, ey, egx, egy, zi1_negZ, gz_negZ]
  refine ⟨?_, ?_, ?_⟩
  · rw [tri_congr _ (fun i j k => 2 * (o.fkXMin
        + (o.fkXMax - o.fkXMin) / ((o.fkNX - 1 : ℤ) : ℚ) * (i : ℚ))
        - o.fLook (o.flat i j k 1 0)) _ _ _ _ _ _
      (fun i j k hi hj hk => (hT i j k (hc i j k hi hj hk)).1),
      tri_mirror_x, nodeX_gx o p hX hx]
  · rw [tri_congr _ (fun i j k => 2 * (o.fkYMin
        + (o.fkYMax - o.fkYMin) / ((o.fkNY - 1 : ℤ) : ℚ) * (j : ℚ))
        - o.fLook (o.flat i j k 1 1)) _ _ _ _ _ _
      (fun i j k hi hj hk => (hT i j k (hc i j k hi hj hk)).2.1),
      tri_mirror_y, nodeY_gy o p hY hy]
  · rw [tri_congr _ (fun i j k => - o.fLook (o.flat i j k 1 2)) _ _ _ _ _ _
      (fun i j k hi hj hk => (hT i j k (hc i j k hi hj hk)).2.2), tri_neg]

/-- Method `Correct` on a table whose negative side mirrors its positive side: the corrected
mirror image is the mirror image of the corrected position. -/
theorem Correct_mirror_of_table (o : AliTPCExBExact)
    (hx : 2 ≤ o.fkNX) (hy : 2 ≤ o.fkNY) (hz : 2 ≤ o.fkNZ)
    (hX : o.fkXMin ≠ o.fkXMax) (hY : o.fkYMin ≠ o.fkYMax) (hZ : 0 < o.fkZMax)
    (hT : ∀ i j k, o.InRange i j k →
      o.fLook (o.flat i j k 0 0) = 2 * (o.nodePos i j k).x - o.fLook (o.flat i j k 1 0)
        ∧ o.fLook (o.flat i j k 0 1)
            = 2 * (o.nodePos i j k).y - o.fLook (o.flat i j k 1 1)
        ∧ o.fLook (o.flat i j k 0 2) = - o.fLook (o.flat i j k 1 2))
    (Sqrt : ℚ → ℚ) (p : Vec3) (hin : ¬ outside Sqrt p) (hpz : p.z ≠ 0) :
    ¬ outside Sqrt (negZ p)
      ∧ o.Correct Sqrt (negZ p) = mirrorAbout p (o.Correct Sqrt p) := by
  have hin' : ¬ outside Sqrt (negZ p) := fun h => hin ((outside_negZ Sqrt p).mp h)
  refine ⟨hin', ?_⟩
  unfold Correct
  rw [if_neg hin, if_neg hin']
  rcases lt_or_gt_of_ne hpz with hneg | hpos
  · have hq : 0 < (negZ p).z := by
      show 0 < -p.z
      linarith
    obtain ⟨h0, h1, h2⟩ := interp_mirror_pos o hx hy hz hX hY hZ hT (negZ p) hq
    have e : negZ (negZ p) = p := by simp [negZ]
    rw [e] at h0 h1 h2
    have e0 : (negZ p).x = p.x := rfl
    have e1 : (negZ p).y = p.y := rfl
    rw [e0] at h0
    rw [e1] at h1
    simp only [mirrorAbout, Vec3.mk.injEq]
    refine ⟨?_, ?_, ?_⟩ <;> linarith
  · obtain ⟨h0, h1, h2⟩ := interp_mirror_pos o hx hy hz hX hY hZ hT p hpos
    simp only [mirrorAbout, Vec3.mk.injEq]
    exact ⟨h0, h1, h2⟩

end AliTPCExBExact

namespace AliTPCExBExact

theorem nodePos_z_pos (o : AliTPCExBExact) (i j k : ℤ) : 0 < (o.nodePos i j k).z := by
  show (0 : ℚ) < max 0.0001 _
  exact lt_of_lt_of_le (by norm_num) (le_max_left _ _)

/-- In a uniform field `CreateLookupTable` succeeds with enough fuel, and the negative
side of the table it builds mirrors the positive side. -/
theorem CreateLookupTable_uniform (o : AliTPCExBExact) (b : Vec3)
    (hb : ∀ x, o.Field x = b) (hv : 0 < o.fDriftVelocity) (hn : 1 ≤ o.fkN)
    (fuel : ℕ) (hf : 250 * 0.01 ≤ fuel * (o.stepSize * o.driftVec.z)) :
    ∃ look, o.CreateLookupTable fuel = some { o with fLook := look }
      ∧ ∀ i j k, o.InRange i j k →
        look (o.flat i j k 0 0) = 2 * (o.nodePos i j k).x - look (o.flat i j k 1 0)
          ∧ look (o.flat i j k 0 1) = 2 * (o.nodePos i j k).y - look (o.flat i j k 1 1)
          ∧ look (o.flat i j k 0 2) = - look (o.flat i j k 1 2) := by
  have hsome : ∀ x0 : Vec3, x0.z ≠ 0 → (o.CalculateDistortion fuel x0).isSome :=
    CalculateDistortion_uniform_isSome o b hb hv hn fuel hf
  have hnode : ∀ i j k, (o.nodePos i j k).z ≠ 0 := fun i j k => (o.nodePos_z_pos i j k).ne'
  have hneg : ∀ i j k, (negZ (o.nodePos i j k)).z ≠ 0 := by
    intro i j k
    show -(o.nodePos i j k).z ≠ 0
    exact neg_ne_zero.mpr (hnode i j k)
  obtain ⟨look, hl, hok⟩ := fillTable_spec o fuel
    (fun i j k _ => ⟨hsome _ (hnode i j k), hsome _ (hneg i j k)⟩)
  refine ⟨look, by simp [CreateLookupTable, hl], ?_⟩
  intro i j k hR
  obtain ⟨d1, hd1⟩ := Option.isSome_iff_exists.mp (hsome _ (hnode i j k))
  have hd0 : o.CalculateDistortion fuel (negZ (o.nodePos i j k))
      = some (mirrorAbout (o.nodePos i j k) d1) := by
    rw [CalculateDistortion_mirror o b hb hv hn fuel _ (hnode i j k), hd1]
    rfl
  have h1 := hok i j k hR 1 (Or.inr rfl)
  have h0 := hok i j k hR 0 (Or.inl rfl)
  rw [nodeDist_pos o fuel i j k d1 hd1] at h1
  rw [nodeDist_neg o fuel i j k _ hd0] at h0
  obtain ⟨a0, a1, a2⟩ := h0
  obtain ⟨b0, b1, b2⟩ := h1
  rw [a0, a1, a2, b0, b1, b2]
  exact ⟨rfl, rfl, rfl⟩

/-- Fuel that covers the half drift length at the `z` speed of a uniform field. -/
theorem fuel_bound (o : AliTPCExBExact) (hv : 0 < o.fDriftVelocity) (hn : 1 ≤ o.fkN)
    (fuel : ℕ) (hfuel : ⌈250 * 0.01 / (o.stepSize * o.driftVec.z)⌉₊ ≤ fuel) :
    250 * 0.01 ≤ fuel * (o.stepSize * o.driftVec.z) := by
  have hd : 0 < o.stepSize * o.driftVec.z :=
    mul_pos (o.stepSize_pos hv hn) (o.driftVec_z_pos hv)
  have h1 : 250 * 0.01 / (o.stepSize * o.driftVec.z)
      ≤ (⌈250 * 0.01 / (o.stepSize * o.driftVec.z)⌉₊ : ℚ) := Nat.le_ceil _
  have h2 : (⌈250 * 0.01 / (o.stepSize * o.driftVec.z)⌉₊ : ℚ) ≤ (fuel : ℚ) := by
    exact_mod_cast hfuel
  have h3 := le_trans h1 h2
  rw [div_le_iff₀ hd] at h3
  exact h3

theorem distSq_mirror (c r : Vec3) :
    distSq (mirrorAbout c r) (negZ c) = distSq r c := by
  simp only [distSq, mirrorAbout, negZ]
  ring

end AliTPCExBExact

namespace AliTPCExBExact

/-- C10. Antisymmetry across the cathode. For the corrector built by the analytic-field
constructor in a spatially uniform field `b`, with drift velocity `v > 0`, `n ≥ 1`
integration steps and at least two nodes per axis, the construction succeeds for all
large enough fuel, and then
* for every in-volume point `p` with `z ≠ 0`, the mirror point `negZ p` is in-volume and
  `Correct (negZ p)` is the mirror image of `Correct p` (the `x` and `y` corrections are
  negated, the corrected `z` is negated), so the two correction vectors have the same
  length;
* the same holds for `CalculateDistortion` at every start point with `0 < |z0| < 250`,
  whose integration ends. -/
theorem uniform_field_antisymmetry (b : Vec3) (v : ℚ) (hv : 0 < v) (nx ny nz n : ℤ)
    (hn : 1 ≤ n) (hnx : 2 ≤ nx) (hny : 2 ≤ ny) (hnz : 2 ≤ nz) (zmin : ℚ) (look : ℤ → ℚ) :
    ∃ F0 : ℕ, ∀ fuel, F0 ≤ fuel →
      ∃ o, construct (fun _ => b) v nx ny nz n zmin look fuel = some o
        ∧ (∀ (Sqrt : ℚ → ℚ) (p : Vec3), ¬ outside Sqrt p → p.z ≠ 0 →
            ¬ outside Sqrt (negZ p)
              ∧ o.Correct Sqrt (negZ p) = mirrorAbout p (o.Correct Sqrt p)
              ∧ distSq (o.Correct Sqrt (negZ p)) (negZ p) = distSq (o.Correct Sqrt p) p)
        ∧ (∀ x0 : Vec3, x0.z ≠ 0 → |x0.z| < 250 →
            ∃ r, o.CalculateDistortion fuel x0 = some r
              ∧ o.CalculateDistortion fuel (negZ x0) = some (mirrorAbout x0 r)
              ∧ distSq (mirrorAbout x0 r) (negZ x0) = distSq r x0) := by
  have hvi : 0 < (init (fun _ => b) v nx ny nz n zmin look).fDriftVelocity := hv
  have hni : 1 ≤ (init (fun _ => b) v nx ny nz n zmin look).fkN := hn
  have hbi : ∀ x, (init (fun _ => b) v nx ny nz n zmin look).Field x = b := fun _ => rfl
  refine ⟨⌈250 * 0.01 / ((init (fun _ => b) v nx ny nz n zmin look).stepSize
    * (init (fun _ => b) v nx ny nz n zmin look).driftVec.z)⌉₊, ?_⟩
  intro fuel hfuel
  have hf := fuel_bound _ hvi hni fuel hfuel
  obtain ⟨lk, hl, hT⟩ := CreateLookupTable_uniform _ b hbi hvi hni fuel hf
  refine ⟨_, hl, ?_, ?_⟩
  · intro Sqrt p hin hpz
    have h := Correct_mirror_of_table
      { init (fun _ => b) v nx ny nz n zmin look with fLook := lk }
      hnx hny hnz (by norm_num [init]) (by norm_num [init]) (by norm_num [init])
      hT Sqrt p hin hpz
    refine ⟨h.1, h.2, ?_⟩
    rw [h.2]
    exact distSq_mirror p _
  · intro x0 hz _
    have hb' : ∀ x, ({ init (fun _ => b) v nx ny nz n zmin look with fLook := lk }
        : AliTPCExBExact).Field x = b := fun _ => rfl
    have hf' : 250 * 0.01 ≤ (fuel : ℚ)
        * (({ init (fun _ => b) v nx ny nz n zmin look with fLook := lk }
            : AliTPCExBExact).stepSize
          * ({ init (fun _ => b) v nx ny nz n zmin look with fLook := lk }
            : AliTPCExBExact).driftVec.z) := hf
    obtain ⟨r, hr⟩ := Option.isSome_iff_exists.mp
      (CalculateDistortion_uniform_isSome _ b hb' hv hn fuel hf' x0 hz)
    refine ⟨r, hr, ?_, distSq_mirror x0 r⟩
    rw [CalculateDistortion_mirror _ b hb' hv hn fuel x0 hz, hr]
    rfl

end AliTPCExBExact

namespace AliTPCExBExact

/-- Witness for `uniform_field_antisymmetry`: a transverse field of 1 T, drift velocity
`40000`, one nominal step and a `2×2×2` grid. -/
theorem uniform_field_antisymmetry_witness :
    ∃ F0 : ℕ, ∀ fuel, F0 ≤ fuel →
      ∃ o, construct (fun _ => ⟨10, 0, 0⟩) 40000 2 2 2 1 0 zeroLook fuel = some o
        ∧ (∀ (Sqrt : ℚ → ℚ) (p : Vec3), ¬ outside Sqrt p → p.z ≠ 0 →
            ¬ outside Sqrt (negZ p)
              ∧ o.Correct Sqrt (negZ p) = mirrorAbout p (o.Correct Sqrt p)
              ∧ distSq (o.Correct Sqrt (negZ p)) (negZ p) = distSq (o.Correct Sqrt p) p)
        ∧ (∀ x0 : Vec3, x0.z ≠ 0 → |x0.z| < 250 →
            ∃ r, o.CalculateDistortion fuel x0 = some r
              ∧ o.CalculateDistortion fuel (negZ x0) = some (mirrorAbout x0 r)
              ∧ distSq (mirrorAbout x0 r) (negZ x0) = distSq r x0) :=
  uniform_field_antisymmetry ⟨10, 0, 0⟩ 40000 (by norm_num) 2 2 2 1 (by norm_num)
    (by norm_num) (by norm_num) (by norm_num) 0 zeroLook

/-! ### No magnetic field -/

/-- Without a magnetic field, an integration from a start point off the cathode ends
within `fkN` steps and returns the start point. -/
theorem CalculateDistortion_zero_field (o : AliTPCExBExact)
    (hb : ∀ x, o.Field x = ⟨0, 0, 0⟩) (hv : 0 < o.fDriftVelocity) (hn : 1 ≤ o.fkN)
    (fuel : ℕ) (hfuel : o.fkN ≤ fuel) (x0 : Vec3) (hz : x0.z ≠ 0) :
    o.CalculateDistortion fuel x0 = some x0 := by
  have hV := o.driftVec_zero_field hb
  have hN : (0 : ℚ) < (o.fkN : ℚ) := by exact_mod_cast (by omega : 0 < o.fkN)
  have hF : (o.fkN : ℚ) ≤ (fuel : ℚ) := by exact_mod_cast hfuel
  have hf : 250 * 0.01 ≤ fuel * (o.stepSize * o.driftVec.z) := by
    rw [hV]
    show 250 * 0.01 ≤ (fuel : ℚ) * (o.stepSize * o.fDriftVelocity)
    have e : o.stepSize * o.fDriftVelocity = 250 * 0.01 / (o.fkN : ℚ) := by
      unfold stepSize
      field_simp
      ring
    rw [e, ← mul_div_assoc, le_div_iff₀ hN]
    nlinarith
  have pos : ∀ y : Vec3, 0 < y.z → o.CalculateDistortion fuel y = some y := by
    intro y hy
    by_cases h250 : y.z < 250
    · rw [CalculateDistortion_uniform_pos o _ hb hv hn fuel y hy h250 hf, hV]
      have hv' := hv.ne'
      simp only [Option.some.injEq]
      cases y with
      | mk a b c =>
        simp only [Vec3.mk.injEq]
        refine ⟨by ring, by ring, ?_⟩
        field_simp
    · have : 250 ≤ |y.z| := by rw [abs_of_pos hy]; linarith
      exact (CalculateDistortion_far o fuel y this).2.2
  rcases lt_or_gt_of_ne hz with hneg | hpos
  · have e : x0 = negZ (negZ x0) := by simp [negZ]
    have hz' : (negZ x0).z ≠ 0 := by
      show -x0.z ≠ 0
      exact neg_ne_zero.mpr hz
    have hq : 0 < (negZ x0).z := by
      show 0 < -x0.z
      linarith
    conv_lhs => rw [e]
    rw [CalculateDistortion_mirror o _ hb hv hn fuel (negZ x0) hz', pos _ hq]
    simp only [Option.map_some', Option.some.injEq]
    cases x0 with
    | mk a b c =>
      simp only [mirrorAbout, negZ, Vec3.mk.injEq]
      refine ⟨by ring, by ring, by ring⟩
  · exact pos x0 hpos

/-- Without a magnetic field `CreateLookupTable` succeeds with `fkN` units of fuel and
stores at every node the node's own start point, on both sides. -/
theorem CreateLookupTable_zero_field (o : AliTPCExBExact)
    (hb : ∀ x, o.Field x = ⟨0, 0, 0⟩) (hv : 0 < o.fDriftVelocity) (hn : 1 ≤ o.fkN)
    (fuel : ℕ) (hfuel : o.fkN ≤ fuel) :
    ∃ look, o.CreateLookupTable fuel = some { o with fLook := look }
      ∧ ∀ i j k, o.InRange i j k →
        (∀ sd : ℤ, sd = 0 ∨ sd = 1 →
          look (o.flat i j k sd 0) = (o.nodePos i j k).x
            ∧ look (o.flat i j k sd 1) = (o.nodePos i j k).y)
        ∧ look (o.flat i j k 1 2) = (o.nodePos i j k).z
        ∧ look (o.flat i j k 0 2) = -(o.nodePos i j k).z := by
  have hnode : ∀ i j k, (o.nodePos i j k).z ≠ 0 := fun i j k => (o.nodePos_z_pos i j k).ne'
  have hneg : ∀ i j k, (negZ (o.nodePos i j k)).z ≠ 0 := by
    intro i j k
    show -(o.nodePos i j k).z ≠ 0
    exact neg_ne_zero.mpr (hnode i j k)
  have h1 : ∀ i j k, o.CalculateDistortion fuel (o.nodePos i j k) = some (o.nodePos i j k) :=
    fun i j k => CalculateDistortion_zero_field o hb hv hn fuel hfuel _ (hnode i j k)
  have h0 : ∀ i j k, o.CalculateDistortion fuel (negZ (o.nodePos i j k))
      = some (negZ (o.nodePos i j k)) :=
    fun i j k => CalculateDistortion_zero_field o hb hv hn fuel hfuel _ (hneg i j k)
  obtain ⟨look, hl, hok⟩ := fillTable_spec o fuel
    (fun i j k _ => ⟨by rw [h1]; rfl, by rw [h0]; rfl⟩)
  refine ⟨look, by simp [CreateLookupTable, hl], ?_⟩
  intro i j k hR
  have a1 := hok i j k hR 1 (Or.inr rfl)
  have a0 := hok i j k hR 0 (Or.inl rfl)
  rw [nodeDist_pos o fuel i j k _ (h1 i j k)] at a1
  rw [nodeDist_neg o fuel i j k _ (h0 i j k)] at a0
  refine ⟨?_, a1.2.2, a0.2.2⟩
  intro sd hsd
  rcases hsd with rfl | rfl
  · exact ⟨a0.1, a0.2.1⟩
  · exact ⟨a1.1, a1.2.1⟩

end AliTPCExBExact

namespace AliTPCExBExact

/-- Interpolation in the table of a field-free corrector: `x` and `y` are reproduced;
`z` is reproduced when the lower `z` index is at least one, and is offset by the
`0.0001` of the first node layer when it is zero. -/
theorem interp_identity_table (o : AliTPCExBExact)
    (hx : 2 ≤ o.fkNX) (hy : 2 ≤ o.fkNY) (hz : 2 ≤ o.fkNZ)
    (hX : o.fkXMin ≠ o.fkXMax) (hY : o.fkYMin ≠ o.fkYMax) (hZ : 0 < o.fkZMax)
    (hd : 0.0001 ≤ 1 * o.fkZMax / ((o.fkNZ - 1 : ℤ) : ℚ))
    (hT : ∀ i j k, o.InRange i j k →
      (∀ sd : ℤ, sd = 0 ∨ sd = 1 →
        o.fLook (o.flat i j k sd 0) = (o.nodePos i j k).x
          ∧ o.fLook (o.flat i j k sd 1) = (o.nodePos i j k).y)
      ∧ o.fLook (o.flat i j k 1 2) = (o.nodePos i j k).z
      ∧ o.fLook (o.flat i j k 0 2) = -(o.nodePos i j k).z)
    (p : Vec3) :
    o.interp p 0 = p.x ∧ o.interp p 1 = p.y
      ∧ (1 ≤ o.zi1 p → o.interp p 2 = p.z)
      ∧ (o.zi1 p = 0 →
          o.interp p 2 = p.z + (if p.z > 0 then 1 else -1) * 0.0001 * (1 - o.gz p)) := by
  have hc := corners_inRange o p hx hy hz
  have hsd := o.side_cases p
  have hgz := o.gz_eq_abs p hZ hz
  have hN : ((o.fkNZ - 1 : ℤ) : ℚ) = (o.fkNZ : ℚ) - 1 := by push_cast; ring
  have hN0 : (0 : ℚ) < (o.fkNZ : ℚ) - 1 := by
    have : (2 : ℚ) ≤ (o.fkNZ : ℚ) := by exact_mod_cast hz
    linarith
  -- the `z` entries on the side of `p`, with their sign
  have hside : ∀ i j k, o.InRange i j k →
      o.fLook (o.flat i j k (o.side p) 2)
        = (if p.z > 0 then 1 else -1) * (o.nodePos i j k).z := by
    intro i j k hR
    rw [o.side_eq_sign p hZ hz]
    by_cases hp : p.z > 0
    · rw [if_pos hp, if_pos hp, (hT i j k hR).2.1, one_mul]
    · rw [if_neg hp, if_neg hp, (hT i j k hR).2.2]
      ring
  -- grid spacing times the fractional coordinate
  have hdz : 1 * o.fkZMax / ((o.fkNZ - 1 : ℤ) : ℚ) * o.gz p = |p.z| := by
    rw [hgz, hN]
    have h1 := hZ.ne'
    have h2 := hN0.ne'
    field_simp
    ring
  have hsign : (if p.z > 0 then (1 : ℚ) else -1) * |p.z| = p.z := by
    by_cases hp : p.z > 0
    · rw [if_pos hp, abs_of_pos hp, one_mul]
    · rw [if_neg hp, abs_of_nonpos (not_lt.mp hp)]
      ring
  simp only [interp_eq_tri]
  refine ⟨?_, ?_, ?_, ?_⟩
  · rw [tri_congr _ (fun i _ _ => o.fkXMin
        + (o.fkXMax - o.fkXMin) / ((o.fkNX - 1 : ℤ) : ℚ) * (i : ℚ)) _ _ _ _ _ _
      (fun i j k hi hj hk => ((hT i j k (hc i j k hi hj hk)).1 _ hsd).1),
      tri_affine_x, nodeX_gx o p hX hx]
  · rw [tri_congr _ (fun _ j _ => o.fkYMin
        + (o.fkYMax - o.fkYMin) / ((o.fkNY - 1 : ℤ) : ℚ) * (j : ℚ)) _ _ _ _ _ _
      (fun i j k hi hj hk => ((hT i j k (hc i j k hi hj hk)).1 _ hsd).2),
      tri_affine_y, nodeY_gy o p hY hy]
  · intro h1
    rw [tri_congr _ (fun _ _ k => (if p.z > 0 then (1 : ℚ) else -1) * 0
        + (if p.z > 0 then (1 : ℚ) else -1) * (1 * o.fkZMax / ((o.fkNZ - 1 : ℤ) : ℚ))
          * (k : ℚ)) _ _ _ _ _ _ ?_, tri_affine_z]
    · rw [mul_zero, zero_add, mul_assoc, hdz, hsign]
    · intro i j k hi hj hk
      rw [hside i j k (hc i j k hi hj hk)]
      have hk1 : (1 : ℚ) ≤ (k : ℚ) := by
        have : (1 : ℤ) ≤ k := by rcases hk with rfl | rfl <;> omega
        exact_mod_cast this
      have hmax : (o.nodePos i j k).z = 1 * o.fkZMax / ((o.fkNZ - 1 : ℤ) : ℚ) * (k : ℚ) := by
        show max (0.0001 : ℚ) _ = _
        apply max_eq_right
        have hpos : (0 : ℚ) ≤ 1 * o.fkZMax / ((o.fkNZ - 1 : ℤ) : ℚ) := by linarith
        nlinarith
      rw [hmax]
      ring
  · intro h0
    rw [tri_congr _ (fun _ _ k => (if p.z > 0 then (1 : ℚ) else -1) * 0.0001
        + (if p.z > 0 then (1 : ℚ) else -1)
          * (1 * o.fkZMax / ((o.fkNZ - 1 : ℤ) : ℚ) - 0.0001) * (k : ℚ)) _ _ _ _ _ _ ?_,
      tri_affine_z]
    · have e : (if p.z > 0 then (1 : ℚ) else -1) * 0.0001
          + (if p.z > 0 then (1 : ℚ) else -1)
            * (1 * o.fkZMax / ((o.fkNZ - 1 : ℤ) : ℚ) - 0.0001) * o.gz p
          = (if p.z > 0 then (1 : ℚ) else -1)
              * (1 * o.fkZMax / ((o.fkNZ - 1 : ℤ) : ℚ) * o.gz p)
            + (if p.z > 0 then (1 : ℚ) else -1) * 0.0001 * (1 - o.gz p) := by ring
      rw [e, hdz, hsign]
    · intro i j k hi hj hk
      rw [hside i j k (hc i j k hi hj hk)]
      rcases hk with rfl | rfl
      · have hmax : (o.nodePos i j (o.zi1 p)).z = 0.0001 := by
          show max (0.0001 : ℚ) _ = _
          apply max_eq_left
          rw [h0]
          norm_num
        rw [hmax, h0]
        norm_num
      · have hmax : (o.nodePos i j (o.zi1 p + 1)).z
            = 1 * o.fkZMax / ((o.fkNZ - 1 : ℤ) : ℚ) := by
          show max (0.0001 : ℚ) _ = _
          rw [h0]
          norm_num
          have := hd
          norm_num at this
          exact this
        rw [hmax, h0]
        generalize (if p.z > 0 then (1 : ℚ) else -1) = sg
        push_cast
        ring

end AliTPCExBExact

namespace AliTPCExBExact

theorem zi1_pos_of_gz (o : AliTPCExBExact) (p : Vec3) (hN : 3 ≤ o.fkNZ)
    (hg : 1 ≤ o.gz p) : 1 ≤ o.zi1 p := by
  have h0 : (0 : ℚ) ≤ o.gz p := by linarith
  have hfl : (1 : ℤ) ≤ ⌊o.gz p⌋ := Int.le_floor.mpr (by exact_mod_cast hg)
  unfold zi1 toInt
  rw [if_pos h0]
  exact le_max_of_le_left (le_min hfl (by omega))

theorem zi1_zero_of_gz (o : AliTPCExBExact) (p : Vec3) (hN : 2 ≤ o.fkNZ)
    (h0 : 0 ≤ o.gz p) (h1 : o.gz p < 1) : o.zi1 p = 0 := by
  have hfl : ⌊o.gz p⌋ = 0 := Int.floor_eq_zero_iff.mpr ⟨h0, h1⟩
  unfold zi1 toInt
  rw [if_pos h0, hfl, min_eq_left (by omega), max_self]

/-- The field-free corrector of the analytic-field constructor: the construction
succeeds with `n` units of fuel; `Correct` reproduces `x` and `y` of every in-volume
point, reproduces `z` beyond the first cell in `z`, and offsets `z` inside the first
cell by the `0.0001` of the first node layer. -/
theorem construct_zero_field_spec (bField : Vec3 → Vec3)
    (hB : ∀ x, bField x = ⟨0, 0, 0⟩) (v : ℚ) (hv : 0 < v) (nx ny nz n : ℤ)
    (hn : 1 ≤ n) (hnx : 2 ≤ nx) (hny : 2 ≤ ny) (hnz : 2 ≤ nz) (hsp : nz ≤ 2500001)
    (zmin : ℚ) (look : ℤ → ℚ) (fuel : ℕ) (hfuel : n ≤ fuel) :
    ∃ o, construct bField v nx ny nz n zmin look fuel = some o
      ∧ ∀ (Sqrt : ℚ → ℚ) (p : Vec3), ¬ outside Sqrt p →
          (o.Correct Sqrt p).x = p.x ∧ (o.Correct Sqrt p).y = p.y
            ∧ (3 ≤ nz → 250 ≤ |p.z| * ((nz : ℚ) - 1) → (o.Correct Sqrt p).z = p.z)
            ∧ (|p.z| * ((nz : ℚ) - 1) < 250 →
                (o.Correct Sqrt p).z = p.z + (if p.z > 0 then 1 else -1) * 0.0001
                  * (1 - |p.z| * ((nz : ℚ) - 1) / 250)) := by
  obtain ⟨lk, hl, hT⟩ := CreateLookupTable_zero_field
    (init bField v nx ny nz n zmin look) hB hv hn fuel hfuel
  refine ⟨_, hl, ?_⟩
  intro Sqrt p hin
  have hN0 : (1 : ℚ) ≤ (nz : ℚ) - 1 := by
    have : (2 : ℚ) ≤ (nz : ℚ) := by exact_mod_cast hnz
    linarith
  have hN1 : (nz : ℚ) - 1 ≤ 2500000 := by
    have : (nz : ℚ) ≤ 2500001 := by exact_mod_cast hsp
    linarith
  have hd : (0.0001 : ℚ) ≤ 1 * 250 / ((nz - 1 : ℤ) : ℚ) := by
    push_cast
    rw [le_div_iff₀ (by linarith)]
    linarith
  obtain ⟨i0, i1, i2, i3⟩ := interp_identity_table
    { init bField v nx ny nz n zmin look with fLook := lk }
    hnx hny hnz (by norm_num [init]) (by norm_num [init]) (by norm_num [init]) hd hT p
  have hgz : ({ init bField v nx ny nz n zmin look with fLook := lk } : AliTPCExBExact).gz p
      = |p.z| * ((nz : ℚ) - 1) / 250 := by
    rw [gz_eq_abs _ p (by norm_num [init]) hnz]
    show |p.z| / 250 * ((nz : ℚ) - 1) = _
    ring
  unfold Correct
  rw [if_neg hin]
  refine ⟨i0, i1, ?_, ?_⟩
  · intro h3 hz
    apply i2
    apply zi1_pos_of_gz _ p h3
    rw [hgz, le_div_iff₀ (by norm_num)]
    linarith
  · intro hz
    have hz0 : (0 : ℚ) ≤ |p.z| * ((nz : ℚ) - 1) / 250 :=
      div_nonneg (mul_nonneg (abs_nonneg _) (by linarith)) (by norm_num)
    have hz1 : |p.z| * ((nz : ℚ) - 1) / 250 < 1 := by
      rw [div_lt_iff₀ (by norm_num)]
      linarith
    have := i3 (zi1_zero_of_gz _ p hnz (by rw [hgz]; exact hz0) (by rw [hgz]; exact hz1))
    rw [hgz] at this
    exact this

/-- C2 (as amended). Zero-field identity of the public corrector: for a corrector
built by the analytic-field constructor with `B = 0` everywhere, drift velocity
`v > 0`, `n ≥ 1` steps and `2 ≤ nx, ny`, `2 ≤ nz ≤ 2500001` nodes, the construction
succeeds with `n` units of fuel and, for every in-volume point `p`, `Correct p` equals
`p` in `x` and `y`; it equals `p` in `z` when `|z| ≥ 250/(nz-1)` and `nz ≥ 3`; and for
`|z| < 250/(nz-1)` (the first cell, whose lower nodes are built at `|z| = 0.0001`) the
corrected `z` is `z ± 0.0001·(1 - |z|(nz-1)/250)`, the sign being `+` for `z > 0`. -/
theorem zero_field_Correct (bField : Vec3 → Vec3)
    (hB : ∀ x, bField x = ⟨0, 0, 0⟩) (v : ℚ) (hv : 0 < v) (nx ny nz n : ℤ)
    (hn : 1 ≤ n) (hnx : 2 ≤ nx) (hny : 2 ≤ ny) (hnz : 2 ≤ nz) (hsp : nz ≤ 2500001)
    (zmin : ℚ) (look : ℤ → ℚ) (fuel : ℕ) (hfuel : n ≤ fuel) :
    ∃ o, construct bField v nx ny nz n zmin look fuel = some o
      ∧ ∀ (Sqrt : ℚ → ℚ) (p : Vec3), ¬ outside Sqrt p →
          (o.Correct Sqrt p).x = p.x ∧ (o.Correct Sqrt p).y = p.y
            ∧ (3 ≤ nz → 250 ≤ |p.z| * ((nz : ℚ) - 1) → (o.Correct Sqrt p).z = p.z)
            ∧ (|p.z| * ((nz : ℚ) - 1) < 250 →
                (o.Correct Sqrt p).z = p.z + (if p.z > 0 then 1 else -1) * 0.0001
                  * (1 - |p.z| * ((nz : ℚ) - 1) / 250)) :=
  construct_zero_field_spec bField hB v hv nx ny nz n hn hnx hny hnz hsp zmin look fuel hfuel

/-- Witness for `zero_field_Correct`: no field, drift velocity `28300`, a `3×4×5` grid
and `100` steps. -/
theorem zero_field_Correct_witness :
    ∃ o, construct (fun _ => ⟨0, 0, 0⟩) 28300 3 4 5 100 0 zeroLook 100 = some o
      ∧ ∀ (Sqrt : ℚ → ℚ) (p : Vec3), ¬ outside Sqrt p →
          (o.Correct Sqrt p).x = p.x ∧ (o.Correct Sqrt p).y = p.y
            ∧ ((3 : ℤ) ≤ 5 → 250 ≤ |p.z| * (((5 : ℤ) : ℚ) - 1) → (o.Correct Sqrt p).z = p.z)
            ∧ (|p.z| * (((5 : ℤ) : ℚ) - 1) < 250 →
                (o.Correct Sqrt p).z = p.z + (if p.z > 0 then 1 else -1) * 0.0001
                  * (1 - |p.z| * (((5 : ℤ) : ℚ) - 1) / 250)) :=
  zero_field_Correct (fun _ => ⟨0, 0, 0⟩) (fun _ => rfl) 28300 (by norm_num) 3 4 5 100
    (by norm_num) (by norm_num) (by norm_num) (by norm_num) (by norm_num) 0 zeroLook 100
    (by norm_num)

/-- C2, counterexample: without a field, on a `2×2×2` grid, the in-volume point
`(100, 0, 50)` is corrected to `z = 50.00008`, not to itself. -/
theorem zero_field_Correct_not_identity :
    ∃ o, construct (fun _ => ⟨0, 0, 0⟩) 40000 2 2 2 1 0 zeroLook 1 = some o
      ∧ ¬ outside sqrtFloor ⟨100, 0, 50⟩
      ∧ (o.Correct sqrtFloor ⟨100, 0, 50⟩).z = 50.00008
      ∧ o.Correct sqrtFloor ⟨100, 0, 50⟩ ≠ ⟨100, 0, 50⟩ := by
  obtain ⟨o, ho, h⟩ := construct_zero_field_spec (fun _ => ⟨0, 0, 0⟩) (fun _ => rfl) 40000
    (by norm_num) 2 2 2 1 (by norm_num) (by norm_num) (by norm_num) (by norm_num)
    (by norm_num) 0 zeroLook 1 (by norm_num)
  have hin : ¬ outside sqrtFloor ⟨100, 0, 50⟩ := sample_inside 50 (by norm_num [abs_le])
  have hz := (h sqrtFloor ⟨100, 0, 50⟩ hin).2.2.2 (by norm_num [abs_of_pos])
  have hz' : (o.Correct sqrtFloor ⟨100, 0, 50⟩).z = 50.00008 := by
    rw [hz]
    norm_num [abs_of_pos]
  refine ⟨o, ho, hin, hz', ?_⟩
  intro he
  rw [he] at hz'
  norm_num at hz'

end AliTPCExBExact

namespace AliTPCExBExact

/-! ### The field-map constructor -/

/-- Snapping a lower bound outward: `a - ⌈(a + 250)/d⌉·d` lies in `(-250 - d, -250]`. -/
theorem snap_lower (a d : ℚ) (hd : 0 < d) :
    -250 - d < a - ((⌈(a + 250.0) / d⌉ : ℤ) : ℚ) * d
      ∧ a - ((⌈(a + 250.0) / d⌉ : ℤ) : ℚ) * d ≤ -250 := by
  have h1 : (a + 250.0) / d ≤ ((⌈(a + 250.0) / d⌉ : ℤ) : ℚ) := Int.le_ceil _
  have h2 : ((⌈(a + 250.0) / d⌉ : ℤ) : ℚ) < (a + 250.0) / d + 1 := Int.ceil_lt_add_one _
  rw [div_le_iff₀ hd] at h1
  have h3 : ((⌈(a + 250.0) / d⌉ : ℤ) : ℚ) * d < ((a + 250.0) / d + 1) * d :=
    mul_lt_mul_of_pos_right h2 hd
  have h4 : ((a + 250.0) / d + 1) * d = a + 250.0 + d := by
    field_simp
  rw [h4] at h3
  constructor
  · norm_num at h3 ⊢
    linarith
  · norm_num at h1 ⊢
    linarith

/-- Snapping an upper bound outward: `a - ⌊(a - 250)/d⌋·d` lies in `[250, 250 + d)`. -/
theorem snap_upper (a d : ℚ) (hd : 0 < d) :
    250 ≤ a - ((⌊(a - 250.0) / d⌋ : ℤ) : ℚ) * d
      ∧ a - ((⌊(a - 250.0) / d⌋ : ℤ) : ℚ) * d < 250 + d := by
  have h1 : ((⌊(a - 250.0) / d⌋ : ℤ) : ℚ) ≤ (a - 250.0) / d := Int.floor_le _
  have h2 : (a - 250.0) / d < ((⌊(a - 250.0) / d⌋ : ℤ) : ℚ) + 1 := Int.lt_floor_add_one _
  rw [le_div_iff₀ hd] at h1
  rw [div_lt_iff₀ hd] at h2
  constructor
  · norm_num at h1 ⊢
    linarith
  · norm_num at h2 ⊢
    linarith

theorem rawZMax_ge (bFieldMap : AliFieldMap) (hd : 0 < bFieldMap.DelZ) :
    250 ≤ rawZMax bFieldMap ∧ rawZMax bFieldMap < 250 + bFieldMap.DelZ :=
  snap_upper bFieldMap.Zmax bFieldMap.DelZ hd

end AliTPCExBExact

namespace AliTPCExBExact

/-- C11. Outward snapping of the grid bounds in field-map mode: for a field map with
positive mesh spacings, the field-map constructor sets `fkXMin = Xmin + k·DelX` for an
integer `k`, with `-250 - DelX < fkXMin ≤ -250`, and `fkXMax = Xmax - m·DelX` for an
integer `m`, with `250 ≤ fkXMax < 250 + DelX`; likewise for `fkYMin`, `fkYMax` and
`fkZMax`. -/
theorem initMap_bounds_snapped (bFieldMap : AliFieldMap) (driftVelocity : ℚ) (n : ℤ)
    (zmin : ℚ) (look : ℤ → ℚ)
    (hx : 0 < bFieldMap.DelX) (hy : 0 < bFieldMap.DelY) (hz : 0 < bFieldMap.DelZ) :
    ((∃ k : ℤ, (initMap bFieldMap driftVelocity n zmin look).fkXMin
          = bFieldMap.Xmin + k * bFieldMap.DelX)
        ∧ -250 - bFieldMap.DelX < (initMap bFieldMap driftVelocity n zmin look).fkXMin
        ∧ (initMap bFieldMap driftVelocity n zmin look).fkXMin ≤ -250)
      ∧ ((∃ m : ℤ, (initMap bFieldMap driftVelocity n zmin look).fkXMax
          = bFieldMap.Xmax - m * bFieldMap.DelX)
        ∧ 250 ≤ (initMap bFieldMap driftVelocity n zmin look).fkXMax
        ∧ (initMap bFieldMap driftVelocity n zmin look).fkXMax < 250 + bFieldMap.DelX)
      ∧ ((∃ k : ℤ, (initMap bFieldMap driftVelocity n zmin look).fkYMin
          = bFieldMap.Ymin + k * bFieldMap.DelY)
        ∧ -250 - bFieldMap.DelY < (initMap bFieldMap driftVelocity n zmin look).fkYMin
        ∧ (initMap bFieldMap driftVelocity n zmin look).fkYMin ≤ -250)
      ∧ ((∃ m : ℤ, (initMap bFieldMap driftVelocity n zmin look).fkYMax
          = bFieldMap.Ymax - m * bFieldMap.DelY)
        ∧ 250 ≤ (initMap bFieldMap driftVelocity n zmin look).fkYMax
        ∧ (initMap bFieldMap driftVelocity n zmin look).fkYMax < 250 + bFieldMap.DelY)
      ∧ ((∃ m : ℤ, (initMap bFieldMap driftVelocity n zmin look).fkZMax
          = bFieldMap.Zmax - m * bFieldMap.DelZ)
        ∧ 250 ≤ (initMap bFieldMap driftVelocity n zmin look).fkZMax
        ∧ (initMap bFieldMap driftVelocity n zmin look).fkZMax < 250 + bFieldMap.DelZ) := by
  have ax := snap_lower bFieldMap.Xmin bFieldMap.DelX hx
  have bx := snap_upper bFieldMap.Xmax bFieldMap.DelX hx
  have ay := snap_lower bFieldMap.Ymin bFieldMap.DelY hy
  have bY := snap_upper bFieldMap.Ymax bFieldMap.DelY hy
  have bz := rawZMax_ge bFieldMap hz
  have ez : (initMap bFieldMap driftVelocity n zmin look).fkZMax = rawZMax bFieldMap := by
    show max 0 (rawZMax bFieldMap) = rawZMax bFieldMap
    exact max_eq_right (by linarith)
  refine ⟨⟨⟨-⌈(bFieldMap.Xmin + 250.0) / bFieldMap.DelX⌉, ?_⟩, ax.1, ax.2⟩,
    ⟨⟨⌊(bFieldMap.Xmax - 250.0) / bFieldMap.DelX⌋, rfl⟩, bx.1, bx.2⟩,
    ⟨⟨-⌈(bFieldMap.Ymin + 250.0) / bFieldMap.DelY⌉, ?_⟩, ay.1, ay.2⟩,
    ⟨⟨⌊(bFieldMap.Ymax - 250.0) / bFieldMap.DelY⌋, rfl⟩, bY.1, bY.2⟩,
    ⟨⟨⌊(bFieldMap.Zmax - 250.0) / bFieldMap.DelZ⌋, ?_⟩, ?_, ?_⟩⟩
  · show bFieldMap.Xmin - _ = _
    push_cast
    ring
  · show bFieldMap.Ymin - _ = _
    push_cast
    ring
  · rw [ez]
    rfl
  · rw [ez]
    exact bz.1
  · rw [ez]
    exact bz.2

/-- Witness for `initMap_bounds_snapped`: the mesh `[-300, 300]³` with spacing 20. -/
theorem initMap_bounds_snapped_witness :
    ((∃ k : ℤ, (initMap sampleMap 28300 100 0 zeroLook).fkXMin
          = sampleMap.Xmin + k * sampleMap.DelX)
        ∧ -250 - sampleMap.DelX < (initMap sampleMap 28300 100 0 zeroLook).fkXMin
        ∧ (initMap sampleMap 28300 100 0 zeroLook).fkXMin ≤ -250)
      ∧ ((∃ m : ℤ, (initMap sampleMap 28300 100 0 zeroLook).fkXMax
          = sampleMap.Xmax - m * sampleMap.DelX)
        ∧ 250 ≤ (initMap sampleMap 28300 100 0 zeroLook).fkXMax
        ∧ (initMap sampleMap 28300 100 0 zeroLook).fkXMax < 250 + sampleMap.DelX)
      ∧ ((∃ k : ℤ, (initMap sampleMap 28300 100 0 zeroLook).fkYMin
          = sampleMap.Ymin + k * sampleMap.DelY)
        ∧ -250 - sampleMap.DelY < (initMap sampleMap 28300 100 0 zeroLook).fkYMin
        ∧ (initMap sampleMap 28300 100 0 zeroLook).fkYMin ≤ -250)
      ∧ ((∃ m : ℤ, (initMap sampleMap 28300 100 0 zeroLook).fkYMax
          = sampleMap.Ymax - m * sampleMap.DelY)
        ∧ 250 ≤ (initMap sampleMap 28300 100 0 zeroLook).fkYMax
        ∧ (initMap sampleMap 28300 100 0 zeroLook).fkYMax < 250 + sampleMap.DelY)
      ∧ ((∃ m : ℤ, (initMap sampleMap 28300 100 0 zeroLook).fkZMax
          = sampleMap.Zmax - m * sampleMap.DelZ)
        ∧ 250 ≤ (initMap sampleMap 28300 100 0 zeroLook).fkZMax
        ∧ (initMap sampleMap 28300 100 0 zeroLook).fkZMax < 250 + sampleMap.DelZ) :=
  initMap_bounds_snapped sampleMap 28300 100 0 zeroLook
    (by norm_num [sampleMap]) (by norm_num [sampleMap]) (by norm_num [sampleMap])

/-- C19. The clamp of `fkZMax` is unnecessary: for a field map with `DelZ > 0` the value
`Zmax - floor((Zmax-250)/DelZ)·DelZ` computed by the field-map constructor is at least
`250`, so `fkZMax = max(0, that value)` is that value, `fkZMax ≥ 250 > 0`, and `Correct`
does not divide by a zero `fkZMax`. -/
theorem initMap_fkZMax_clamp (bFieldMap : AliFieldMap) (driftVelocity : ℚ) (n : ℤ)
    (zmin : ℚ) (look : ℤ → ℚ) (hz : 0 < bFieldMap.DelZ) :
    250 ≤ bFieldMap.Zmax
        - ((⌊(bFieldMap.Zmax - 250.0) / bFieldMap.DelZ⌋ : ℤ) : ℚ) * bFieldMap.DelZ
      ∧ (initMap bFieldMap driftVelocity n zmin look).fkZMax
        = bFieldMap.Zmax
          - ((⌊(bFieldMap.Zmax - 250.0) / bFieldMap.DelZ⌋ : ℤ) : ℚ) * bFieldMap.DelZ
      ∧ 250 ≤ (initMap bFieldMap driftVelocity n zmin look).fkZMax
      ∧ 0 < (initMap bFieldMap driftVelocity n zmin look).fkZMax
      ∧ (initMap bFieldMap driftVelocity n zmin look).fkZMax ≠ 0 := by
  have bz := rawZMax_ge bFieldMap hz
  have ez : (initMap bFieldMap driftVelocity n zmin look).fkZMax = rawZMax bFieldMap := by
    show max 0 (rawZMax bFieldMap) = rawZMax bFieldMap
    exact max_eq_right (by linarith)
  have h250 : 250 ≤ (initMap bFieldMap driftVelocity n zmin look).fkZMax := by
    rw [ez]; exact bz.1
  exact ⟨bz.1, ez, h250, by linarith, by linarith⟩

/-- Witness for `initMap_fkZMax_clamp`: the mesh `[-300, 300]³` with spacing 20. -/
theorem initMap_fkZMax_clamp_witness :
    250 ≤ sampleMap.Zmax
        - ((⌊(sampleMap.Zmax - 250.0) / sampleMap.DelZ⌋ : ℤ) : ℚ) * sampleMap.DelZ
      ∧ (initMap sampleMap 28300 100 0 zeroLook).fkZMax
        = sampleMap.Zmax
          - ((⌊(sampleMap.Zmax - 250.0) / sampleMap.DelZ⌋ : ℤ) : ℚ) * sampleMap.DelZ
      ∧ 250 ≤ (initMap sampleMap 28300 100 0 zeroLook).fkZMax
      ∧ 0 < (initMap sampleMap 28300 100 0 zeroLook).fkZMax
      ∧ (initMap sampleMap 28300 100 0 zeroLook).fkZMax ≠ 0 :=
  initMap_fkZMax_clamp sampleMap 28300 100 0 zeroLook (by norm_num [sampleMap])

end AliTPCExBExact

namespace AliTPCExBExact

theorem toInt_add_tenth (q : ℤ) (hq : 0 ≤ q) : toInt ((q : ℚ) + 1.1) = q + 1 := by
  have h0 : (0 : ℚ) ≤ (q : ℚ) := by exact_mod_cast hq
  unfold toInt
  rw [if_pos (by linarith), Int.floor_eq_iff]
  push_cast
  constructor
  · norm_num
  · norm_num
    linarith

/-- Node count of the field-map constructor on one axis whose extent `hi - lo` is an
integer multiple of the mesh spacing `d`. -/
theorem node_count_aligned (lo hi d : ℚ) (hd : 0 < d) (e : ℤ) (he : hi - lo = e * d) :
    ((toInt (((hi - ((⌊(hi - 250.0) / d⌋ : ℤ) : ℚ) * d)
          - (lo - ((⌈(lo + 250.0) / d⌉ : ℤ) : ℚ) * d)) / d + 1.1) : ℤ) : ℚ)
        = ((hi - ((⌊(hi - 250.0) / d⌋ : ℤ) : ℚ) * d)
          - (lo - ((⌈(lo + 250.0) / d⌉ : ℤ) : ℚ) * d)) / d + 1
      ∧ 2 ≤ toInt (((hi - ((⌊(hi - 250.0) / d⌋ : ℤ) : ℚ) * d)
          - (lo - ((⌈(lo + 250.0) / d⌉ : ℤ) : ℚ) * d)) / d + 1.1)
      ∧ ((hi - ((⌊(hi - 250.0) / d⌋ : ℤ) : ℚ) * d)
          - (lo - ((⌈(lo + 250.0) / d⌉ : ℤ) : ℚ) * d))
          / (((toInt (((hi - ((⌊(hi - 250.0) / d⌋ : ℤ) : ℚ) * d)
            - (lo - ((⌈(lo + 250.0) / d⌉ : ℤ) : ℚ) * d)) / d + 1.1) - 1 : ℤ)) : ℚ)
        = d := by
  have a := snap_lower lo d hd
  have b := snap_upper hi d hd
  have hq : (hi - ((⌊(hi - 250.0) / d⌋ : ℤ) : ℚ) * d)
      - (lo - ((⌈(lo + 250.0) / d⌉ : ℤ) : ℚ) * d)
      = ((e - ⌊(hi - 250.0) / d⌋ + ⌈(lo + 250.0) / d⌉ : ℤ) : ℚ) * d := by
    push_cast
    linear_combination he
  generalize hi - ((⌊(hi - 250.0) / d⌋ : ℤ) : ℚ) * d = B at a b hq ⊢
  generalize lo - ((⌈(lo + 250.0) / d⌉ : ℤ) : ℚ) * d = A at a b hq ⊢
  generalize e - ⌊(hi - 250.0) / d⌋ + ⌈(lo + 250.0) / d⌉ = q at hq
  have hpos : (0 : ℚ) < (q : ℚ) * d := by rw [← hq]; linarith
  have hq0 : (0 : ℚ) < (q : ℚ) := by
    by_contra hneg
    have : (q : ℚ) * d ≤ 0 := mul_nonpos_of_nonpos_of_nonneg (not_lt.mp hneg) hd.le
    linarith
  have hq1 : 1 ≤ q := by
    have : (0 : ℤ) < q := by exact_mod_cast hq0
    omega
  have hdiv : (B - A) / d = (q : ℚ) := by
    rw [hq]
    field_simp
  rw [hdiv, toInt_add_tenth q (by omega)]
  refine ⟨by push_cast; ring, by omega, ?_⟩
  rw [hq]
  have : ((q + 1 - 1 : ℤ) : ℚ) = (q : ℚ) := by push_cast; ring
  rw [this]
  field_simp

/-- C20. Mesh alignment of the node counts in field-map mode: when `DelX > 0` and the
extent `Xmax - Xmin` is an integer multiple of `DelX`, the constructor's
`fkNX = int((fkXMax-fkXMin)/DelX + 1.1)` equals `(fkXMax-fkXMin)/DelX + 1`, is at least
`2`, and the grid spacing `(fkXMax-fkXMin)/(fkNX-1)` equals `DelX`; likewise for `y`
with `DelY`. -/
theorem initMap_node_counts_aligned (bFieldMap : AliFieldMap) (driftVelocity : ℚ) (n : ℤ)
    (zmin : ℚ) (look : ℤ → ℚ) :
    (0 < bFieldMap.DelX → (∃ e : ℤ, bFieldMap.Xmax - bFieldMap.Xmin = e * bFieldMap.DelX) →
        (((initMap bFieldMap driftVelocity n zmin look).fkNX : ℤ) : ℚ)
            = ((initMap bFieldMap driftVelocity n zmin look).fkXMax
                - (initMap bFieldMap driftVelocity n zmin look).fkXMin) / bFieldMap.DelX + 1
          ∧ 2 ≤ (initMap bFieldMap driftVelocity n zmin look).fkNX
          ∧ ((initMap bFieldMap driftVelocity n zmin look).fkXMax
                - (initMap bFieldMap driftVelocity n zmin look).fkXMin)
              / (((initMap bFieldMap driftVelocity n zmin look).fkNX - 1 : ℤ) : ℚ)
            = bFieldMap.DelX)
      ∧ (0 < bFieldMap.DelY →
          (∃ e : ℤ, bFieldMap.Ymax - bFieldMap.Ymin = e * bFieldMap.DelY) →
        (((initMap bFieldMap driftVelocity n zmin look).fkNY : ℤ) : ℚ)
            = ((initMap bFieldMap driftVelocity n zmin look).fkYMax
                - (initMap bFieldMap driftVelocity n zmin look).fkYMin) / bFieldMap.DelY + 1
          ∧ 2 ≤ (initMap bFieldMap driftVelocity n zmin look).fkNY
          ∧ ((initMap bFieldMap driftVelocity n zmin look).fkYMax
                - (initMap bFieldMap driftVelocity n zmin look).fkYMin)
              / (((initMap bFieldMap driftVelocity n zmin look).fkNY - 1 : ℤ) : ℚ)
            = bFieldMap.DelY) := by
  constructor
  · rintro hx ⟨e, he⟩
    exact node_count_aligned bFieldMap.Xmin bFieldMap.Xmax bFieldMap.DelX hx e he
  · rintro hy ⟨e, he⟩
    exact node_count_aligned bFieldMap.Ymin bFieldMap.Ymax bFieldMap.DelY hy e he

/-- Witness for `initMap_node_counts_aligned`: on the mesh `[-300, 300]` with spacing
20 (extent 30 spacings) the `x` and `y` axes get 27 nodes from `-260` to `260`. -/
theorem initMap_node_counts_aligned_witness :
    ((((initMap sampleMap 28300 100 0 zeroLook).fkNX : ℤ) : ℚ)
        = ((initMap sampleMap 28300 100 0 zeroLook).fkXMax
            - (initMap sampleMap 28300 100 0 zeroLook).fkXMin) / sampleMap.DelX + 1
      ∧ 2 ≤ (initMap sampleMap 28300 100 0 zeroLook).fkNX
      ∧ ((initMap sampleMap 28300 100 0 zeroLook).fkXMax
            - (initMap sampleMap 28300 100 0 zeroLook).fkXMin)
          / (((initMap sampleMap 28300 100 0 zeroLook).fkNX - 1 : ℤ) : ℚ)
        = sampleMap.DelX)
    ∧ ((((initMap sampleMap 28300 100 0 zeroLook).fkNY : ℤ) : ℚ)
        = ((initMap sampleMap 28300 100 0 zeroLook).fkYMax
            - (initMap sampleMap 28300 100 0 zeroLook).fkYMin) / sampleMap.DelY + 1
      ∧ 2 ≤ (initMap sampleMap 28300 100 0 zeroLook).fkNY
      ∧ ((initMap sampleMap 28300 100 0 zeroLook).fkYMax
            - (initMap sampleMap 28300 100 0 zeroLook).fkYMin)
          / (((initMap sampleMap 28300 100 0 zeroLook).fkNY - 1 : ℤ) : ℚ)
        = sampleMap.DelY) :=
  ⟨(initMap_node_counts_aligned sampleMap 28300 100 0 zeroLook).1
      (by norm_num [sampleMap]) ⟨30, by norm_num [sampleMap]⟩,
    (initMap_node_counts_aligned sampleMap 28300 100 0 zeroLook).2
      (by norm_num [sampleMap]) ⟨30, by norm_num [sampleMap]⟩⟩

/-- C13. Zero-field drift velocity: at a point where `B = 0`, whatever the drift
velocity, `Motion` returns `(0, 0, s·driftVelocity)` with `s = -1` for `z < 0` and
`s = +1` otherwise. -/
theorem Motion_zero_field (o : AliTPCExBExact) (x : Vec3) (t : ℚ)
    (hB : o.GetB x = ⟨0, 0, 0⟩) :
    o.Motion x t = ⟨0, 0, (if x.z < 0 then -1 else 1) * o.fDriftVelocity⟩ := by
  have hE := fgkEM_pos.ne'
  have hD := fgkDriftField_pos.ne'
  have key : fgkEM * fgkDriftField * (o.fDriftVelocity / fgkDriftField / fgkEM)
      = o.fDriftVelocity := by
    field_simp
    ring
  by_cases hz : x.z < 0
  · simp only [Motion, GetE, hB, if_pos hz, Vec3.mk.injEq]
    refine ⟨by ring, by ring, ?_⟩
    linear_combination -key
  · simp only [Motion, GetE, hB, if_neg hz, Vec3.mk.injEq]
    refine ⟨by ring, by ring, ?_⟩
    linear_combination key

/-- Witness for `Motion_zero_field`: a field-free corrector at the point `(1, 0, -1)`. -/
theorem Motion_zero_field_witness :
    (init (fun _ => ⟨0, 0, 0⟩) 28300 3 4 5 100 0 zeroLook).Motion ⟨1, 0, -1⟩ 0
      = ⟨0, 0, (if (-1 : ℚ) < 0 then -1 else 1) * 28300⟩ :=
  Motion_zero_field (init (fun _ => ⟨0, 0, 0⟩) 28300 3 4 5 100 0 zeroLook) ⟨1, 0, -1⟩ 0
    (by norm_num [GetB, init])

end AliTPCExBExact

namespace AliTPCExBExact

/-! ### Flat addressing -/

end AliTPCExBExact

namespace AliTPCExBExact

/-! ### Step counts and the last step -/

/-- A loop that starts with its condition true ends on a state produced by a step:
the previous position still satisfies the condition and the current one is its
Euler step; at least one step was counted. -/
theorem whileLoop_last_step (o : AliTPCExBExact) (h : ℚ) (fuel : ℕ) :
    ∀ s s', |s.xt.z| < 250 * 0.01 → whileLoop o h fuel s = some s' →
      s.steps + 1 ≤ s'.steps ∧ |s'.xo.z| < 250 * 0.01
        ∧ ∃ t, s'.xt = o.DGLStep s'.xo t h := by
  induction fuel with
  | zero =>
    intro s s' hc hs
    rw [whileLoop_zero_of_running o h s hc] at hs
    cases hs
  | succ n ih =>
    intro s s' hc hs
    rw [whileLoop_step o h n s hc] at hs
    by_cases hc' : |(o.loopBody h s).xt.z| < 250 * 0.01
    · obtain ⟨h1, h2, h3⟩ := ih _ _ hc' hs
      have e : (o.loopBody h s).steps = s.steps + 1 := rfl
      exact ⟨by omega, h2, h3⟩
    · rw [whileLoop_exit o h n _ hc'] at hs
      cases hs
      exact ⟨le_refl _, hc, s.t, rfl⟩

/-- For a positive drift velocity the `z` component of `Motion` points away from the
cathode, whatever the field. -/
theorem Motion_z_sign (o : AliTPCExBExact) (hv : 0 < o.fDriftVelocity) (x : Vec3) (t : ℚ) :
    (x.z < 0 → (o.Motion x t).z < 0) ∧ (¬ x.z < 0 → 0 < (o.Motion x t).z) := by
  have hE := fgkEM_pos
  have hD := fgkDriftField_pos
  have htau : 0 < o.fDriftVelocity / fgkDriftField / fgkEM := by positivity
  have h1 := mul_nonneg (mul_self_nonneg (fgkEM * (o.GetB x).z))
    (mul_self_nonneg (o.fDriftVelocity / fgkDriftField / fgkEM))
  have h2 := mul_nonneg (add_nonneg (add_nonneg
    (mul_self_nonneg (fgkEM * (o.GetB x).x))
    (mul_self_nonneg (fgkEM * (o.GetB x).y)))
    (mul_self_nonneg (fgkEM * (o.GetB x).z)))
    (mul_self_nonneg (o.fDriftVelocity / fgkDriftField / fgkEM))
  have hfac : 0 < o.fDriftVelocity / fgkDriftField / fgkEM
      / (1 + (fgkEM * (o.GetB x).x * (fgkEM * (o.GetB x).x)
        + fgkEM * (o.GetB x).y * (fgkEM * (o.GetB x).y)
        + fgkEM * (o.GetB x).z * (fgkEM * (o.GetB x).z))
        * (o.fDriftVelocity / fgkDriftField / fgkEM
          * (o.fDriftVelocity / fgkDriftField / fgkEM))) :=
    div_pos htau (by linarith)
  have hco : 0 < (1 + fgkEM * (o.GetB x).z * (fgkEM * (o.GetB x).z)
      * (o.fDriftVelocity / fgkDriftField / fgkEM
        * (o.fDriftVelocity / fgkDriftField / fgkEM))) * (fgkEM * fgkDriftField) :=
    mul_pos (by linarith) (mul_pos hE hD)
  have hpos := mul_pos hco hfac
  constructor
  · intro hz
    have e : (o.Motion x t).z
        = -((1 + fgkEM * (o.GetB x).z * (fgkEM * (o.GetB x).z)
            * (o.fDriftVelocity / fgkDriftField / fgkEM
              * (o.fDriftVelocity / fgkDriftField / fgkEM))) * (fgkEM * fgkDriftField)
          * (o.fDriftVelocity / fgkDriftField / fgkEM
            / (1 + (fgkEM * (o.GetB x).x * (fgkEM * (o.GetB x).x)
              + fgkEM * (o.GetB x).y * (fgkEM * (o.GetB x).y)
              + fgkEM * (o.GetB x).z * (fgkEM * (o.GetB x).z))
              * (o.fDriftVelocity / fgkDriftField / fgkEM
                * (o.fDriftVelocity / fgkDriftField / fgkEM))))) := by
      simp only [Motion, GetE, if_pos hz]
      ring
    rw [e]
    linarith
  · intro hz
    have e : (o.Motion x t).z
        = (1 + fgkEM * (o.GetB x).z * (fgkEM * (o.GetB x).z)
            * (o.fDriftVelocity / fgkDriftField / fgkEM
              * (o.fDriftVelocity / fgkDriftField / fgkEM))) * (fgkEM * fgkDriftField)
          * (o.fDriftVelocity / fgkDriftField / fgkEM
            / (1 + (fgkEM * (o.GetB x).x * (fgkEM * (o.GetB x).x)
              + fgkEM * (o.GetB x).y * (fgkEM * (o.GetB x).y)
              + fgkEM * (o.GetB x).z * (fgkEM * (o.GetB x).z))
              * (o.fDriftVelocity / fgkDriftField / fgkEM
                * (o.fDriftVelocity / fgkDriftField / fgkEM)))) := by
      simp only [Motion, GetE, if_neg hz]
      ring
    rw [e]
    exact hpos

end AliTPCExBExact

namespace AliTPCExBExact

/-- C18. The crossing interpolation is well defined and lands on the end plane: for
any field, drift velocity `> 0`, step count `≥ 1` and start point with `|z0| < 250`
for which the loop ends, the last two Euler positions satisfy
`|xo_z| < 2.5 ≤ |xt_z|`, `xt_z ≠ xo_z`, they lie on the same drift side, the fraction
`p = (sign(xt_z)·2.5 - xo_z)/(xt_z - xo_z)` lies in `(0, 1]`, the interpolated point
`xo + p·(xt - xo)` has `|z| = 2.5`, and the `x` and `y` of the forward distortion are
those of that point (in cm). -/
theorem crossing_well_defined (o : AliTPCExBExact) (hv : 0 < o.fDriftVelocity)
    (hn : 1 ≤ o.fkN) (fuel : ℕ) (x0 : Vec3) (hz : |x0.z| < 250) (s : LoopState)
    (hs : whileLoop o o.stepSize fuel (initState x0) = some s) :
    |s.xo.z| < 250 * 0.01 ∧ 250 * 0.01 ≤ |s.xt.z| ∧ s.xt.z ≠ s.xo.z
      ∧ (s.xt.z < 0 ↔ s.xo.z < 0)
      ∧ 0 < ((if s.xt.z < 0 then -1 else 1) * 250 * 0.01 - s.xo.z) / (s.xt.z - s.xo.z)
      ∧ ((if s.xt.z < 0 then -1 else 1) * 250 * 0.01 - s.xo.z) / (s.xt.z - s.xo.z) ≤ 1
      ∧ |s.xo.z + ((if s.xt.z < 0 then -1 else 1) * 250 * 0.01 - s.xo.z)
            / (s.xt.z - s.xo.z) * (s.xt.z - s.xo.z)| = 250 * 0.01
      ∧ (o.crossing x0 s).x
          = (s.xo.x + ((if s.xt.z < 0 then -1 else 1) * 250 * 0.01 - s.xo.z)
              / (s.xt.z - s.xo.z) * (s.xt.x - s.xo.x)) * 100
      ∧ (o.crossing x0 s).y
          = (s.xo.y + ((if s.xt.z < 0 then -1 else 1) * 250 * 0.01 - s.xo.z)
              / (s.xt.z - s.xo.z) * (s.xt.y - s.xo.y)) * 100 := by
  have hh := o.stepSize_pos hv hn
  have hinit : |(initState x0).xt.z| < 250 * 0.01 := by
    show |x0.z * 0.01| < 250 * 0.01
    rw [abs_mul, abs_of_pos (show (0 : ℚ) < 0.01 by norm_num)]
    exact mul_lt_mul_of_pos_right hz (by norm_num)
  obtain ⟨hst, hxo, t, hxt⟩ := whileLoop_last_step o _ fuel _ _ hinit hs
  have hexit := whileLoop_exit_cond o _ fuel _ _ hs
  have hexit' : 250 * 0.01 ≤ |s.xt.z| := not_lt.mp hexit
  have hstep : s.xt.z = s.xo.z + o.stepSize * (o.Motion s.xo t).z := by
    rw [hxt]
    rfl
  have hsign := Motion_z_sign o hv s.xo t
  have ht : s.t ≠ 0 :=
    whileLoop_time_ne_zero o fuel x0 s hs (by
      have e : (initState x0).steps = 0 := rfl
      omega)
  have hcx : (o.crossing x0 s).x
      = (s.xo.x + ((if s.xt.z < 0 then -1 else 1) * 250 * 0.01 - s.xo.z)
          / (s.xt.z - s.xo.z) * (s.xt.x - s.xo.x)) * 100 := by
    unfold crossing
    rw [if_pos ht]
  have hcy : (o.crossing x0 s).y
      = (s.xo.y + ((if s.xt.z < 0 then -1 else 1) * 250 * 0.01 - s.xo.z)
          / (s.xt.z - s.xo.z) * (s.xt.y - s.xo.y)) * 100 := by
    unfold crossing
    rw [if_pos ht]
  have hxo' := abs_lt.mp hxo
  by_cases hneg : s.xo.z < 0
  · have hM := hsign.1 hneg
    have hlt : s.xt.z < s.xo.z := by rw [hstep]; nlinarith
    have hxtneg : s.xt.z < 0 := by linarith
    have hle : s.xt.z ≤ -(250 * 0.01) := by
      rw [abs_of_neg hxtneg] at hexit'
      linarith
    have hD : s.xt.z - s.xo.z < 0 := by linarith
    have hN : (-1 : ℚ) * 250 * 0.01 - s.xo.z < 0 := by linarith
    rw [if_pos hxtneg] at hcx hcy ⊢
    refine ⟨hxo, hexit', hlt.ne, ⟨fun _ => hneg, fun _ => hxtneg⟩,
      div_pos_of_neg_of_neg hN hD, (div_le_one_of_neg hD).mpr (by linarith), ?_, hcx, hcy⟩
    rw [div_mul_cancel₀ _ hD.ne]
    have : s.xo.z + (-1 * 250 * 0.01 - s.xo.z) = -(250 * 0.01) := by ring
    rw [this, abs_neg, abs_of_pos (by norm_num)]
  · have hM := hsign.2 hneg
    have hlt : s.xo.z < s.xt.z := by rw [hstep]; nlinarith
    have hxo0 : 0 ≤ s.xo.z := not_lt.mp hneg
    have hxtpos : 0 < s.xt.z := by linarith
    have hxtn : ¬ s.xt.z < 0 := by linarith
    have hle : 250 * 0.01 ≤ s.xt.z := by
      rw [abs_of_pos hxtpos] at hexit'
      exact hexit'
    have hD : 0 < s.xt.z - s.xo.z := by linarith
    have hN : 0 < (1 : ℚ) * 250 * 0.01 - s.xo.z := by linarith
    rw [if_neg hxtn] at hcx hcy ⊢
    refine ⟨hxo, hexit', hlt.ne', ⟨fun h => absurd h hxtn, fun h => absurd h hneg⟩,
      div_pos hN hD, (div_le_one hD).mpr (by linarith), ?_, hcx, hcy⟩
    rw [div_mul_cancel₀ _ hD.ne']
    have : s.xo.z + (1 * 250 * 0.01 - s.xo.z) = 250 * 0.01 := by ring
    rw [this, abs_of_pos (by norm_num)]

/-- Witness for `crossing_well_defined`: two Euler steps from `(100, 0, 100)` in a
transverse field of 1 T. -/
theorem crossing_well_defined_witness :
    |transverseXEnd.xo.z| < 250 * 0.01 ∧ 250 * 0.01 ≤ |transverseXEnd.xt.z|
      ∧ transverseXEnd.xt.z ≠ transverseXEnd.xo.z
      ∧ (transverseXEnd.xt.z < 0 ↔ transverseXEnd.xo.z < 0)
      ∧ 0 < ((if transverseXEnd.xt.z < 0 then -1 else 1) * 250 * 0.01
              - transverseXEnd.xo.z) / (transverseXEnd.xt.z - transverseXEnd.xo.z)
      ∧ ((if transverseXEnd.xt.z < 0 then -1 else 1) * 250 * 0.01
              - transverseXEnd.xo.z) / (transverseXEnd.xt.z - transverseXEnd.xo.z) ≤ 1
      ∧ |transverseXEnd.xo.z + ((if transverseXEnd.xt.z < 0 then -1 else 1) * 250 * 0.01
              - transverseXEnd.xo.z) / (transverseXEnd.xt.z - transverseXEnd.xo.z)
            * (transverseXEnd.xt.z - transverseXEnd.xo.z)| = 250 * 0.01
      ∧ (transverseX.crossing ⟨100, 0, 100⟩ transverseXEnd).x
          = (transverseXEnd.xo.x + ((if transverseXEnd.xt.z < 0 then -1 else 1) * 250 * 0.01
              - transverseXEnd.xo.z) / (transverseXEnd.xt.z - transverseXEnd.xo.z)
              * (transverseXEnd.xt.x - transverseXEnd.xo.x)) * 100
      ∧ (transverseX.crossing ⟨100, 0, 100⟩ transverseXEnd).y
          = (transverseXEnd.xo.y + ((if transverseXEnd.xt.z < 0 then -1 else 1) * 250 * 0.01
              - transverseXEnd.xo.z) / (transverseXEnd.xt.z - transverseXEnd.xo.z)
              * (transverseXEnd.xt.y - transverseXEnd.xo.y)) * 100 :=
  crossing_well_defined transverseX (by norm_num [transverseX, init])
    (by norm_num [transverseX, init]) 2 ⟨100, 0, 100⟩ (by norm_num [abs_of_pos])
    transverseXEnd transverseX_loop

end AliTPCExBExact

namespace AliTPCExBExact

/-! ### The contents of the lookup table -/

theorem forLoop_inv_of_some {σ : Type} (body : ℤ → σ → Option σ) (Inv : ℤ → Prop) (n : ℕ) :
    ∀ (i0 : ℤ) (s0 s' : σ), forLoop body n i0 s0 = some s' → Inv i0 →
      (∀ m : ℕ, m < n → ∀ s s'', Inv (i0 + m) → body (i0 + m) s = some s'' →
        Inv (i0 + m + 1)) →
      Inv (i0 + n) := by
  induction n with
  | zero =>
    intro i0 s0 s' _ h0 _
    simpa using h0
  | succ n ih =>
    intro i0 s0 s' hs h0 hstep
    simp only [forLoop] at hs
    obtain ⟨s1, hb, hrest⟩ := Option.bind_eq_some.mp hs
    have h1 : Inv (i0 + 1) := by
      have := hstep 0 (Nat.succ_pos n) s0 s1 (by simpa using h0) (by simpa using hb)
      simpa using this
    have := ih (i0 + 1) s1 s' hrest h1 (by
      intro m hm s s'' hI hbody
      have e : i0 + 1 + (m : ℤ) = i0 + ((m + 1 : ℕ) : ℤ) := by push_cast; ring
      rw [e] at hI hbody ⊢
      exact hstep (m + 1) (Nat.succ_lt_succ hm) s s'' hI hbody)
    have e : i0 + ((n + 1 : ℕ) : ℤ) = i0 + 1 + (n : ℤ) := by push_cast; ring
    rw [e]
    exact this

theorem fillNode_some (o : AliTPCExBExact) (fuel : ℕ) (i j k : ℤ) (look look' : ℤ → ℚ)
    (h : o.fillNode fuel i j k look = some look') :
    (o.CalculateDistortion fuel (o.nodePos i j k)).isSome
      ∧ (o.CalculateDistortion fuel (negZ (o.nodePos i j k))).isSome := by
  unfold fillNode at h
  obtain ⟨d1, h1, h'⟩ := Option.bind_eq_some.mp h
  obtain ⟨d0, h0, -⟩ := Option.bind_eq_some.mp h'
  rw [h1, h0]
  exact ⟨rfl, rfl⟩

/-- When the three nested loops end, every integration of every grid node has ended
within the fuel. -/
theorem fillTable_some (o : AliTPCExBExact) (fuel : ℕ) (look : ℤ → ℚ)
    (h : o.fillTable fuel = some look) :
    ∀ i j k, o.InRange i j k →
      (o.CalculateDistortion fuel (o.nodePos i j k)).isSome
        ∧ (o.CalculateDistortion fuel (negZ (o.nodePos i j k))).isSome := by
  have hcast : ∀ (N : ℤ) (m : ℕ), m < N.toNat → (0 : ℤ) ≤ 0 + (m : ℤ) ∧ 0 + (m : ℤ) < N := by
    intro N m hm
    omega
  have hend : ∀ N : ℤ, (0 : ℤ) + (N.toNat : ℤ) = max N 0 := by
    intro N
    omega
  have inner : ∀ i j lk lk', (0 ≤ i ∧ i < o.fkNX) → (0 ≤ j ∧ j < o.fkNY) →
      forLoop (fun k look => o.fillNode fuel i j k look) o.fkNZ.toNat 0 lk = some lk' →
      o.EndBefore fuel i j 0 → o.EndBefore fuel i (j + 1) 0 := by
    intro i j lk lk' hi hj hl hE
    have hI := forLoop_inv_of_some (fun k look => o.fillNode fuel i j k look)
      (fun k => o.EndBefore fuel i j k) o.fkNZ.toNat 0 lk lk' hl hE (by
        intro m hm s s'' hI hbody
        have hs := fillNode_some o fuel i j _ s s'' hbody
        intro i' j' k' hR' hB
        by_cases heq : i' = i ∧ j' = j ∧ k' = 0 + (m : ℤ)
        · obtain ⟨rfl, rfl, rfl⟩ := heq
          exact hs
        · apply hI i' j' k' hR'
          unfold Before at hB ⊢
          rcases hB with h | ⟨h, h' | ⟨h', h''⟩⟩
          · exact Or.inl h
          · exact Or.inr ⟨h, Or.inl h'⟩
          · refine Or.inr ⟨h, Or.inr ⟨h', ?_⟩⟩
            have : k' ≠ 0 + (m : ℤ) := fun e => heq ⟨h, h', e⟩
            omega)
    intro i' j' k' hR' hB
    apply hI i' j' k' hR'
    rw [hend]
    unfold Before at hB ⊢
    have hk' := hR'.2.2
    rcases hB with h | ⟨h, h' | ⟨h', h''⟩⟩
    · exact Or.inl h
    · by_cases e : j' = j
      · exact Or.inr ⟨h, Or.inr ⟨e, lt_of_lt_of_le hk'.2 (le_max_left _ _)⟩⟩
      · exact Or.inr ⟨h, Or.inl (by omega)⟩
    · omega
  have middle : ∀ i lk lk', (0 ≤ i ∧ i < o.fkNX) →
      forLoop (fun j look =>
          forLoop (fun k look => o.fillNode fuel i j k look) o.fkNZ.toNat 0 look)
          o.fkNY.toNat 0 lk = some lk' →
      o.EndBefore fuel i 0 0 → o.EndBefore fuel (i + 1) 0 0 := by
    intro i lk lk' hi hl hE
    have hI := forLoop_inv_of_some (fun j look =>
        forLoop (fun k look => o.fillNode fuel i j k look) o.fkNZ.toNat 0 look)
      (fun j => o.EndBefore fuel i j 0) o.fkNY.toNat 0 lk lk' hl hE (by
        intro m hm s s'' hI hbody
        exact inner i _ s s'' hi (hcast o.fkNY m hm) hbody hI)
    intro i' j' k' hR' hB
    apply hI i' j' k' hR'
    rw [hend]
    unfold Before at hB ⊢
    have hj' := hR'.2.1
    have hk' := hR'.2.2
    rcases hB with h | ⟨h, h' | ⟨h', h''⟩⟩
    · by_cases e : i' = i
      · exact Or.inr ⟨e, Or.inl (lt_of_lt_of_le hj'.2 (le_max_left _ _))⟩
      · exact Or.inl (by omega)
    · omega
    · omega
  have h0 : o.EndBefore fuel 0 0 0 := by
    intro i' j' k' hR' hB
    unfold Before at hB
    have hi' := hR'.1
    have hj' := hR'.2.1
    have hk' := hR'.2.2
    omega
  have hI := forLoop_inv_of_some (fun i look =>
      forLoop (fun j look =>
        forLoop (fun k look => o.fillNode fuel i j k look) o.fkNZ.toNat 0 look)
        o.fkNY.toNat 0 look)
    (fun i => o.EndBefore fuel i 0 0) o.fkNX.toNat 0 o.fLook look h h0 (by
      intro m hm s s'' hI hbody
      exact middle _ s s'' (hcast o.fkNX m hm) hbody hI)
  intro i j k hR
  apply hI i j k hR
  rw [hend]
  exact Or.inl (lt_of_lt_of_le hR.1.2 (le_max_left _ _))

end AliTPCExBExact

namespace AliTPCExBExact

/-- C15. Lookup-table contents. `CreateLookupTable` ends as soon as the two
integrations of every grid node end within the fuel; and whenever it ends, for every
node `(i,j,k)` with `0 ≤ i < Nx`, `0 ≤ j < Ny`, `0 ≤ k < Nz`, the three entries at
flat offset `(((i·Ny+j)·Nz+k)·2+1)·3` are the result of `CalculateDistortion` at
`(XMin+(XMax-XMin)/(Nx-1)·i, YMin+(YMax-YMin)/(Ny-1)·j, zk)` with
`zk = max(0.0001, ZMax/(Nz-1)·k)`, and the three entries at offset
`(((i·Ny+j)·Nz+k)·2+0)·3` are the result at the same `x`, `y` and `z = -zk`. -/
theorem CreateLookupTable_contents (o : AliTPCExBExact) (fuel : ℕ) :
    ((∀ i j k, o.InRange i j k →
          (o.CalculateDistortion fuel (o.nodePos i j k)).isSome
            ∧ (o.CalculateDistortion fuel (negZ (o.nodePos i j k))).isSome) →
        (o.CreateLookupTable fuel).isSome)
      ∧ ∀ o', o.CreateLookupTable fuel = some o' →
        ∀ i j k : ℤ, (0 ≤ i ∧ i < o.fkNX) → (0 ≤ j ∧ j < o.fkNY) → (0 ≤ k ∧ k < o.fkNZ) →
          ∃ d1 d0 : Vec3,
            o.CalculateDistortion fuel
                ⟨o.fkXMin + (o.fkXMax - o.fkXMin) / ((o.fkNX : ℚ) - 1) * i,
                 o.fkYMin + (o.fkYMax - o.fkYMin) / ((o.fkNY : ℚ) - 1) * j,
                 max 0.0001 (o.fkZMax / ((o.fkNZ : ℚ) - 1) * k)⟩ = some d1
              ∧ o.CalculateDistortion fuel
                ⟨o.fkXMin + (o.fkXMax - o.fkXMin) / ((o.fkNX : ℚ) - 1) * i,
                 o.fkYMin + (o.fkYMax - o.fkYMin) / ((o.fkNY : ℚ) - 1) * j,
                 -max 0.0001 (o.fkZMax / ((o.fkNZ : ℚ) - 1) * k)⟩ = some d0
              ∧ o'.fLook ((((i * o.fkNY + j) * o.fkNZ + k) * 2 + 1) * 3) = d1.x
              ∧ o'.fLook ((((i * o.fkNY + j) * o.fkNZ + k) * 2 + 1) * 3 + 1) = d1.y
              ∧ o'.fLook ((((i * o.fkNY + j) * o.fkNZ + k) * 2 + 1) * 3 + 2) = d1.z
              ∧ o'.fLook ((((i * o.fkNY + j) * o.fkNZ + k) * 2 + 0) * 3) = d0.x
              ∧ o'.fLook ((((i * o.fkNY + j) * o.fkNZ + k) * 2 + 0) * 3 + 1) = d0.y
              ∧ o'.fLook ((((i * o.fkNY + j) * o.fkNZ + k) * 2 + 0) * 3 + 2) = d0.z := by
  constructor
  · intro hterm
    obtain ⟨look, hl, -⟩ := fillTable_spec o fuel hterm
    simp [CreateLookupTable, hl]
  · intro o' ho' i j k hi hj hk
    unfold CreateLookupTable at ho'
    obtain ⟨look, hl, rfl⟩ := Option.map_eq_some'.mp ho'
    have hterm := fillTable_some o fuel look hl
    obtain ⟨look2, hl2, hok⟩ := fillTable_spec o fuel hterm
    rw [hl] at hl2
    cases hl2
    have hR : o.InRange i j k := ⟨hi, hj, hk⟩
    obtain ⟨d1, hd1⟩ := Option.isSome_iff_exists.mp (hterm i j k hR).1
    obtain ⟨d0, hd0⟩ := Option.isSome_iff_exists.mp (hterm i j k hR).2
    have a1 := hok i j k hR 1 (Or.inr rfl)
    have a0 := hok i j k hR 0 (Or.inl rfl)
    rw [nodeDist_pos o fuel i j k d1 hd1] at a1
    rw [nodeDist_neg o fuel i j k d0 hd0] at a0
    have epos : o.nodePos i j k
        = ⟨o.fkXMin + (o.fkXMax - o.fkXMin) / ((o.fkNX : ℚ) - 1) * i,
           o.fkYMin + (o.fkYMax - o.fkYMin) / ((o.fkNY : ℚ) - 1) * j,
           max 0.0001 (o.fkZMax / ((o.fkNZ : ℚ) - 1) * k)⟩ := by
      unfold nodePos
      push_cast
      rw [one_mul]
    have eneg : negZ (o.nodePos i j k)
        = ⟨o.fkXMin + (o.fkXMax - o.fkXMin) / ((o.fkNX : ℚ) - 1) * i,
           o.fkYMin + (o.fkYMax - o.fkYMin) / ((o.fkNY : ℚ) - 1) * j,
           -max 0.0001 (o.fkZMax / ((o.fkNZ : ℚ) - 1) * k)⟩ := by
      rw [epos]
      rfl
    rw [epos] at hd1
    rw [eneg] at hd0
    refine ⟨d1, d0, hd1, hd0, ?_, ?_, ?_, ?_, ?_, ?_⟩
    · simpa [flat] using a1.1
    · simpa [flat] using a1.2.1
    · simpa [flat] using a1.2.2
    · simpa [flat] using a0.1
    · simpa [flat] using a0.2.1
    · simpa [flat] using a0.2.2

end AliTPCExBExact

namespace AliTPCExBExact

theorem fieldFree_ends (i j k : ℤ) :
    (fieldFree.CalculateDistortion 100 (fieldFree.nodePos i j k)).isSome
      ∧ (fieldFree.CalculateDistortion 100 (negZ (fieldFree.nodePos i j k))).isSome := by
  have hz := (fieldFree.nodePos_z_pos i j k).ne'
  have hz' : (negZ (fieldFree.nodePos i j k)).z ≠ 0 := by
    show -(fieldFree.nodePos i j k).z ≠ 0
    exact neg_ne_zero.mpr hz
  have hv : 0 < fieldFree.fDriftVelocity := by norm_num [fieldFree, init]
  have hn : 1 ≤ fieldFree.fkN := by norm_num [fieldFree, init]
  have hf : fieldFree.fkN ≤ ((100 : ℕ) : ℤ) := by norm_num [fieldFree, init]
  rw [CalculateDistortion_zero_field fieldFree (fun _ => rfl) hv hn 100 hf _ hz,
    CalculateDistortion_zero_field fieldFree (fun _ => rfl) hv hn 100 hf _ hz']
  exact ⟨rfl, rfl⟩

/-- Witness for `CreateLookupTable_contents`: the field-free `3×4×5` corrector with
fuel `100`. -/
theorem CreateLookupTable_contents_witness :
    (fieldFree.CreateLookupTable 100).isSome
      ∧ ∃ o', fieldFree.CreateLookupTable 100 = some o'
        ∧ ∀ i j k : ℤ, (0 ≤ i ∧ i < fieldFree.fkNX) → (0 ≤ j ∧ j < fieldFree.fkNY) →
          (0 ≤ k ∧ k < fieldFree.fkNZ) →
          ∃ d1 d0 : Vec3,
            fieldFree.CalculateDistortion 100
                ⟨fieldFree.fkXMin + (fieldFree.fkXMax - fieldFree.fkXMin)
                    / ((fieldFree.fkNX : ℚ) - 1) * i,
                 fieldFree.fkYMin + (fieldFree.fkYMax - fieldFree.fkYMin)
                    / ((fieldFree.fkNY : ℚ) - 1) * j,
                 max 0.0001 (fieldFree.fkZMax / ((fieldFree.fkNZ : ℚ) - 1) * k)⟩ = some d1
              ∧ fieldFree.CalculateDistortion 100
                ⟨fieldFree.fkXMin + (fieldFree.fkXMax - fieldFree.fkXMin)
                    / ((fieldFree.fkNX : ℚ) - 1) * i,
                 fieldFree.fkYMin + (fieldFree.fkYMax - fieldFree.fkYMin)
                    / ((fieldFree.fkNY : ℚ) - 1) * j,
                 -max 0.0001 (fieldFree.fkZMax / ((fieldFree.fkNZ : ℚ) - 1) * k)⟩ = some d0
              ∧ o'.fLook ((((i * fieldFree.fkNY + j) * fieldFree.fkNZ + k) * 2 + 1) * 3)
                  = d1.x
              ∧ o'.fLook ((((i * fieldFree.fkNY + j) * fieldFree.fkNZ + k) * 2 + 1) * 3 + 1)
                  = d1.y
              ∧ o'.fLook ((((i * fieldFree.fkNY + j) * fieldFree.fkNZ + k) * 2 + 1) * 3 + 2)
                  = d1.z
              ∧ o'.fLook ((((i * fieldFree.fkNY + j) * fieldFree.fkNZ + k) * 2 + 0) * 3)
                  = d0.x
              ∧ o'.fLook ((((i * fieldFree.fkNY + j) * fieldFree.fkNZ + k) * 2 + 0) * 3 + 1)
                  = d0.y
              ∧ o'.fLook ((((i * fieldFree.fkNY + j) * fieldFree.fkNZ + k) * 2 + 0) * 3 + 2)
                  = d0.z := by
  have h1 := (CreateLookupTable_contents fieldFree 100).1 (fun i j k _ => fieldFree_ends i j k)
  obtain ⟨o', ho'⟩ := Option.isSome_iff_exists.mp h1
  exact ⟨h1, o', ho', (CreateLookupTable_contents fieldFree 100).2 o' ho'⟩

/-! ### Grid sizes are not validated -/

/-- The analytic-field constructor ends exactly when every node integration ends, and
the object it returns carries the requested grid sizes; with at least two nodes on an
axis the divisor of that axis in `CreateLookupTable` is not zero. -/
theorem construct_grid (bField : Vec3 → Vec3) (driftVelocity : ℚ) (nx ny nz n : ℤ)
    (zmin : ℚ) (look : ℤ → ℚ) (fuel : ℕ) :
    ((construct bField driftVelocity nx ny nz n zmin look fuel).isSome ↔
        ∀ i j k, (0 ≤ i ∧ i < nx) ∧ (0 ≤ j ∧ j < ny) ∧ (0 ≤ k ∧ k < nz) →
          ((init bField driftVelocity nx ny nz n zmin look).CalculateDistortion fuel
              ((init bField driftVelocity nx ny nz n zmin look).nodePos i j k)).isSome
            ∧ ((init bField driftVelocity nx ny nz n zmin look).CalculateDistortion fuel
              (negZ ((init bField driftVelocity nx ny nz n zmin look).nodePos i j k))).isSome)
      ∧ ∀ o, construct bField driftVelocity nx ny nz n zmin look fuel = some o →
          o.fkNX = nx ∧ o.fkNY = ny ∧ o.fkNZ = nz
            ∧ (2 ≤ nx → ((o.fkNX - 1 : ℤ) : ℚ) ≠ 0)
            ∧ (2 ≤ ny → ((o.fkNY - 1 : ℤ) : ℚ) ≠ 0)
            ∧ (2 ≤ nz → ((o.fkNZ - 1 : ℤ) : ℚ) ≠ 0) := by
  constructor
  · constructor
    · intro h
      obtain ⟨o, ho⟩ := Option.isSome_iff_exists.mp h
      unfold construct CreateLookupTable at ho
      obtain ⟨lk, hl, -⟩ := Option.map_eq_some'.mp ho
      exact fillTable_some (init bField driftVelocity nx ny nz n zmin look) fuel lk hl
    · intro hterm
      obtain ⟨lk, hl, -⟩ := fillTable_spec
        (init bField driftVelocity nx ny nz n zmin look) fuel hterm
      simp [construct, CreateLookupTable, hl]
  · intro o ho
    unfold construct CreateLookupTable at ho
    obtain ⟨lk, -, rfl⟩ := Option.map_eq_some'.mp ho
    have key : ∀ m : ℤ, 2 ≤ m → ((m - 1 : ℤ) : ℚ) ≠ 0 := by
      intro m hm
      have : (m - 1 : ℤ) ≠ 0 := by omega
      exact_mod_cast this
    exact ⟨rfl, rfl, rfl, key nx, key ny, key nz⟩

theorem newLook_ok (heap : ℤ) (o : AliTPCExBExact) (h0 : 0 ≤ o.tableSize)
    (h1 : o.tableSize ≤ heap) (h2 : o.tableSize ≤ 2147483647) :
    newLook heap o = Except.ok () := by
  have hw : wrapInt o.tableSize = o.tableSize := by
    unfold wrapInt
    omega
  unfold newLook
  rw [hw, if_neg (by omega), if_neg (by simp)]

theorem constructOn_badAlloc (heap : ℤ) (bField : Vec3 → Vec3) (driftVelocity : ℚ)
    (nx ny nz n : ℤ) (zmin : ℚ) (look : ℤ → ℚ) (fuel : ℕ) :
    constructOn heap bField driftVelocity nx ny nz n zmin look fuel
        = Except.error Fault.badAlloc
      ↔ wrapInt (nx * ny * nz * 2 * 3) < 0 ∨ heap < wrapInt (nx * ny * nz * 2 * 3) := by
  have e : (init bField driftVelocity nx ny nz n zmin look).tableSize
      = nx * ny * nz * 2 * 3 := rfl
  unfold constructOn CreateLookupTableOn newLook
  rw [e]
  by_cases h : wrapInt (nx * ny * nz * 2 * 3) < 0 ∨ heap < wrapInt (nx * ny * nz * 2 * 3)
  · simp [h]
  · by_cases h' : wrapInt (nx * ny * nz * 2 * 3) ≠ nx * ny * nz * 2 * 3
    · simp [h, h']
    · simp [h, h']

/-- C12 (as amended). The analytic-field constructor does not validate the grid sizes.
It throws exactly when the `Int_t` cell count `nx*ny*nz*2*3` of line 169 is negative
after wrap-around or beyond what the allocator grants, before any integration.  When
the cell count is a valid array size, the constructor is the table build: it ends
exactly when every node integration ends, whatever `nx`, `ny`, `nz`, and the corrector
it returns has `fkNX = nx`, `fkNY = ny`, `fkNZ = nz`; when the caller passes at least
two nodes on an axis, the divisor `fkN? - 1` of that axis in `CreateLookupTable` is not
zero. -/
theorem construct_no_validation (heap : ℤ) (bField : Vec3 → Vec3) (driftVelocity : ℚ)
    (nx ny nz n : ℤ) (zmin : ℚ) (look : ℤ → ℚ) (fuel : ℕ) :
    (constructOn heap bField driftVelocity nx ny nz n zmin look fuel
          = Except.error Fault.badAlloc
        ↔ wrapInt (nx * ny * nz * 2 * 3) < 0 ∨ heap < wrapInt (nx * ny * nz * 2 * 3))
      ∧ (0 ≤ nx * ny * nz * 2 * 3 → nx * ny * nz * 2 * 3 ≤ heap
          → nx * ny * nz * 2 * 3 ≤ 2147483647 →
          constructOn heap bField driftVelocity nx ny nz n zmin look fuel
              = Except.ok (construct bField driftVelocity nx ny nz n zmin look fuel)
            ∧ ((construct bField driftVelocity nx ny nz n zmin look fuel).isSome ↔
              ∀ i j k, (0 ≤ i ∧ i < nx) ∧ (0 ≤ j ∧ j < ny) ∧ (0 ≤ k ∧ k < nz) →
                ((init bField driftVelocity nx ny nz n zmin look).CalculateDistortion fuel
                    ((init bField driftVelocity nx ny nz n zmin look).nodePos i j k)).isSome
                  ∧ ((init bField driftVelocity nx ny nz n zmin look).CalculateDistortion
                      fuel (negZ ((init bField driftVelocity nx ny nz n zmin look).nodePos
                        i j k))).isSome)
            ∧ ∀ o, construct bField driftVelocity nx ny nz n zmin look fuel = some o →
                o.fkNX = nx ∧ o.fkNY = ny ∧ o.fkNZ = nz
                  ∧ (2 ≤ nx → ((o.fkNX - 1 : ℤ) : ℚ) ≠ 0)
                  ∧ (2 ≤ ny → ((o.fkNY - 1 : ℤ) : ℚ) ≠ 0)
                  ∧ (2 ≤ nz → ((o.fkNZ - 1 : ℤ) : ℚ) ≠ 0)) := by
  refine ⟨constructOn_badAlloc heap bField driftVelocity nx ny nz n zmin look fuel, ?_⟩
  intro h0 h1 h2
  have hg := construct_grid bField driftVelocity nx ny nz n zmin look fuel
  refine ⟨?_, hg.1, hg.2⟩
  unfold constructOn CreateLookupTableOn
  rw [newLook_ok heap (init bField driftVelocity nx ny nz n zmin look) h0 h1 h2]
  rfl

/-- Witness for `construct_no_validation`: with room for the `360` cells of the
field-free `3×4×5` corrector, it is constructed with fuel `100` and keeps its grid
sizes. -/
theorem construct_no_validation_witness :
    ∃ o, constructOn 360 (fun _ => ⟨0, 0, 0⟩) 28300 3 4 5 100 0 zeroLook 100
        = Except.ok (some o)
      ∧ o.fkNX = 3 ∧ o.fkNY = 4 ∧ o.fkNZ = 5
      ∧ ((o.fkNX - 1 : ℤ) : ℚ) ≠ 0 ∧ ((o.fkNY - 1 : ℤ) : ℚ) ≠ 0
      ∧ ((o.fkNZ - 1 : ℤ) : ℚ) ≠ 0 := by
  have h := (construct_no_validation 360 (fun _ => ⟨0, 0, 0⟩) 28300 3 4 5 100 0 zeroLook
    100).2 (by norm_num) (by norm_num) (by norm_num)
  obtain ⟨o, ho⟩ := Option.isSome_iff_exists.mp
    (h.2.1.mpr (fun i j k _ => fieldFree_ends i j k))
  obtain ⟨a, b, c, d, e, f⟩ := h.2.2 o ho
  exact ⟨o, by rw [h.1, ho], a, b, c, d (by norm_num), e (by norm_num), f (by norm_num)⟩

/-- C12, counterexample: the analytic-field constructor called with `nx = 1` (no field,
drift velocity `40000`, one step, room for the `24` cells) is not rejected; it returns a
corrector with `fkNX = 1 < 2`, whose divisor `fkNX - 1` is zero. -/
theorem construct_accepts_one_node :
    ∃ o, constructOn 24 (fun _ => ⟨0, 0, 0⟩) 40000 1 2 2 1 0 zeroLook 1
        = Except.ok (some o)
      ∧ o.fkNX = 1 ∧ ¬ 2 ≤ o.fkNX ∧ ((o.fkNX - 1 : ℤ) : ℚ) = 0 := by
  obtain ⟨lk, hl, -⟩ := CreateLookupTable_zero_field
    (init (fun _ => ⟨0, 0, 0⟩) 40000 1 2 2 1 0 zeroLook) (fun _ => rfl)
    (by norm_num [init]) (by norm_num [init]) 1 (by norm_num [init])
  have hn : newLook 24 (init (fun _ => ⟨0, 0, 0⟩) 40000 1 2 2 1 0 zeroLook)
      = Except.ok () :=
    newLook_ok 24 _ (by norm_num [tableSize, init]) (by norm_num [tableSize, init])
      (by norm_num [tableSize, init])
  refine ⟨{ init (fun _ => ⟨0, 0, 0⟩) 40000 1 2 2 1 0 zeroLook with fLook := lk },
    ?_, rfl, ?_, ?_⟩
  · unfold constructOn CreateLookupTableOn
    rw [hn]
    show Except.ok _ = Except.ok _
    rw [hl]
  · show ¬ (2 : ℤ) ≤ 1
    norm_num
  · show (((1 : ℤ) - 1 : ℤ) : ℚ) = 0
    norm_num

/-- A request the allocation refuses: for `800×800×600` nodes the `Int_t` cell count
`2304000000` wraps around to a negative value and `new[]` throws, however much memory
there is. -/
theorem construct_throws_on_overflow (heap : ℤ) (bField : Vec3 → Vec3) (v : ℚ) (n : ℤ)
    (zmin : ℚ) (look : ℤ → ℚ) (fuel : ℕ) :
    constructOn heap bField v 800 800 600 n zmin look fuel
      = Except.error Fault.badAlloc :=
  (constructOn_badAlloc heap bField v 800 800 600 n zmin look fuel).mpr
    (Or.inl (by decide))

end AliTPCExBExact

namespace AliTPCExBExact

/-! ### The round trip in a uniform field -/

theorem tri_affine (A B C D : ℚ) (a b c : ℤ) (X Y Z : ℚ) :
    tri (fun i j k => A + B * (i : ℚ) + C * (j : ℚ) + D * (k : ℚ)) a b c X Y Z
      = A + B * X + C * Y + D * Z := by
  unfold tri
  push_cast
  ring

/-- In a uniform field the loop from a start point with `0 < z0 < 250` ends, and the
crossing is the end of the straight line of direction `driftVec`. -/
theorem crossing_uniform_pos (o : AliTPCExBExact) (b : Vec3)
    (hb : ∀ x, o.Field x = b) (hv : 0 < o.fDriftVelocity) (hn : 1 ≤ o.fkN)
    (fuel : ℕ) (x0 : Vec3) (hz0 : 0 < x0.z) (hz1 : x0.z < 250)
    (hf : 250 * 0.01 ≤ fuel * (o.stepSize * o.driftVec.z)) :
    ∃ s, whileLoop o o.stepSize fuel (initState x0) = some s
      ∧ o.crossing x0 s = o.forward x0 := by
  have hcd := CalculateDistortion_uniform_pos o b hb hv hn fuel x0 hz0 hz1 hf
  unfold CalculateDistortion at hcd
  cases hl : whileLoop o o.stepSize fuel (initState x0) with
  | none =>
    rw [hl] at hcd
    cases hcd
  | some s =>
    refine ⟨s, rfl, ?_⟩
    rw [hl, Option.map_some', Option.some.injEq] at hcd
    have hx := congrArg Vec3.x hcd
    have hy := congrArg Vec3.y hcd
    have hz := congrArg Vec3.z hcd
    simp only [reverse] at hx hy hz
    cases hc : o.crossing x0 s with
    | mk cx cy cz =>
      rw [hc] at hx hy hz
      simp only at hx hy hz
      simp only [forward, Vec3.mk.injEq]
      exact ⟨by linarith, by linarith, hz⟩

/-- In a uniform field, on a grid whose nodes do not exceed `z = 250`,
`CreateLookupTable` succeeds with enough fuel and its positive side holds the straight
line result of every node. -/
theorem CreateLookupTable_uniform_pos (o : AliTPCExBExact) (b : Vec3)
    (hb : ∀ x, o.Field x = b) (hv : 0 < o.fDriftVelocity) (hn : 1 ≤ o.fkN)
    (fuel : ℕ) (hf : 250 * 0.01 ≤ fuel * (o.stepSize * o.driftVec.z))
    (hzmax : ∀ i j k, o.InRange i j k → (o.nodePos i j k).z ≤ 250) :
    ∃ look, o.CreateLookupTable fuel = some { o with fLook := look }
      ∧ ∀ i j k, o.InRange i j k →
        look (o.flat i j k 1 0) = (o.straight (o.nodePos i j k)).x
          ∧ look (o.flat i j k 1 1) = (o.straight (o.nodePos i j k)).y
          ∧ look (o.flat i j k 1 2) = (o.straight (o.nodePos i j k)).z := by
  have hsome : ∀ x0 : Vec3, x0.z ≠ 0 → (o.CalculateDistortion fuel x0).isSome :=
    CalculateDistortion_uniform_isSome o b hb hv hn fuel hf
  have hnode : ∀ i j k, (o.nodePos i j k).z ≠ 0 := fun i j k => (o.nodePos_z_pos i j k).ne'
  have hneg : ∀ i j k, (negZ (o.nodePos i j k)).z ≠ 0 := by
    intro i j k
    show -(o.nodePos i j k).z ≠ 0
    exact neg_ne_zero.mpr (hnode i j k)
  obtain ⟨look, hl, hok⟩ := fillTable_spec o fuel
    (fun i j k _ => ⟨hsome _ (hnode i j k), hsome _ (hneg i j k)⟩)
  refine ⟨look, by simp [CreateLookupTable, hl], ?_⟩
  intro i j k hR
  have hd1 : o.CalculateDistortion fuel (o.nodePos i j k)
      = some (o.straight (o.nodePos i j k)) := by
    by_cases h250 : (o.nodePos i j k).z < 250
    · exact CalculateDistortion_uniform_pos o b hb hv hn fuel _ (o.nodePos_z_pos i j k) h250 hf
    · have e : (o.nodePos i j k).z = 250 := le_antisymm (hzmax i j k hR) (not_lt.mp h250)
      have hfar : 250 ≤ |(o.nodePos i j k).z| := by
        rw [e]
        norm_num
      rw [(CalculateDistortion_far o fuel _ hfar).2.2]
      unfold straight
      rw [e]
      cases hnp : o.nodePos i j k with
      | mk px py pz =>
        rw [hnp] at e
        simp only at e
        subst e
        simp
  have h1 := hok i j k hR 1 (Or.inr rfl)
  rw [nodeDist_pos o fuel i j k _ hd1] at h1
  exact h1

end AliTPCExBExact

namespace AliTPCExBExact

/-- Interpolation in a table whose positive side holds the straight-line results: at a
position on the positive side beyond the first cell in `z`, the interpolated vector is
the straight-line result of the position itself. -/
theorem interp_straight (o : AliTPCExBExact)
    (hx : 2 ≤ o.fkNX) (hy : 2 ≤ o.fkNY) (hz : 2 ≤ o.fkNZ)
    (hX : o.fkXMin ≠ o.fkXMax) (hY : o.fkYMin ≠ o.fkYMax) (hZ : 0 < o.fkZMax)
    (hd : 0.0001 ≤ 1 * o.fkZMax / ((o.fkNZ - 1 : ℤ) : ℚ))
    (hT : ∀ i j k, o.InRange i j k →
      o.fLook (o.flat i j k 1 0) = (o.straight (o.nodePos i j k)).x
        ∧ o.fLook (o.flat i j k 1 1) = (o.straight (o.nodePos i j k)).y
        ∧ o.fLook (o.flat i j k 1 2) = (o.straight (o.nodePos i j k)).z)
    (q : Vec3) (hq : 0 < q.z) (h1 : 1 ≤ o.zi1 q) :
    o.interp q 0 = (o.straight q).x ∧ o.interp q 1 = (o.straight q).y
      ∧ o.interp q 2 = (o.straight q).z := by
  have hc := corners_inRange o q hx hy hz
  have hs1 : o.side q = 1 := by rw [o.side_eq_sign q hZ hz, if_pos hq]
  have hgz := o.gz_eq_abs q hZ hz
  have hN : ((o.fkNZ - 1 : ℤ) : ℚ) = (o.fkNZ : ℚ) - 1 := by push_cast; ring
  have hN0 : (0 : ℚ) < (o.fkNZ : ℚ) - 1 := by
    have : (2 : ℚ) ≤ (o.fkNZ : ℚ) := by exact_mod_cast hz
    linarith
  have hdz : 1 * o.fkZMax / ((o.fkNZ - 1 : ℤ) : ℚ) * o.gz q = q.z := by
    rw [hgz, hN, abs_of_pos hq]
    have h1 := hZ.ne'
    have h2 := hN0.ne'
    field_simp
    ring
  have hgx := nodeX_gx o q hX hx
  have hgy := nodeY_gy o q hY hy
  -- the node heights of the corners
  have hnode : ∀ i j k, (k = o.zi1 q ∨ k = o.zi1 q + 1) →
      (o.nodePos i j k).z = 1 * o.fkZMax / ((o.fkNZ - 1 : ℤ) : ℚ) * (k : ℚ) := by
    intro i j k hk
    have hk1 : (1 : ℚ) ≤ (k : ℚ) := by
      have : (1 : ℤ) ≤ k := by rcases hk with rfl | rfl <;> omega
      exact_mod_cast this
    show max (0.0001 : ℚ) _ = _
    apply max_eq_right
    have hpos : (0 : ℚ) ≤ 1 * o.fkZMax / ((o.fkNZ - 1 : ℤ) : ℚ) := by linarith
    nlinarith
  have hnx : ∀ i j k, (o.nodePos i j k).x
      = o.fkXMin + (o.fkXMax - o.fkXMin) / ((o.fkNX - 1 : ℤ) : ℚ) * (i : ℚ) := fun _ _ _ => rfl
  have hny : ∀ i j k, (o.nodePos i j k).y
      = o.fkYMin + (o.fkYMax - o.fkYMin) / ((o.fkNY - 1 : ℤ) : ℚ) * (j : ℚ) := fun _ _ _ => rfl
  simp only [interp_eq_tri, hs1]
  refine ⟨?_, ?_, ?_⟩
  · rw [tri_congr _ (fun i j k => (o.fkXMin - 250 * o.driftVec.x / o.driftVec.z)
        + (o.fkXMax - o.fkXMin) / ((o.fkNX - 1 : ℤ) : ℚ) * (i : ℚ) + 0 * (j : ℚ)
        + (1 * o.fkZMax / ((o.fkNZ - 1 : ℤ) : ℚ) * o.driftVec.x / o.driftVec.z) * (k : ℚ))
        _ _ _ _ _ _ ?_, tri_affine]
    · simp only [straight]
      linear_combination hgx + (o.driftVec.x / o.driftVec.z) * hdz
    · intro i j k hi hj hk
      rw [(hT i j k (hc i j k hi hj hk)).1]
      simp only [straight]
      rw [hnx, hnode i j k hk]
      ring
  · rw [tri_congr _ (fun i j k => (o.fkYMin - 250 * o.driftVec.y / o.driftVec.z)
        + 0 * (i : ℚ) + (o.fkYMax - o.fkYMin) / ((o.fkNY - 1 : ℤ) : ℚ) * (j : ℚ)
        + (1 * o.fkZMax / ((o.fkNZ - 1 : ℤ) : ℚ) * o.driftVec.y / o.driftVec.z) * (k : ℚ))
        _ _ _ _ _ _ ?_, tri_affine]
    · simp only [straight]
      linear_combination hgy + (o.driftVec.y / o.driftVec.z) * hdz
    · intro i j k hi hj hk
      rw [(hT i j k (hc i j k hi hj hk)).2.1]
      simp only [straight]
      rw [hny, hnode i j k hk]
      ring
  · rw [tri_congr _ (fun i j k => (250 - 250 * o.fDriftVelocity / o.driftVec.z)
        + 0 * (i : ℚ) + 0 * (j : ℚ)
        + (1 * o.fkZMax / ((o.fkNZ - 1 : ℤ) : ℚ) * o.fDriftVelocity / o.driftVec.z)
          * (k : ℚ)) _ _ _ _ _ _ ?_, tri_affine]
    · simp only [straight]
      linear_combination (o.fDriftVelocity / o.driftVec.z) * hdz
    · intro i j k hi hj hk
      rw [(hT i j k (hc i j k hi hj hk)).2.2]
      simp only [straight]
      rw [hnode i j k hk]
      ring

theorem straight_forward (o : AliTPCExBExact) (p : Vec3) :
    o.straight (o.forward p)
      = ⟨p.x + (250 - p.z) * (1 - o.fDriftVelocity / o.driftVec.z)
            * (o.driftVec.x / o.driftVec.z),
         p.y + (250 - p.z) * (1 - o.fDriftVelocity / o.driftVec.z)
            * (o.driftVec.y / o.driftVec.z),
         250 - (250 - p.z) * (o.fDriftVelocity / o.driftVec.z) ^ 2⟩ := by
  simp only [straight, forward, Vec3.mk.injEq]
  refine ⟨?_, ?_, ?_⟩ <;> ring

end AliTPCExBExact

namespace AliTPCExBExact

/-- The round trip through the corrector of the analytic-field constructor in a uniform
field: the construction succeeds, the forward distortion of a point with
`0 < z < 250` is the end of its straight line, and `Correct` maps an in-volume forward
distortion beyond the first cell in `z` to its own straight-line result. -/
theorem construct_round_trip (b : Vec3) (v : ℚ) (hv : 0 < v) (nx ny nz n : ℤ)
    (hn : 1 ≤ n) (hnx : 2 ≤ nx) (hny : 2 ≤ ny) (hnz : 3 ≤ nz) (hsp : nz ≤ 2500001)
    (zmin : ℚ) (look : ℤ → ℚ) (fuel : ℕ)
    (hf : 250 * 0.01 ≤ fuel * ((init (fun _ => b) v nx ny nz n zmin look).stepSize
      * (init (fun _ => b) v nx ny nz n zmin look).driftVec.z)) :
    ∃ o, construct (fun _ => b) v nx ny nz n zmin look fuel = some o
      ∧ o.fDriftVelocity = v
      ∧ o.driftVec = (init (fun _ => b) v nx ny nz n zmin look).driftVec
      ∧ ∀ (Sqrt : ℚ → ℚ) (p : Vec3), 0 < p.z → p.z < 250 →
          ∃ s, whileLoop o o.stepSize fuel (initState p) = some s
            ∧ o.crossing p s = o.forward p
            ∧ (¬ outside Sqrt (o.forward p) → 250 ≤ (o.forward p).z * ((nz : ℚ) - 1) →
                o.Correct Sqrt (o.forward p) = o.straight (o.forward p)) := by
  have hN0 : (2 : ℚ) ≤ (nz : ℚ) - 1 := by
    have : (3 : ℚ) ≤ (nz : ℚ) := by exact_mod_cast hnz
    linarith
  have hN1 : (nz : ℚ) - 1 ≤ 2500000 := by
    have : (nz : ℚ) ≤ 2500001 := by exact_mod_cast hsp
    linarith
  have hd : (0.0001 : ℚ) ≤ 1 * 250 / ((nz - 1 : ℤ) : ℚ) := by
    push_cast
    rw [le_div_iff₀ (by linarith)]
    linarith
  have hzmax : ∀ i j k, (init (fun _ => b) v nx ny nz n zmin look).InRange i j k →
      ((init (fun _ => b) v nx ny nz n zmin look).nodePos i j k).z ≤ 250 := by
    intro i j k hR
    have hk : (k : ℚ) ≤ (nz : ℚ) - 1 := by
      have : k ≤ nz - 1 := by
        have := hR.2.2.2
        show k ≤ nz - 1
        have h' : k < nz := this
        omega
      exact_mod_cast this
    have hk0 : (0 : ℚ) ≤ (k : ℚ) := by exact_mod_cast hR.2.2.1
    show max (0.0001 : ℚ) (1 * 250 / ((nz - 1 : ℤ) : ℚ) * (k : ℚ)) ≤ 250
    apply max_le (by norm_num)
    push_cast
    rw [div_mul_eq_mul_div, div_le_iff₀ (by linarith)]
    nlinarith
  obtain ⟨lk, hl, hT⟩ := CreateLookupTable_uniform_pos
    (init (fun _ => b) v nx ny nz n zmin look) b (fun _ => rfl) hv hn fuel hf hzmax
  refine ⟨_, hl, rfl, rfl, ?_⟩
  intro Sqrt p hp0 hp1
  obtain ⟨s, hs, hcr⟩ := crossing_uniform_pos
    { init (fun _ => b) v nx ny nz n zmin look with fLook := lk } b (fun _ => rfl) hv hn
    fuel p hp0 hp1 hf
  refine ⟨s, hs, hcr, ?_⟩
  intro hin hbeyond
  have hq : 0 < (forward { init (fun _ => b) v nx ny nz n zmin look with fLook := lk } p).z := by
    by_contra hneg
    have := mul_nonpos_of_nonpos_of_nonneg (not_lt.mp hneg) (by linarith : (0 : ℚ) ≤ (nz : ℚ) - 1)
    linarith
  have hgz : ({ init (fun _ => b) v nx ny nz n zmin look with fLook := lk }
      : AliTPCExBExact).gz
        (forward { init (fun _ => b) v nx ny nz n zmin look with fLook := lk } p)
      = (forward { init (fun _ => b) v nx ny nz n zmin look with fLook := lk } p).z
          * ((nz : ℚ) - 1) / 250 := by
    rw [gz_eq_abs _ _ (by norm_num [init]) (by omega : (2 : ℤ) ≤ nz), abs_of_pos hq]
    show _ / 250 * ((nz : ℚ) - 1) = _
    ring
  have hzi : 1 ≤ ({ init (fun _ => b) v nx ny nz n zmin look with fLook := lk }
      : AliTPCExBExact).zi1
        (forward { init (fun _ => b) v nx ny nz n zmin look with fLook := lk } p) := by
    apply zi1_pos_of_gz _ _ hnz
    rw [hgz, le_div_iff₀ (by norm_num)]
    linarith
  obtain ⟨i0, i1, i2⟩ := interp_straight
    { init (fun _ => b) v nx ny nz n zmin look with fLook := lk }
    hnx hny (by omega : (2 : ℤ) ≤ nz) (by norm_num [init]) (by norm_num [init])
    (by norm_num [init]) hd hT _ hq hzi
  unfold Correct
  rw [if_neg hin]
  cases hst : straight { init (fun _ => b) v nx ny nz n zmin look with fLook := lk }
      (forward { init (fun _ => b) v nx ny nz n zmin look with fLook := lk } p) with
  | mk sx sy sz =>
    rw [hst] at i0 i1 i2
    simp only at i0 i1 i2
    rw [i0, i1, i2]

end AliTPCExBExact

namespace AliTPCExBExact

theorem transverse_driftVec (nx ny nz n : ℤ) (zmin : ℚ) (look : ℤ → ℚ) :
    (init (fun _ => ⟨10, 0, 0⟩) 40000 nx ny nz n zmin look).driftVec
      = ⟨0, 20000, 20000⟩ := by
  simp only [driftVec, Motion, GetE, GetB, init, fgkEM, fgkDriftField]
  norm_num

/-- C14, counterexample: in a transverse field of 1 T (drift velocity `40000`, one
nominal step) on a `101×101×101` grid, whose cells measure `5 × 5 × 2.5` cm, the point
`p = (120, 0, 200)` has the in-volume forward-distorted position `(120, 50, 150)`, which
`Correct` maps to `(120, -50, 50)`: `50` cm from `p` in `y`, ten grid cells, and further
still in `z`. -/
theorem round_trip_not_grid_bounded :
    ∃ o s, construct (fun _ => ⟨10, 0, 0⟩) 40000 101 101 101 1 0 zeroLook 2 = some o
      ∧ whileLoop o o.stepSize 2 (initState ⟨120, 0, 200⟩) = some s
      ∧ o.crossing ⟨120, 0, 200⟩ s = ⟨120, 50, 150⟩
      ∧ ¬ outside sqrtFloor ⟨120, 50, 150⟩
      ∧ o.Correct sqrtFloor ⟨120, 50, 150⟩ = ⟨120, -50, 50⟩
      ∧ (o.fkXMax - o.fkXMin) / ((o.fkNX : ℚ) - 1) = 5
      ∧ (o.fkYMax - o.fkYMin) / ((o.fkNY : ℚ) - 1) = 5
      ∧ o.fkZMax / ((o.fkNZ : ℚ) - 1) = 2.5
      ∧ (5 : ℚ) < |(-50 : ℚ) - 0| ∧ (2.5 : ℚ) < |(50 : ℚ) - 200| := by
  have hV := transverse_driftVec 101 101 101 1 0 zeroLook
  have hh : (init (fun _ => ⟨10, 0, 0⟩) 40000 101 101 101 1 0 zeroLook).stepSize
      = 1 / 16000 := by norm_num [stepSize, init]
  obtain ⟨o, ho, hov, hoV, hrt⟩ := construct_round_trip ⟨10, 0, 0⟩ 40000 (by norm_num)
    101 101 101 1 (by norm_num) (by norm_num) (by norm_num) (by norm_num) (by norm_num)
    0 zeroLook 2 (by rw [hV, hh]; norm_num)
  rw [hV] at hoV
  have hin : ¬ outside sqrtFloor ⟨120, 50, 150⟩ := by
    have h := sqrtFloor_sq 130
    have e : (120 : ℚ) * 120 + 50 * 50 = ((130 : ℕ) : ℚ) * ((130 : ℕ) : ℚ) := by norm_num
    unfold outside
    simp only [e, h]
    norm_num [abs_of_pos]
  have hfw : o.forward ⟨120, 0, 200⟩ = ⟨120, 50, 150⟩ := by
    simp only [forward, hoV, hov, Vec3.mk.injEq]
    norm_num
  have hst : o.straight ⟨120, 50, 150⟩ = ⟨120, -50, 50⟩ := by
    simp only [straight, hoV, hov, Vec3.mk.injEq]
    norm_num
  obtain ⟨s, hs, hcr, hco⟩ := hrt sqrtFloor ⟨120, 0, 200⟩ (by norm_num) (by norm_num)
  rw [hfw] at hcr hco
  have hc := hco hin (by norm_num)
  rw [hst] at hc
  have hgrid : o.fkNX = 101 ∧ o.fkNY = 101 ∧ o.fkNZ = 101 ∧ o.fkXMin = -250
      ∧ o.fkXMax = 250 ∧ o.fkYMin = -250 ∧ o.fkYMax = 250 ∧ o.fkZMax = 250 := by
    unfold construct CreateLookupTable at ho
    obtain ⟨lk, -, rfl⟩ := Option.map_eq_some'.mp ho
    exact ⟨rfl, rfl, rfl, rfl, rfl, rfl, rfl, rfl⟩
  obtain ⟨g1, g2, g3, g4, g5, g6, g7, g8⟩ := hgrid
  refine ⟨o, s, ho, hs, hcr, hin, hc, ?_, ?_, ?_, ?_, ?_⟩
  · rw [g1, g4, g5]; norm_num
  · rw [g2, g6, g7]; norm_num
  · rw [g3, g8]; norm_num
  · norm_num [abs_of_neg]
  · norm_num [abs_of_neg]

end AliTPCExBExact

namespace AliTPCExBExact

/-! ### Interpolation at a grid node -/

theorem toInt_intCast (i : ℤ) : toInt (i : ℚ) = i := by
  unfold toInt
  split_ifs
  · exact Int.floor_intCast i
  · exact Int.ceil_intCast i

/-- The clamped lower index of a node index is the index itself or its predecessor. -/
theorem clamp_node (i N : ℤ) (hN : 2 ≤ N) (h0 : 0 ≤ i) (h1 : i ≤ N - 1) :
    i = max (min (toInt (i : ℚ)) (N - 2)) 0 ∨ i = max (min (toInt (i : ℚ)) (N - 2)) 0 + 1 := by
  rw [toInt_intCast]
  omega

/-- The eight-corner sum evaluated at one of the corners is the value at that corner. -/
theorem tri_node (f : ℤ → ℤ → ℤ → ℚ) (a b c i j k : ℤ)
    (hi : i = a ∨ i = a + 1) (hj : j = b ∨ j = b + 1) (hk : k = c ∨ k = c + 1) :
    tri f a b c (i : ℚ) (j : ℚ) (k : ℚ) = f i j k := by
  rcases hi with rfl | rfl <;> rcases hj with rfl | rfl <;> rcases hk with rfl | rfl <;>
    (unfold tri; push_cast; ring)

theorem gx_node (o : AliTPCExBExact) (p : Vec3) (i : ℤ) (hX : o.fkXMin ≠ o.fkXMax)
    (hN : 2 ≤ o.fkNX)
    (hp : p.x = o.fkXMin + (o.fkXMax - o.fkXMin) / ((o.fkNX : ℚ) - 1) * i) :
    o.gx p = i := by
  have h1 : o.fkXMax - o.fkXMin ≠ 0 := sub_ne_zero.mpr (Ne.symm hX)
  have h2 : (o.fkNX : ℚ) - 1 ≠ 0 := by
    have : (o.fkNX - 1 : ℤ) ≠ 0 := by omega
    exact_mod_cast this
  unfold gx
  rw [hp]
  push_cast
  field_simp
  ring

theorem gy_node (o : AliTPCExBExact) (p : Vec3) (j : ℤ) (hY : o.fkYMin ≠ o.fkYMax)
    (hN : 2 ≤ o.fkNY)
    (hp : p.y = o.fkYMin + (o.fkYMax - o.fkYMin) / ((o.fkNY : ℚ) - 1) * j) :
    o.gy p = j := by
  have h1 : o.fkYMax - o.fkYMin ≠ 0 := sub_ne_zero.mpr (Ne.symm hY)
  have h2 : (o.fkNY : ℚ) - 1 ≠ 0 := by
    have : (o.fkNY - 1 : ℤ) ≠ 0 := by omega
    exact_mod_cast this
  unfold gy
  rw [hp]
  push_cast
  field_simp
  ring

theorem gz_node (o : AliTPCExBExact) (p : Vec3) (k : ℤ) (hZ : 0 < o.fkZMax)
    (hN : 2 ≤ o.fkNZ) (hp : |p.z| = o.fkZMax / ((o.fkNZ : ℚ) - 1) * k) :
    o.gz p = k := by
  have h1 := hZ.ne'
  have h2 : (o.fkNZ : ℚ) - 1 ≠ 0 := by
    have : (o.fkNZ - 1 : ℤ) ≠ 0 := by omega
    exact_mod_cast this
  rw [gz_eq_abs o p hZ hN, hp]
  field_simp
  ring

/-- Interpolation at a position that coincides with the grid node `(i,j,k)`, `k ≥ 1`:
the value is the table entry of that node on the side of the position. -/
theorem interp_at_node (o : AliTPCExBExact) (p : Vec3) (i j k : ℤ)
    (hx : 2 ≤ o.fkNX) (hy : 2 ≤ o.fkNY) (hz : 2 ≤ o.fkNZ)
    (hX : o.fkXMin ≠ o.fkXMax) (hY : o.fkYMin ≠ o.fkYMax) (hZ : 0 < o.fkZMax)
    (hi : 0 ≤ i ∧ i ≤ o.fkNX - 1) (hj : 0 ≤ j ∧ j ≤ o.fkNY - 1)
    (hk : 0 ≤ k ∧ k ≤ o.fkNZ - 1)
    (hpx : p.x = o.fkXMin + (o.fkXMax - o.fkXMin) / ((o.fkNX : ℚ) - 1) * i)
    (hpy : p.y = o.fkYMin + (o.fkYMax - o.fkYMin) / ((o.fkNY : ℚ) - 1) * j)
    (hpz : |p.z| = o.fkZMax / ((o.fkNZ : ℚ) - 1) * k) (c : ℤ) :
    o.interp p c = o.fLook (o.flat i j k (if p.z > 0 then 1 else 0) c) := by
  have egx := gx_node o p i hX hx hpx
  have egy := gy_node o p j hY hy hpy
  have egz := gz_node o p k hZ hz hpz
  have cx : i = o.xi1 p ∨ i = o.xi1 p + 1 := by
    unfold xi1
    rw [egx]
    exact clamp_node i o.fkNX hx hi.1 hi.2
  have cy : j = o.yi1 p ∨ j = o.yi1 p + 1 := by
    unfold yi1
    rw [egy]
    exact clamp_node j o.fkNY hy hj.1 hj.2
  have cz : k = o.zi1 p ∨ k = o.zi1 p + 1 := by
    unfold zi1
    rw [egz]
    exact clamp_node k o.fkNZ hz hk.1 hk.2
  rw [interp_eq_tri, egx, egy, egz,
    tri_node (fun a b c' => o.fLook (o.flat a b c' (o.side p) c)) _ _ _ i j k cx cy cz,
    o.side_eq_sign p hZ hz]

/-- C23. Interpolation reproduces node values: on a grid with at least two nodes per
axis, `XMin < XMax`, `YMin < YMax` and `ZMax > 0`, for an in-volume position that
coincides with the grid node `(i,j,k)`, `k ≥ 1` (the last index of an axis included,
where the lower index is clamped to `N-2`), `Correct` returns the three table entries
of node `(i,j,k)` on side `1` if `z > 0` and side `0` if `z < 0`. -/
theorem Correct_at_node (o : AliTPCExBExact) (Sqrt : ℚ → ℚ) (p : Vec3) (i j k : ℤ)
    (hx : 2 ≤ o.fkNX) (hy : 2 ≤ o.fkNY) (hz : 2 ≤ o.fkNZ)
    (hX : o.fkXMin < o.fkXMax) (hY : o.fkYMin < o.fkYMax) (hZ : 0 < o.fkZMax)
    (hi : 0 ≤ i ∧ i ≤ o.fkNX - 1) (hj : 0 ≤ j ∧ j ≤ o.fkNY - 1)
    (hk : 1 ≤ k ∧ k ≤ o.fkNZ - 1) (hin : ¬ outside Sqrt p)
    (hpx : p.x = o.fkXMin + (o.fkXMax - o.fkXMin) / ((o.fkNX : ℚ) - 1) * i)
    (hpy : p.y = o.fkYMin + (o.fkYMax - o.fkYMin) / ((o.fkNY : ℚ) - 1) * j)
    (hpz : |p.z| = o.fkZMax / ((o.fkNZ : ℚ) - 1) * k) :
    p.z ≠ 0
      ∧ o.Correct Sqrt p
        = ⟨o.fLook (o.flat i j k (if p.z > 0 then 1 else 0) 0),
           o.fLook (o.flat i j k (if p.z > 0 then 1 else 0) 1),
           o.fLook (o.flat i j k (if p.z > 0 then 1 else 0) 2)⟩ := by
  have hk' : 0 ≤ k ∧ k ≤ o.fkNZ - 1 := ⟨by omega, hk.2⟩
  have key := interp_at_node o p i j k hx hy hz hX.ne hY.ne hZ hi hj hk' hpx hpy hpz
  constructor
  · have hN0 : (0 : ℚ) < (o.fkNZ : ℚ) - 1 := by
      have : (2 : ℚ) ≤ (o.fkNZ : ℚ) := by exact_mod_cast hz
      linarith
    have hk1 : (0 : ℚ) < (k : ℚ) := by
      have : (0 : ℤ) < k := by omega
      exact_mod_cast this
    have : 0 < |p.z| := by
      rw [hpz]
      positivity
    exact abs_pos.mp this
  · unfold Correct
    rw [if_neg hin, key 0, key 1, key 2]

/-- Witness for `Correct_at_node`: on the `3×4×5` sample grid, the in-volume position
`(0, 250, -125)` is the node `(1, 3, 2)`, whose `y` index is the last one. -/
theorem Correct_at_node_witness :
    (-125 : ℚ) ≠ 0
      ∧ sampleGrid.Correct sqrtFloor ⟨0, 250, -125⟩
        = ⟨sampleGrid.fLook (sampleGrid.flat 1 3 2 (if (-125 : ℚ) > 0 then 1 else 0) 0),
           sampleGrid.fLook (sampleGrid.flat 1 3 2 (if (-125 : ℚ) > 0 then 1 else 0) 1),
           sampleGrid.fLook (sampleGrid.flat 1 3 2 (if (-125 : ℚ) > 0 then 1 else 0) 2)⟩ :=
  Correct_at_node sampleGrid sqrtFloor ⟨0, 250, -125⟩ 1 3 2
    (by simp [sampleGrid, init]) (by simp [sampleGrid, init]) (by simp [sampleGrid, init])
    (by norm_num [sampleGrid, init]) (by norm_num [sampleGrid, init])
    (by norm_num [sampleGrid, init]) (by simp [sampleGrid, init])
    (by simp [sampleGrid, init]) (by simp [sampleGrid, init])
    (by
      have h := sqrtFloor_sq 250
      have e : (0 : ℚ) * 0 + 250 * 250 = ((250 : ℕ) : ℚ) * ((250 : ℕ) : ℚ) := by norm_num
      unfold outside
      simp only [e, h]
      norm_num [abs_of_neg])
    (by norm_num [sampleGrid, init]) (by norm_num [sampleGrid, init])
    (by norm_num [sampleGrid, init, abs_of_neg])

end AliTPCExBExact

namespace AliTPCExBExact

/-! ### The drift speed -/

theorem tau_times_field (o : AliTPCExBExact) :
    o.tauOf * (fgkEM * fgkDriftField) = o.fDriftVelocity := by
  have hE := fgkEM_pos.ne'
  have hD := fgkDriftField_pos.ne'
  unfold tauOf
  rw [div_div, mul_comm fgkEM fgkDriftField]
  exact div_mul_cancel₀ _ (mul_ne_zero hD hE)

theorem omega_den_pos (o : AliTPCExBExact) (x : Vec3) :
    0 < 1 + ((o.omega x).x ^ 2 + (o.omega x).y ^ 2 + (o.omega x).z ^ 2) * o.tauOf ^ 2 := by
  have := mul_nonneg (add_nonneg (add_nonneg (sq_nonneg (o.omega x).x)
    (sq_nonneg (o.omega x).y)) (sq_nonneg (o.omega x).z)) (sq_nonneg o.tauOf)
  linarith

/-- The components of `Motion`, with the vanishing `ex`, `ey` terms removed. -/
theorem Motion_components (o : AliTPCExBExact) (x : Vec3) (t : ℚ) :
    (o.Motion x t).x
        = (-(o.omega x).y * o.tauOf + (o.omega x).x * (o.omega x).z * o.tauOf ^ 2)
          * (fgkEM * (GetE x).z)
          * (o.tauOf / (1 + ((o.omega x).x ^ 2 + (o.omega x).y ^ 2 + (o.omega x).z ^ 2)
              * o.tauOf ^ 2))
      ∧ (o.Motion x t).y
        = ((o.omega x).x * o.tauOf + (o.omega x).y * (o.omega x).z * o.tauOf ^ 2)
          * (fgkEM * (GetE x).z)
          * (o.tauOf / (1 + ((o.omega x).x ^ 2 + (o.omega x).y ^ 2 + (o.omega x).z ^ 2)
              * o.tauOf ^ 2))
      ∧ (o.Motion x t).z
        = (1 + (o.omega x).z ^ 2 * o.tauOf ^ 2) * (fgkEM * (GetE x).z)
          * (o.tauOf / (1 + ((o.omega x).x ^ 2 + (o.omega x).y ^ 2 + (o.omega x).z ^ 2)
              * o.tauOf ^ 2)) := by
  have e : ∀ a b c τ : ℚ, (a * a + b * b + c * c) * (τ * τ) = (a ^ 2 + b ^ 2 + c ^ 2) * τ ^ 2 := by
    intro a b c τ
    ring
  simp only [Motion, GetE, omega, tauOf, e]
  refine ⟨?_, ?_, ?_⟩ <;> ring

theorem GetE_z_sq (x : Vec3) : (GetE x).z ^ 2 = fgkDriftField ^ 2 := by
  unfold GetE
  split_ifs <;> ring

/-- The squared speed returned by `Motion`. -/
theorem Motion_norm_sq (o : AliTPCExBExact) (x : Vec3) (t : ℚ) :
    (o.Motion x t).x ^ 2 + (o.Motion x t).y ^ 2 + (o.Motion x t).z ^ 2
      = o.fDriftVelocity ^ 2 * (1 + (o.omega x).z ^ 2 * o.tauOf ^ 2)
          / (1 + ((o.omega x).x ^ 2 + (o.omega x).y ^ 2 + (o.omega x).z ^ 2)
              * o.tauOf ^ 2) := by
  obtain ⟨hx, hy, hz⟩ := Motion_components o x t
  have hden := (omega_den_pos o x).ne'
  have hv := tau_times_field o
  have hE := GetE_z_sq x
  rw [hx, hy, hz, ← hv]
  generalize o.tauOf = τ at *
  generalize (o.omega x).x = wx at *
  generalize (o.omega x).y = wy at *
  generalize (o.omega x).z = wz at *
  generalize (GetE x).z = ez at *
  have key : ((-wy * τ + wx * wz * τ ^ 2) * (fgkEM * ez)
          * (τ / (1 + (wx ^ 2 + wy ^ 2 + wz ^ 2) * τ ^ 2))) ^ 2
        + ((wx * τ + wy * wz * τ ^ 2) * (fgkEM * ez)
          * (τ / (1 + (wx ^ 2 + wy ^ 2 + wz ^ 2) * τ ^ 2))) ^ 2
        + ((1 + wz ^ 2 * τ ^ 2) * (fgkEM * ez)
          * (τ / (1 + (wx ^ 2 + wy ^ 2 + wz ^ 2) * τ ^ 2))) ^ 2
      = (τ * fgkEM) ^ 2 * ez ^ 2 * (1 + wz ^ 2 * τ ^ 2)
          / (1 + (wx ^ 2 + wy ^ 2 + wz ^ 2) * τ ^ 2) := by
    field_simp
    ring
  rw [key, hE]
  ring

end AliTPCExBExact

namespace AliTPCExBExact

theorem Motion_norm_le (o : AliTPCExBExact) (x : Vec3) (t : ℚ) :
    (o.Motion x t).x ^ 2 + (o.Motion x t).y ^ 2 + (o.Motion x t).z ^ 2
      ≤ o.fDriftVelocity ^ 2 := by
  rw [Motion_norm_sq, div_le_iff₀ (omega_den_pos o x)]
  have h := mul_nonneg (sq_nonneg o.fDriftVelocity)
    (mul_nonneg (add_nonneg (sq_nonneg (o.omega x).x) (sq_nonneg (o.omega x).y))
      (sq_nonneg o.tauOf))
  linarith

theorem Motion_norm_eq_iff (o : AliTPCExBExact) (x : Vec3) (t : ℚ) :
    (o.Motion x t).x ^ 2 + (o.Motion x t).y ^ 2 + (o.Motion x t).z ^ 2
        = o.fDriftVelocity ^ 2
      ↔ o.fDriftVelocity = 0 ∨ ((o.GetB x).x = 0 ∧ (o.GetB x).y = 0) := by
  have hE := fgkEM_pos.ne'
  have hv := tau_times_field o
  have hwx : (o.omega x).x = fgkEM * (o.GetB x).x := rfl
  have hwy : (o.omega x).y = fgkEM * (o.GetB x).y := rfl
  rw [Motion_norm_sq, div_eq_iff (omega_den_pos o x).ne']
  constructor
  · intro h
    have h0 : o.fDriftVelocity ^ 2
        * (((o.omega x).x ^ 2 + (o.omega x).y ^ 2) * o.tauOf ^ 2) = 0 := by
      linear_combination -h
    rcases mul_eq_zero.mp h0 with h1 | h1
    · exact Or.inl ((pow_eq_zero_iff (two_ne_zero)).mp h1)
    · rcases mul_eq_zero.mp h1 with h2 | h2
      · right
        have hx2 : (o.omega x).x ^ 2 = 0 := by
          have := sq_nonneg (o.omega x).x
          have := sq_nonneg (o.omega x).y
          linarith
        have hy2 : (o.omega x).y ^ 2 = 0 := by
          have := sq_nonneg (o.omega x).x
          have := sq_nonneg (o.omega x).y
          linarith
        have hx0 := (pow_eq_zero_iff (two_ne_zero)).mp hx2
        have hy0 := (pow_eq_zero_iff (two_ne_zero)).mp hy2
        rw [hwx] at hx0
        rw [hwy] at hy0
        exact ⟨(mul_eq_zero.mp hx0).resolve_left hE, (mul_eq_zero.mp hy0).resolve_left hE⟩
      · left
        have ht := (pow_eq_zero_iff (two_ne_zero)).mp h2
        rw [← hv, ht, zero_mul]
  · rintro (h | ⟨h1, h2⟩)
    · rw [h]
      ring
    · rw [hwx, hwy, h1, h2]
      ring

theorem GetE_z_cases (x : Vec3) :
    (x.z < 0 → (GetE x).z = -fgkDriftField) ∧ (¬ x.z < 0 → (GetE x).z = fgkDriftField) := by
  constructor
  · intro h
    simp only [GetE, if_pos h]
    ring
  · intro h
    simp only [GetE, if_neg h]
    ring

/-- An Euler step of positive size moves the point away from the cathode. -/
theorem DGLStep_abs_z (o : AliTPCExBExact) (hv : 0 < o.fDriftVelocity) (x : Vec3) (t h : ℚ)
    (hh : 0 < h) : |x.z| < |(o.DGLStep x t h).z| := by
  have hs := Motion_z_sign o hv x t
  have e : (o.DGLStep x t h).z = x.z + h * (o.Motion x t).z := rfl
  rw [e]
  by_cases hz : x.z < 0
  · have hm := mul_neg_of_pos_of_neg hh (hs.1 hz)
    rw [abs_of_neg hz, abs_of_neg (by linarith)]
    linarith
  · have hm := mul_pos hh (hs.2 hz)
    rw [abs_of_nonneg (not_lt.mp hz), abs_of_pos (by linarith [not_lt.mp hz])]
    linarith

end AliTPCExBExact

namespace AliTPCExBExact

/-- C21. Speed bound of `Motion`: at every point, for every field value and every drift
velocity `v`, the returned vector has squared length
`v² (1 + wz² τ²) / (1 + |w|² τ²)`, which is at most `v²`, with equality exactly when
`v = 0` or `Bx = By = 0`. For `v > 0` its `z` component is non-zero and has the sign of
`E_z`, so an Euler step of any positive size strictly increases `|z|`; the step size of
`CalculateDistortion` is such a size when `fkN ≥ 1`. -/
theorem Motion_speed_bound (o : AliTPCExBExact) (x : Vec3) (t : ℚ) :
    ((o.Motion x t).x ^ 2 + (o.Motion x t).y ^ 2 + (o.Motion x t).z ^ 2
        = o.fDriftVelocity ^ 2 * (1 + (o.omega x).z ^ 2 * o.tauOf ^ 2)
            / (1 + ((o.omega x).x ^ 2 + (o.omega x).y ^ 2 + (o.omega x).z ^ 2)
                * o.tauOf ^ 2))
      ∧ ((o.Motion x t).x ^ 2 + (o.Motion x t).y ^ 2 + (o.Motion x t).z ^ 2
          ≤ o.fDriftVelocity ^ 2)
      ∧ ((o.Motion x t).x ^ 2 + (o.Motion x t).y ^ 2 + (o.Motion x t).z ^ 2
            = o.fDriftVelocity ^ 2
          ↔ o.fDriftVelocity = 0 ∨ ((o.GetB x).x = 0 ∧ (o.GetB x).y = 0))
      ∧ (0 < o.fDriftVelocity →
          (o.Motion x t).z ≠ 0
            ∧ 0 < (o.Motion x t).z * (GetE x).z
            ∧ (∀ h : ℚ, 0 < h → |x.z| < |(o.DGLStep x t h).z|)
            ∧ (1 ≤ o.fkN → |x.z| < |(o.DGLStep x t o.stepSize).z|)) := by
  refine ⟨Motion_norm_sq o x t, Motion_norm_le o x t, Motion_norm_eq_iff o x t, ?_⟩
  intro hv
  have hs := Motion_z_sign o hv x t
  have hE := GetE_z_cases x
  have hD := fgkDriftField_pos
  refine ⟨?_, ?_, fun h hh => DGLStep_abs_z o hv x t h hh,
    fun hn => DGLStep_abs_z o hv x t _ (stepSize_pos o hv hn)⟩
  · by_cases hz : x.z < 0
    · exact (hs.1 hz).ne
    · exact (hs.2 hz).ne'
  · by_cases hz : x.z < 0
    · rw [hE.1 hz]
      exact mul_pos_of_neg_of_neg (hs.1 hz) (by linarith)
    · rw [hE.2 hz]
      exact mul_pos (hs.2 hz) hD

theorem Motion_speed_bound_witness :
    0 < transverseX.fDriftVelocity ∧ 1 ≤ transverseX.fkN
      ∧ |(⟨0, 0, 1⟩ : Vec3).z|
          < |(transverseX.DGLStep ⟨0, 0, 1⟩ 0 transverseX.stepSize).z| :=
  ⟨by norm_num [transverseX, init], by norm_num [transverseX, init],
    ((Motion_speed_bound transverseX ⟨0, 0, 1⟩ 0).2.2.2
      (by norm_num [transverseX, init])).2.2.2 (by norm_num [transverseX, init])⟩

end AliTPCExBExact

namespace AliTPCExBExact

/-! ### Step-count independence in a uniform field -/

theorem negZ_negZ (x : Vec3) : negZ (negZ x) = x := by
  cases x
  simp [negZ]

/-- In a uniform field with enough fuel, `CalculateDistortion` returns the straight-line
end point of the specification on both sides of the cathode. -/
theorem CalculateDistortion_straightLine (o : AliTPCExBExact) (b : Vec3)
    (hb : ∀ x, o.Field x = b) (hv : 0 < o.fDriftVelocity) (hn : 1 ≤ o.fkN)
    (fuel : ℕ) (x0 : Vec3) (hz0 : 0 < |x0.z|) (hz1 : |x0.z| < 250)
    (hf : 250 * 0.01 ≤ fuel * (o.stepSize * o.driftVec.z)) :
    o.CalculateDistortion fuel x0 = some (o.straightLineSpec x0) := by
  have hV := o.driftVec_z_pos hv
  have hne : x0.z ≠ 0 := abs_pos.mp hz0
  obtain ⟨hlo, hhi⟩ := abs_lt.mp hz1
  by_cases hneg : x0.z < 0
  · have hm : o.Motion (initState x0).xt 0
        = ⟨-o.driftVec.x, -o.driftVec.y, -o.driftVec.z⟩ := by
      rw [Motion_uniform o b hb, if_pos]
      show x0.z * 0.01 < 0
      linarith
    have hy0 : 0 < (negZ x0).z := by
      show 0 < -x0.z
      linarith
    have hy1 : (negZ x0).z < 250 := by
      show -x0.z < 250
      linarith
    have hyne : (negZ x0).z ≠ 0 := hy0.ne'
    have hpos := CalculateDistortion_uniform_pos o b hb hv hn fuel (negZ x0) hy0 hy1 hf
    have hmir := CalculateDistortion_mirror o b hb hv hn fuel (negZ x0) hyne
    rw [negZ_negZ, hpos] at hmir
    rw [hmir]
    have ha : |(-1 : ℚ) * 250 - x0.z| = 250 + x0.z := by
      rw [abs_of_neg (by linarith)]
      ring
    simp only [straightLineSpec, hm, if_pos hneg, ha, abs_neg, abs_of_pos hV, Option.map_some',
      mirrorAbout, negZ, Option.some.injEq, Vec3.mk.injEq]
    refine ⟨?_, ?_, ?_⟩
    · field_simp
      ring
    · field_simp
      ring
    · field_simp
      ring
  · have hpos0 : 0 < x0.z := lt_of_le_of_ne (not_lt.mp hneg) (Ne.symm hne)
    have hm : o.Motion (initState x0).xt 0 = o.driftVec := by
      rw [Motion_uniform o b hb, if_neg]
      show ¬ x0.z * 0.01 < 0
      linarith
    have ha : |(1 : ℚ) * 250 - x0.z| = 250 - x0.z := by
      rw [abs_of_pos (by linarith)]
      ring
    rw [CalculateDistortion_uniform_pos o b hb hv hn fuel x0 hpos0 hhi hf]
    simp only [straightLineSpec, hm, if_neg hneg, ha, abs_of_pos hV, Option.some.injEq,
      Vec3.mk.injEq]
    refine ⟨?_, ?_, ?_⟩
    · field_simp
      ring
    · field_simp
      ring
    · field_simp
      ring

end AliTPCExBExact

namespace AliTPCExBExact

/-- With the step count replaced by any `n ≥ 1`, enough fuel gives the straight-line end
point of the original state, which does not depend on `n`. -/
theorem withSteps_straightLine (o : AliTPCExBExact) (b : Vec3)
    (hb : ∀ x, o.Field x = b) (hv : 0 < o.fDriftVelocity)
    (x0 : Vec3) (hz0 : 0 < |x0.z|) (hz1 : |x0.z| < 250) (n : ℤ) (hn : 1 ≤ n) (fuel : ℕ)
    (hfuel : ⌈250 * 0.01 / ((o.withSteps n).stepSize * (o.withSteps n).driftVec.z)⌉₊ ≤ fuel) :
    (o.withSteps n).CalculateDistortion fuel x0 = some (o.straightLineSpec x0) := by
  have hb' : ∀ x, (o.withSteps n).Field x = b := hb
  have hv' : 0 < (o.withSteps n).fDriftVelocity := hv
  have hn' : 1 ≤ (o.withSteps n).fkN := hn
  have hf := fuel_bound (o.withSteps n) hv' hn' fuel hfuel
  have h := CalculateDistortion_straightLine (o.withSteps n) b hb' hv' hn' fuel x0 hz0 hz1 hf
  rw [h]
  rfl

/-- C22. Step-count independence for a uniform field: for a spatially uniform `B`, a
positive drift velocity and a start point with `0 < |z0| < 250`, for all step counts
`N, N' ≥ 1` there is an amount of fuel from which `CalculateDistortion` returns, with
step count `N`, the straight-line end point of the specification
(`x0 - (mx/mz)(s·250 - z0)`, the analogue in `y`, `s·250 - s·v·|s·250 - z0|/|mz|`), and
with step count `N'` the same result. -/
theorem uniform_step_count_independent (o : AliTPCExBExact) (b : Vec3)
    (hb : ∀ x, o.Field x = b) (hv : 0 < o.fDriftVelocity)
    (x0 : Vec3) (hz0 : 0 < |x0.z|) (hz1 : |x0.z| < 250) (N N' : ℤ) (hN : 1 ≤ N)
    (hN' : 1 ≤ N') :
    ∃ F0 : ℕ, ∀ fuel fuel' : ℕ, F0 ≤ fuel → F0 ≤ fuel' →
      (o.withSteps N).CalculateDistortion fuel x0 = some (o.straightLineSpec x0)
        ∧ (o.withSteps N').CalculateDistortion fuel' x0
            = (o.withSteps N).CalculateDistortion fuel x0 := by
  refine ⟨max ⌈250 * 0.01 / ((o.withSteps N).stepSize * (o.withSteps N).driftVec.z)⌉₊
    ⌈250 * 0.01 / ((o.withSteps N').stepSize * (o.withSteps N').driftVec.z)⌉₊, ?_⟩
  intro fuel fuel' hf hf'
  have h1 := withSteps_straightLine o b hb hv x0 hz0 hz1 N hN fuel
    (le_trans (le_max_left _ _) hf)
  have h2 := withSteps_straightLine o b hb hv x0 hz0 hz1 N' hN' fuel'
    (le_trans (le_max_right _ _) hf')
  exact ⟨h1, by rw [h1, h2]⟩

/-- Witness for `uniform_step_count_independent`: a transverse field of 1 T, drift
velocity `40000`, the start point `(100, 0, 100)` and the step counts `1` and `7`. -/
theorem uniform_step_count_independent_witness :
    ∃ F0 : ℕ, ∀ fuel fuel' : ℕ, F0 ≤ fuel → F0 ≤ fuel' →
      (transverseX.withSteps 1).CalculateDistortion fuel ⟨100, 0, 100⟩
          = some (transverseX.straightLineSpec ⟨100, 0, 100⟩)
        ∧ (transverseX.withSteps 7).CalculateDistortion fuel' ⟨100, 0, 100⟩
            = (transverseX.withSteps 1).CalculateDistortion fuel ⟨100, 0, 100⟩ :=
  uniform_step_count_independent transverseX ⟨10, 0, 0⟩ (fun _ => rfl)
    (by norm_num [transverseX, init]) ⟨100, 0, 100⟩ (by norm_num)
    (by norm_num [abs_of_pos]) 1 7 (by norm_num) (by norm_num)

end AliTPCExBExact

namespace AliTPCExBExact

/-! ### The assignments made while the table is filled -/

end AliTPCExBExact

namespace AliTPCExBExact

theorem flat_offset (o : AliTPCExBExact) (i j k sd c : ℤ) :
    o.flat i j k sd c = o.flat i j k 0 0 + 3 * sd + c := by
  unfold flat
  ring

end AliTPCExBExact

namespace AliTPCExBExact

end AliTPCExBExact

namespace AliTPCExBExact

end AliTPCExBExact

namespace AliTPCExBExact

end AliTPCExBExact

namespace AliTPCExBExact

/-! ### Fields without a transverse component -/

/-- Where `Bx = By = 0` the drift is along `z` with the nominal speed, whatever `Bz`. -/
theorem Motion_axial (o : AliTPCExBExact) (x : Vec3) (t : ℚ)
    (hax : (o.GetB x).x = 0 ∧ (o.GetB x).y = 0) :
    o.Motion x t = ⟨0, 0, (if x.z < 0 then -1 else 1) * o.fDriftVelocity⟩ := by
  obtain ⟨hx, hy, hz⟩ := Motion_components o x t
  have hwx : (o.omega x).x = 0 := by
    show fgkEM * (o.GetB x).x = 0
    rw [hax.1, mul_zero]
  have hwy : (o.omega x).y = 0 := by
    show fgkEM * (o.GetB x).y = 0
    rw [hax.2, mul_zero]
  have hden := omega_den_pos o x
  rw [hwx, hwy] at hx hy hz hden
  have hv := tau_times_field o
  have hE : (GetE x).z = (if x.z < 0 then -1 else 1) * fgkDriftField := rfl
  have e : o.Motion x t = ⟨(o.Motion x t).x, (o.Motion x t).y, (o.Motion x t).z⟩ := rfl
  rw [e, hx, hy, hz, hE]
  simp only [Vec3.mk.injEq]
  refine ⟨by ring, by ring, ?_⟩
  have hd : (1 : ℚ) + (o.omega x).z ^ 2 * o.tauOf ^ 2 ≠ 0 := by
    have h0 : (1 : ℚ) + ((0 : ℚ) ^ 2 + 0 ^ 2 + (o.omega x).z ^ 2) * o.tauOf ^ 2
        = 1 + (o.omega x).z ^ 2 * o.tauOf ^ 2 := by ring
    rw [h0] at hden
    exact hden.ne'
  have h0 : (1 : ℚ) + ((0 : ℚ) ^ 2 + 0 ^ 2 + (o.omega x).z ^ 2) * o.tauOf ^ 2
      = 1 + (o.omega x).z ^ 2 * o.tauOf ^ 2 := by ring
  rw [h0, ← hv]
  field_simp
  split_ifs
  · ring
  · ring

theorem GetB_axial (o : AliTPCExBExact) (hax : ∀ x, (o.Field x).x = 0 ∧ (o.Field x).y = 0)
    (x : Vec3) : (o.GetB x).x = 0 ∧ (o.GetB x).y = 0 := by
  constructor
  · show (o.Field ⟨x.x * 100, x.y * 100, x.z * 100⟩).x / 10 = 0
    rw [(hax _).1, zero_div]
  · show (o.Field ⟨x.x * 100, x.y * 100, x.z * 100⟩).y / 10 = 0
    rw [(hax _).2, zero_div]

/-- The loop depends on the state of the corrector through `Motion` only. -/
theorem whileLoop_congr (o o' : AliTPCExBExact) (hM : ∀ x t, o.Motion x t = o'.Motion x t)
    (h : ℚ) (fuel : ℕ) : ∀ s, whileLoop o h fuel s = whileLoop o' h fuel s := by
  have hbody : ∀ s, o.loopBody h s = o'.loopBody h s := by
    intro s
    simp only [loopBody, DGLStep, hM]
  induction fuel with
  | zero =>
    intro s
    rfl
  | succ n ih =>
    intro s
    simp only [whileLoop, hbody, ih]

/-- In a field without transverse component the integration is that of the field-free
corrector. -/
theorem CalculateDistortion_fieldOff (o : AliTPCExBExact)
    (hax : ∀ x, (o.Field x).x = 0 ∧ (o.Field x).y = 0) (fuel : ℕ) (x0 : Vec3) :
    o.CalculateDistortion fuel x0 = o.fieldOff.CalculateDistortion fuel x0 := by
  have hM : ∀ x t, o.Motion x t = o.fieldOff.Motion x t := by
    intro x t
    rw [Motion_axial o x t (GetB_axial o hax x),
      Motion_axial o.fieldOff x t (GetB_axial o.fieldOff (fun _ => ⟨rfl, rfl⟩) x)]
    rfl
  unfold CalculateDistortion
  rw [whileLoop_congr o o.fieldOff hM]
  rfl

theorem fillTable_fieldOff (o : AliTPCExBExact)
    (hax : ∀ x, (o.Field x).x = 0 ∧ (o.Field x).y = 0) (fuel : ℕ) :
    o.fillTable fuel = o.fieldOff.fillTable fuel := by
  have hnode : ∀ i j k look, o.fillNode fuel i j k look
      = o.fieldOff.fillNode fuel i j k look := by
    intro i j k look
    unfold fillNode
    rw [CalculateDistortion_fieldOff o hax, CalculateDistortion_fieldOff o hax]
    rfl
  unfold fillTable
  simp only [hnode]
  rfl

/-- The analytic-field constructor builds, for a field without transverse component, the
table of the field-free corrector. -/
theorem construct_fieldOff (bField : Vec3 → Vec3)
    (hax : ∀ x, (bField x).x = 0 ∧ (bField x).y = 0) (v : ℚ) (nx ny nz n : ℤ)
    (zmin : ℚ) (look : ℤ → ℚ) (fuel : ℕ) :
    construct bField v nx ny nz n zmin look fuel
      = (construct (fun _ => ⟨0, 0, 0⟩) v nx ny nz n zmin look fuel).map
          fun o => { o with Field := bField } := by
  unfold construct CreateLookupTable
  rw [fillTable_fieldOff (init bField v nx ny nz n zmin look) hax]
  show Option.map _ ((init (fun _ => ⟨0, 0, 0⟩) v nx ny nz n zmin look).fillTable fuel) = _
  cases (init (fun _ => ⟨0, 0, 0⟩) v nx ny nz n zmin look).fillTable fuel with
  | none => rfl
  | some lk => rfl

end AliTPCExBExact

namespace AliTPCExBExact

/-- The round trip in a field without transverse component: the construction ends with
`n` units of fuel, the forward-distorted position of a point is the point itself, and
`Correct` returns it unchanged beyond the first cell in `z`. -/
theorem construct_axial_round_trip (bField : Vec3 → Vec3)
    (hax : ∀ x, (bField x).x = 0 ∧ (bField x).y = 0) (v : ℚ) (hv : 0 < v)
    (nx ny nz n : ℤ) (hn : 1 ≤ n) (hnx : 2 ≤ nx) (hny : 2 ≤ ny) (hnz : 3 ≤ nz)
    (hsp : nz ≤ 2500001) (zmin : ℚ) (look : ℤ → ℚ) (fuel : ℕ) (hfuel : n ≤ fuel) :
    ∃ o, construct bField v nx ny nz n zmin look fuel = some o
      ∧ ∀ (Sqrt : ℚ → ℚ) (p : Vec3), 0 < |p.z| → |p.z| < 250 →
          ∃ s, whileLoop o o.stepSize fuel (initState p) = some s
            ∧ o.crossing p s = p
            ∧ (¬ outside Sqrt (o.crossing p s) →
                250 ≤ |(o.crossing p s).z| * ((nz : ℚ) - 1) →
                o.Correct Sqrt (o.crossing p s) = p) := by
  obtain ⟨o0, ho0, hspec⟩ := construct_zero_field_spec (fun _ => ⟨0, 0, 0⟩) (fun _ => rfl)
    v hv nx ny nz n hn hnx hny (by omega) hsp zmin look fuel hfuel
  have hform : ∃ lk, o0 = { init (fun _ => ⟨0, 0, 0⟩) v nx ny nz n zmin look
      with fLook := lk } := by
    unfold construct CreateLookupTable at ho0
    obtain ⟨lk, -, e⟩ := Option.map_eq_some'.mp ho0
    exact ⟨lk, e.symm⟩
  obtain ⟨lk, rfl⟩ := hform
  refine ⟨{ init bField v nx ny nz n zmin look with fLook := lk }, ?_, ?_⟩
  · rw [construct_fieldOff bField hax, ho0]
    rfl
  · intro Sqrt p hz0 hz1
    have hz : p.z ≠ 0 := abs_pos.mp hz0
    have hcd : ({ init bField v nx ny nz n zmin look with fLook := lk } :
        AliTPCExBExact).CalculateDistortion fuel p = some p := by
      rw [CalculateDistortion_fieldOff _ hax]
      exact CalculateDistortion_zero_field _ (fun _ => rfl) hv hn fuel hfuel p hz
    unfold CalculateDistortion at hcd
    obtain ⟨s, hs, hr⟩ := Option.map_eq_some'.mp hcd
    have hcr : ({ init bField v nx ny nz n zmin look with fLook := lk } :
        AliTPCExBExact).crossing p s = p := by
      have e1 := congrArg Vec3.x hr
      have e2 := congrArg Vec3.y hr
      have e3 := congrArg Vec3.z hr
      simp only [reverse] at e1 e2 e3
      have e : ∀ a b : Vec3, a.x = b.x → a.y = b.y → a.z = b.z → a = b := by
        intro a b h1 h2 h3
        cases a
        cases b
        simp only [Vec3.mk.injEq]
        exact ⟨h1, h2, h3⟩
      exact e _ _ (by linarith) (by linarith) e3
    refine ⟨s, hs, hcr, ?_⟩
    rw [hcr]
    intro hin hbeyond
    obtain ⟨c1, c2, c3, -⟩ := hspec Sqrt p hin
    have c3' := c3 hnz hbeyond
    have e : ∀ a b : Vec3, a.x = b.x → a.y = b.y → a.z = b.z → a = b := by
      intro a b h1 h2 h3
      cases a
      cases b
      simp only [Vec3.mk.injEq]
      exact ⟨h1, h2, h3⟩
    exact e _ _ c1 c2 c3'

end AliTPCExBExact

namespace AliTPCExBExact

/-- In a uniform field with a transverse component the drift is slower along `z` than
the nominal drift velocity and has a transverse component of its own. -/
theorem driftVec_transverse (o : AliTPCExBExact) (b : Vec3) (hb : ∀ x, o.Field x = b)
    (hv : 0 < o.fDriftVelocity) (ht : b.x ≠ 0 ∨ b.y ≠ 0) :
    o.driftVec.z < o.fDriftVelocity ∧ (o.driftVec.x ≠ 0 ∨ o.driftVec.y ≠ 0) := by
  have hE := fgkEM_pos
  have hD := fgkDriftField_pos
  have hVz := o.driftVec_z_pos hv
  have hB : ¬ ((o.GetB ⟨0, 0, 0⟩).x = 0 ∧ (o.GetB ⟨0, 0, 0⟩).y = 0) := by
    intro h
    have h1 : b.x / 10 = 0 := by
      have := h.1
      simp only [GetB, hb] at this
      exact this
    have h2 : b.y / 10 = 0 := by
      have := h.2
      simp only [GetB, hb] at this
      exact this
    rcases ht with h' | h'
    · exact h' (by linarith)
    · exact h' (by linarith)
  have hle := Motion_norm_le o ⟨0, 0, 0⟩ 0
  have hne : ¬ ((o.Motion ⟨0, 0, 0⟩ 0).x ^ 2 + (o.Motion ⟨0, 0, 0⟩ 0).y ^ 2
      + (o.Motion ⟨0, 0, 0⟩ 0).z ^ 2 = o.fDriftVelocity ^ 2) := by
    intro h
    rcases (Motion_norm_eq_iff o ⟨0, 0, 0⟩ 0).mp h with h' | h'
    · exact hv.ne' h'
    · exact hB h'
  have hlt : (o.Motion ⟨0, 0, 0⟩ 0).x ^ 2 + (o.Motion ⟨0, 0, 0⟩ 0).y ^ 2
      + (o.Motion ⟨0, 0, 0⟩ 0).z ^ 2 < o.fDriftVelocity ^ 2 := lt_of_le_of_ne hle hne
  constructor
  · by_contra hcon
    have h1 : o.fDriftVelocity ≤ o.driftVec.z := not_lt.mp hcon
    have h2 : o.fDriftVelocity ^ 2 ≤ o.driftVec.z ^ 2 := by
      have := mul_self_le_mul_self hv.le h1
      nlinarith
    have h3 := sq_nonneg (o.Motion ⟨0, 0, 0⟩ 0).x
    have h4 := sq_nonneg (o.Motion ⟨0, 0, 0⟩ 0).y
    have h5 : o.driftVec.z = (o.Motion ⟨0, 0, 0⟩ 0).z := rfl
    rw [h5] at h2
    linarith
  · by_contra hcon
    have hx0 : o.driftVec.x = 0 := by
      by_contra h
      exact hcon (Or.inl h)
    have hy0 : o.driftVec.y = 0 := by
      by_contra h
      exact hcon (Or.inr h)
    have e : o.fDriftVelocity ^ 2 ≤ o.driftVec.z ^ 2 ∨ True := Or.inr trivial
    obtain ⟨cx, cy, -⟩ := Motion_components o ⟨0, 0, 0⟩ 0
    have hτ : o.tauOf ≠ 0 := by
      intro h
      have := tau_times_field o
      rw [h, zero_mul] at this
      exact hv.ne' this.symm
    have hden := (omega_den_pos o ⟨0, 0, 0⟩).ne'
    have hEz : (GetE ⟨0, 0, 0⟩).z ≠ 0 := by
      rw [(GetE_z_cases ⟨0, 0, 0⟩).2 (by norm_num)]
      exact hD.ne'
    have hK : fgkEM * (GetE ⟨0, 0, 0⟩).z
        * (o.tauOf / (1 + ((o.omega ⟨0, 0, 0⟩).x ^ 2 + (o.omega ⟨0, 0, 0⟩).y ^ 2
          + (o.omega ⟨0, 0, 0⟩).z ^ 2) * o.tauOf ^ 2)) ≠ 0 :=
      mul_ne_zero (mul_ne_zero hE.ne' hEz) (div_ne_zero hτ hden)
    have hx' : (o.Motion ⟨0, 0, 0⟩ 0).x = 0 := hx0
    have hy' : (o.Motion ⟨0, 0, 0⟩ 0).y = 0 := hy0
    rw [hx', mul_assoc] at cx
    rw [hy', mul_assoc] at cy
    have hA := (mul_eq_zero.mp cx.symm).resolve_right hK
    have hBq := (mul_eq_zero.mp cy.symm).resolve_right hK
    have hsum : o.tauOf * ((o.omega ⟨0, 0, 0⟩).x ^ 2 + (o.omega ⟨0, 0, 0⟩).y ^ 2) = 0 := by
      linear_combination (o.omega ⟨0, 0, 0⟩).x * hBq - (o.omega ⟨0, 0, 0⟩).y * hA
    have hsq := (mul_eq_zero.mp hsum).resolve_left hτ
    have hwx : (o.omega ⟨0, 0, 0⟩).x = 0 := by
      have := sq_nonneg (o.omega ⟨0, 0, 0⟩).x
      have := sq_nonneg (o.omega ⟨0, 0, 0⟩).y
      exact (pow_eq_zero_iff (two_ne_zero)).mp (by linarith)
    have hwy : (o.omega ⟨0, 0, 0⟩).y = 0 := by
      have := sq_nonneg (o.omega ⟨0, 0, 0⟩).x
      have := sq_nonneg (o.omega ⟨0, 0, 0⟩).y
      exact (pow_eq_zero_iff (two_ne_zero)).mp (by linarith)
    apply hB
    constructor
    · have : fgkEM * (o.GetB ⟨0, 0, 0⟩).x = 0 := hwx
      exact (mul_eq_zero.mp this).resolve_left hE.ne'
    · have : fgkEM * (o.GetB ⟨0, 0, 0⟩).y = 0 := hwy
      exact (mul_eq_zero.mp this).resolve_left hE.ne'

end AliTPCExBExact

namespace AliTPCExBExact

/-- The round trip in a uniform field with a transverse component: beyond the first cell
in `z`, `Correct` returns the forward-distorted position of `p` to a point whose `x` and
`y` differ from those of `p` by `(250 - z_p)(1 - v/Vz)·(Vx, Vy)/Vz`, which is not zero. -/
theorem construct_transverse_round_trip (b : Vec3) (ht : b.x ≠ 0 ∨ b.y ≠ 0) (v : ℚ)
    (hv : 0 < v) (nx ny nz n : ℤ) (hn : 1 ≤ n) (hnx : 2 ≤ nx) (hny : 2 ≤ ny) (hnz : 3 ≤ nz)
    (hsp : nz ≤ 2500001) (zmin : ℚ) (look : ℤ → ℚ) (fuel : ℕ)
    (hf : 250 * 0.01 ≤ fuel * ((init (fun _ => b) v nx ny nz n zmin look).stepSize
      * (init (fun _ => b) v nx ny nz n zmin look).driftVec.z)) :
    ∃ o, construct (fun _ => b) v nx ny nz n zmin look fuel = some o
      ∧ o.driftVec = (init (fun _ => b) v 2 2 2 1 0 zeroLook).driftVec
      ∧ ∀ (Sqrt : ℚ → ℚ) (p : Vec3), 0 < p.z → p.z < 250 →
          ∃ s, whileLoop o o.stepSize fuel (initState p) = some s
            ∧ (¬ outside Sqrt (o.crossing p s) →
                250 ≤ (o.crossing p s).z * ((nz : ℚ) - 1) →
                (o.Correct Sqrt (o.crossing p s)).x
                    = p.x + (250 - p.z) * (1 - v / o.driftVec.z)
                        * (o.driftVec.x / o.driftVec.z)
                  ∧ (o.Correct Sqrt (o.crossing p s)).y
                    = p.y + (250 - p.z) * (1 - v / o.driftVec.z)
                        * (o.driftVec.y / o.driftVec.z)
                  ∧ ((o.Correct Sqrt (o.crossing p s)).x ≠ p.x
                      ∨ (o.Correct Sqrt (o.crossing p s)).y ≠ p.y)) := by
  obtain ⟨o, ho, hov, hoV, hrt⟩ :=
    construct_round_trip b v hv nx ny nz n hn hnx hny hnz hsp zmin look fuel hf
  have hT := driftVec_transverse (init (fun _ => b) v nx ny nz n zmin look) b
    (fun _ => rfl) hv ht
  rw [← hoV] at hT
  have hVz : 0 < o.driftVec.z := by
    rw [hoV]
    exact driftVec_z_pos _ hv
  have hlt : o.driftVec.z < v := hT.1
  refine ⟨o, ho, by rw [hoV]; rfl, ?_⟩
  intro Sqrt p hp0 hp1
  obtain ⟨s, hs, hcr, hco⟩ := hrt Sqrt p hp0 hp1
  refine ⟨s, hs, ?_⟩
  rw [hcr]
  intro hin hbeyond
  have h := hco hin hbeyond
  rw [straight_forward, hov] at h
  have ex := congrArg Vec3.x h
  have ey := congrArg Vec3.y h
  simp only at ex ey
  refine ⟨ex, ey, ?_⟩
  have hfac : (250 - p.z) * (1 - v / o.driftVec.z) ≠ 0 := by
    apply mul_ne_zero
    · linarith
    · have : 1 < v / o.driftVec.z := by
        rw [lt_div_iff₀ hVz]
        linarith
      linarith
  rcases hT.2 with hx | hy
  · left
    rw [ex]
    intro e
    have : (250 - p.z) * (1 - v / o.driftVec.z) * (o.driftVec.x / o.driftVec.z) = 0 := by
      linarith
    rcases mul_eq_zero.mp this with h1 | h1
    · exact hfac h1
    · exact hx ((div_eq_zero_iff.mp h1).resolve_right hVz.ne')
  · right
    rw [ey]
    intro e
    have : (250 - p.z) * (1 - v / o.driftVec.z) * (o.driftVec.y / o.driftVec.z) = 0 := by
      linarith
    rcases mul_eq_zero.mp this with h1 | h1
    · exact hfac h1
    · exact hy ((div_eq_zero_iff.mp h1).resolve_right hVz.ne')

end AliTPCExBExact

namespace AliTPCExBExact

/-- C14 (as amended). Round trip: for a corrector built by the analytic-field
constructor with drift velocity `v > 0`, `n ≥ 1` steps, `nx, ny ≥ 2` and
`3 ≤ nz ≤ 2500001`:

* in every field without transverse component (`Bx = By = 0` at every point, `Bz`
  arbitrary and not necessarily uniform) the construction ends with `n` units of fuel,
  the forward-distorted position `q` of a point `p` with `0 < |z| < 250` (the crossing,
  before the sign inversion) is `p` itself and, when `q` is in-volume and at least one
  cell away from the cathode, `Correct q = p` exactly, whatever the grid;
* in every uniform field with a transverse component the construction ends for all
  large enough fuel and, for `0 < z < 250` and `q` in-volume at least one cell away
  from the cathode, `Correct q` differs from `p` in `x` or `y`, by
  `(250 - z_p)(1 - v/Vz)·(Vx, Vy)/Vz` with `V` the drift vector, which depends on the
  field and `v` only and not on the grid: no bound by the grid resolution holds. -/
theorem round_trip_axial_field (v : ℚ) (hv : 0 < v) (nx ny nz n : ℤ)
    (hn : 1 ≤ n) (hnx : 2 ≤ nx) (hny : 2 ≤ ny) (hnz : 3 ≤ nz) (hsp : nz ≤ 2500001)
    (zmin : ℚ) (look : ℤ → ℚ) :
    (∀ bField : Vec3 → Vec3, (∀ x, (bField x).x = 0 ∧ (bField x).y = 0) →
      ∀ fuel : ℕ, n ≤ fuel →
        ∃ o, construct bField v nx ny nz n zmin look fuel = some o
          ∧ ∀ (Sqrt : ℚ → ℚ) (p : Vec3), 0 < |p.z| → |p.z| < 250 →
            ∃ s, whileLoop o o.stepSize fuel (initState p) = some s
              ∧ o.crossing p s = p
              ∧ (¬ outside Sqrt (o.crossing p s) →
                  250 ≤ |(o.crossing p s).z| * ((nz : ℚ) - 1) →
                  o.Correct Sqrt (o.crossing p s) = p))
      ∧ (∀ b : Vec3, (b.x ≠ 0 ∨ b.y ≠ 0) →
        ∃ F0 : ℕ, ∀ fuel, F0 ≤ fuel →
          ∃ o, construct (fun _ => b) v nx ny nz n zmin look fuel = some o
            ∧ o.driftVec = (init (fun _ => b) v 2 2 2 1 0 zeroLook).driftVec
            ∧ ∀ (Sqrt : ℚ → ℚ) (p : Vec3), 0 < p.z → p.z < 250 →
              ∃ s, whileLoop o o.stepSize fuel (initState p) = some s
                ∧ (¬ outside Sqrt (o.crossing p s) →
                    250 ≤ (o.crossing p s).z * ((nz : ℚ) - 1) →
                    (o.Correct Sqrt (o.crossing p s)).x
                        = p.x + (250 - p.z) * (1 - v / o.driftVec.z)
                            * (o.driftVec.x / o.driftVec.z)
                      ∧ (o.Correct Sqrt (o.crossing p s)).y
                        = p.y + (250 - p.z) * (1 - v / o.driftVec.z)
                            * (o.driftVec.y / o.driftVec.z)
                      ∧ ((o.Correct Sqrt (o.crossing p s)).x ≠ p.x
                          ∨ (o.Correct Sqrt (o.crossing p s)).y ≠ p.y))) := by
  constructor
  · intro bField hax fuel hfuel
    exact construct_axial_round_trip bField hax v hv nx ny nz n hn hnx hny hnz hsp zmin
      look fuel hfuel
  · intro b ht
    have hvi : 0 < (init (fun _ => b) v nx ny nz n zmin look).fDriftVelocity := hv
    have hni : 1 ≤ (init (fun _ => b) v nx ny nz n zmin look).fkN := hn
    refine ⟨⌈250 * 0.01 / ((init (fun _ => b) v nx ny nz n zmin look).stepSize
      * (init (fun _ => b) v nx ny nz n zmin look).driftVec.z)⌉₊, ?_⟩
    intro fuel hfuel
    exact construct_transverse_round_trip b ht v hv nx ny nz n hn hnx hny hnz hsp zmin look
      fuel (fuel_bound _ hvi hni fuel hfuel)

/-- Witness for `round_trip_axial_field`: the non-uniform field `B = (0, 0, z)`, drift
velocity `40000`, one nominal step, a `101×101×101` grid and fuel `1`. -/
theorem round_trip_axial_field_witness :
    ∃ o, construct (fun x => ⟨0, 0, x.z⟩) 40000 101 101 101 1 0 zeroLook 1 = some o
      ∧ ∀ (Sqrt : ℚ → ℚ) (p : Vec3), 0 < |p.z| → |p.z| < 250 →
        ∃ s, whileLoop o o.stepSize 1 (initState p) = some s
          ∧ o.crossing p s = p
          ∧ (¬ outside Sqrt (o.crossing p s) →
              250 ≤ |(o.crossing p s).z| * (((101 : ℤ) : ℚ) - 1) →
              o.Correct Sqrt (o.crossing p s) = p) :=
  (round_trip_axial_field 40000 (by norm_num) 101 101 101 1 (by norm_num) (by norm_num)
    (by norm_num) (by norm_num) (by norm_num) 0 zeroLook).1 (fun x => ⟨0, 0, x.z⟩)
    (fun _ => ⟨rfl, rfl⟩) 1 (by norm_num)

end AliTPCExBExact

namespace AliTPCExBExact

/-! ### Rounding to double precision -/

end AliTPCExBExact

namespace AliTPCExBExact

end AliTPCExBExact

namespace AliTPCExBExact

/-! ### The roundings of one integration in double precision -/

end AliTPCExBExact

namespace AliTPCExBExact

/-! ### Ten steps where nine are nominal -/

end AliTPCExBExact

namespace AliTPCExBExact

end AliTPCExBExact
